import Mathlib

/-!
# CPU scheduling simulator: shallow embedding of `processScheduling.cpp`

The six scheduling routines of the simulator are embedded as functions on
lists of `Process` records.  `int` values are integers (`Int`), counters and
vector indices are natural numbers, `INT_MAX` is the 32-bit constant.  The sums
and differences are those of the program wherever they stay within the range
of `int`; a premise that the latest arrival plus the burst times, or the
safety bound, is at most `INT_MAX` keeps them there.  A `while` loop is a
recursion on a fuel counter: a run that needs more iterations than the fuel
allows ends in `Fault.fuelExhausted`, and a read of `procs[-1]` (the scan
variable still at its initial `-1`) ends in `Fault.outOfBounds`.
-/

namespace CPUScheduler

/-! ## Data model -/

/-- The record `struct Process`. -/
structure Process where
  id : Int
  name : String
  arrivalTime : Int
  burstTime : Int
  priority : Int
  remainingTime : Int
  completionTime : Int
  waitingTime : Int
  turnaroundTime : Int
  responseTime : Int
  started : Bool
  deriving DecidableEq, Repr

/-- The constructor `Process(int i, string n, int at, int bt, int p)`. -/
def Process.create (i : Int) (n : String) (a bt p : Int) : Process :=
  { id := i, name := n, arrivalTime := a, burstTime := bt, priority := p,
    remainingTime := bt, completionTime := 0, waitingTime := 0,
    turnaroundTime := 0, responseTime := -1, started := false }

/-- The constant `INT_MAX` of `<climits>` for a 32-bit `int`. -/
def INT_MAX : Int := 2147483647

/-- The ways a run can fail to produce a result. -/
inductive Fault where
  | outOfBounds
  | fuelExhausted
  deriving DecidableEq, Repr

deriving instance DecidableEq for Except

/-- The workload built by `loadSampleData`. -/
def sampleData : List Process :=
  [Process.create 1 "P1" 0 5 2, Process.create 2 "P2" 1 3 1,
   Process.create 3 "P3" 2 8 3, Process.create 4 "P4" 3 6 2]

/-! ## displayResults: the utilisation figures -/

/-- The `maxCompletionTime` accumulated by `displayResults`. -/
def maxCompletionTime (procs : List Process) : Int :=
  procs.foldl (fun m p => max m p.completionTime) 0

/-- The `totalBurstTime` accumulated by `displayResults`. -/
def totalBurstTime (procs : List Process) : Int :=
  procs.foldl (fun s p => s + p.burstTime) 0

/-- The comparator handed to `std::sort` in `fcfs`. -/
def fcfsBefore (a b : Process) : Bool :=
  if a.arrivalTime = b.arrivalTime then decide (a.id < b.id)
  else decide (a.arrivalTime < b.arrivalTime)

/-- The order `std::sort` establishes: `b` is not strictly before `a`. -/
def fcfsLe (a b : Process) : Prop := fcfsBefore b a = false

instance : DecidableRel fcfsLe := fun a b => by unfold fcfsLe; infer_instance

instance : IsTotal Process fcfsLe :=
  ⟨fun a b => by
    unfold fcfsLe fcfsBefore
    by_cases h : a.arrivalTime = b.arrivalTime
    · rw [if_pos h, if_pos h.symm]
      simp only [decide_eq_false_iff_not]; omega
    · rw [if_neg h, if_neg (Ne.symm h)]
      simp only [decide_eq_false_iff_not]; omega⟩

instance : IsTrans Process fcfsLe :=
  ⟨fun a b c hab hbc => by
    unfold fcfsLe fcfsBefore at *
    split_ifs at hab hbc ⊢ <;> simp only [decide_eq_false_iff_not, not_lt] at hab hbc ⊢ <;>
      omega⟩

/-- The call `sort(procs.begin(), procs.end(), cmp)` of `fcfs`: a permutation
ordered by the comparator (an insertion sort; where the ids are distinct the
comparator is a strict total order and every sorting routine returns this
same list). -/
def sortByArrival (procs : List Process) : List Process :=
  procs.insertionSort fcfsLe

/-- The body of `for (auto &p : procs)` in `fcfs`, from clock `currentTime`.
The sums are those of `int` where the clock stays at most `INT_MAX`, which is
so when the latest arrival plus the burst times is at most `INT_MAX`. -/
def fcfsRun : Int → List Process → List Process
  | _, [] => []
  | currentTime, p :: rest =>
    let currentTime1 := if currentTime < p.arrivalTime then p.arrivalTime else currentTime
    let responseTime := currentTime1 - p.arrivalTime
    let currentTime2 := currentTime1 + p.burstTime
    let completionTime := currentTime2
    let turnaroundTime := completionTime - p.arrivalTime
    let waitingTime := turnaroundTime - p.burstTime
    { p with responseTime := responseTime, completionTime := completionTime,
             turnaroundTime := turnaroundTime, waitingTime := waitingTime }
      :: fcfsRun currentTime2 rest

/-- The routine `fcfs`: the list handed to `displayResults`. -/
def fcfs (processes : List Process) : List Process :=
  fcfsRun 0 (sortByArrival processes)

/-! ## The selection scan shared by sjf, srtf and the two priority routines -/

/-- The scan `for (i = 0; i < n; i++) if (eligible) if (key < min || (key == min
&& procs[i].arrivalTime < procs[best].arrivalTime)) { min = key; best = i; }`,
run over the not yet visited suffix of `procs` from index `i`.  `best = none`
stands for the initial `-1`; reading `procs[best]` then is out of bounds. -/
def scanFrom (procs : List Process) (key : Process → Int) (eligible : Nat → Process → Bool) :
    List Process → Nat → Option Nat → Int → Except Fault (Option Nat × Int)
  | [], _, best, minKey => .ok (best, minKey)
  | p :: rest, i, best, minKey =>
    if eligible i p then
      if key p < minKey then scanFrom procs key eligible rest (i + 1) (some i) (key p)
      else if key p = minKey then
        match best with
        | none => .error .outOfBounds
        | some b =>
          match procs[b]? with
          | none => .error .outOfBounds
          | some q =>
            if p.arrivalTime < q.arrivalTime then
              scanFrom procs key eligible rest (i + 1) (some i) (key p)
            else scanFrom procs key eligible rest (i + 1) best minKey
      else scanFrom procs key eligible rest (i + 1) best minKey
    else scanFrom procs key eligible rest (i + 1) best minKey

/-- The whole scan, from `best = -1` and `min = INT_MAX`. -/
def scan (procs : List Process) (key : Process → Int) (eligible : Nat → Process → Bool) :
    Except Fault (Option Nat × Int) :=
  scanFrom procs key eligible procs 0 none INT_MAX

/-- The loop `nextArrival = min(nextArrival, procs[i].arrivalTime)` over the
processes that satisfy `pending`, from index `i`. -/
def nextArrivalFrom (pending : Nat → Process → Bool) : List Process → Nat → Int → Int
  | [], _, nextArrival => nextArrival
  | p :: rest, i, nextArrival =>
    nextArrivalFrom pending rest (i + 1)
      (if pending i p then min nextArrival p.arrivalTime else nextArrival)

/-! ## sjf and priorityNonPreemptive -/

/-- The local variables of `sjf` and of `priorityNonPreemptive`. -/
structure NPState where
  procs : List Process
  isCompleted : List Bool
  currentTime : Int
  completedCount : Nat
  deriving DecidableEq, Repr

/-- The test `!isCompleted[i] && procs[i].arrivalTime <= currentTime`. -/
def NPState.ready (st : NPState) (i : Nat) (p : Process) : Bool :=
  !(st.isCompleted.getD i false) && decide (p.arrivalTime ≤ st.currentTime)

/-- The test `!isCompleted[i] && procs[i].arrivalTime > currentTime`. -/
def NPState.pending (st : NPState) (i : Nat) (p : Process) : Bool :=
  !(st.isCompleted.getD i false) && decide (p.arrivalTime > st.currentTime)

/-- The statements that run `procs[b]` to completion. The sum `currentTime +=
burstTime` is that of `int` where the clock stays at most `INT_MAX`, which is
so when the latest arrival plus the burst times is at most `INT_MAX`. -/
def NPState.dispatch (st : NPState) (b : Nat) (q : Process) : NPState :=
  let responseTime := st.currentTime - q.arrivalTime
  let currentTime := st.currentTime + q.burstTime
  let completionTime := currentTime
  let turnaroundTime := completionTime - q.arrivalTime
  let waitingTime := turnaroundTime - q.burstTime
  { procs := st.procs.set b
      { q with responseTime := responseTime, completionTime := completionTime,
               turnaroundTime := turnaroundTime, waitingTime := waitingTime }
    isCompleted := st.isCompleted.set b true
    currentTime := currentTime
    completedCount := st.completedCount + 1 }

/-- The branch `if (best == -1)`: jump to the next arrival, or tick. -/
def NPState.idle (st : NPState) : NPState :=
  let nextArrival := nextArrivalFrom st.pending st.procs 0 INT_MAX
  { st with currentTime := if nextArrival = INT_MAX then st.currentTime + 1 else nextArrival }

/-- One iteration of `while (completedCount < n)`. -/
def npStep (key : Process → Int) (st : NPState) : Except Fault NPState :=
  match scan st.procs key st.ready with
  | .error e => .error e
  | .ok (none, _) => .ok st.idle
  | .ok (some b, _) =>
    match st.procs[b]? with
    | none => .error .outOfBounds
    | some q => .ok (st.dispatch b q)

/-- The loop `while (completedCount < n)`, at most `fuel` iterations. -/
def npLoop (key : Process → Int) : Nat → NPState → Except Fault NPState
  | 0, st => if st.completedCount < st.procs.length then .error .fuelExhausted else .ok st
  | fuel + 1, st =>
    if st.completedCount < st.procs.length then
      match npStep key st with
      | .error e => .error e
      | .ok st1 => npLoop key fuel st1
    else .ok st

/-- The initial locals of `sjf` and `priorityNonPreemptive`. -/
def NPState.init (processes : List Process) : NPState :=
  { procs := processes, isCompleted := List.replicate processes.length false,
    currentTime := 0, completedCount := 0 }

/-- The routine shared by `sjf` and `priorityNonPreemptive`, which differ in
the field the scan minimises only. -/
def nonPreemptive (key : Process → Int) (fuel : Nat) (processes : List Process) :
    Except Fault (List Process) :=
  if processes.isEmpty then .ok []
  else (npLoop key fuel (NPState.init processes)).map NPState.procs

/-- The routine `sjf`: the list handed to `displayResults`. -/
def sjf (fuel : Nat) (processes : List Process) : Except Fault (List Process) :=
  nonPreemptive Process.burstTime fuel processes

/-- The routine `priorityNonPreemptive`: the list handed to `displayResults`. -/
def priorityNonPreemptive (fuel : Nat) (processes : List Process) :
    Except Fault (List Process) :=
  nonPreemptive Process.priority fuel processes

/-! ## srtf and priorityPreemptive -/

/-- The local variables of `srtf` and of `priorityPreemptive`. -/
structure PState where
  procs : List Process
  currentTime : Int
  completed : Nat
  deriving DecidableEq, Repr

/-- The test `procs[i].arrivalTime <= currentTime && procs[i].remainingTime > 0`. -/
def PState.ready (st : PState) (_i : Nat) (p : Process) : Bool :=
  decide (p.arrivalTime ≤ st.currentTime) && decide (p.remainingTime > 0)

/-- The statements that run `procs[b]` for one time unit. -/
def PState.tick (st : PState) (b : Nat) (q : Process) : PState :=
  let q1 : Process :=
    if !q.started then
      { q with responseTime := st.currentTime - q.arrivalTime, started := true }
    else q
  let q2 : Process := { q1 with remainingTime := q1.remainingTime - 1 }
  let currentTime := st.currentTime + 1
  if q2.remainingTime = 0 then
    let completionTime := currentTime
    let turnaroundTime := completionTime - q2.arrivalTime
    let waitingTime := turnaroundTime - q2.burstTime
    { procs := st.procs.set b
        { q2 with completionTime := completionTime, turnaroundTime := turnaroundTime,
                  waitingTime := waitingTime }
      currentTime := currentTime
      completed := st.completed + 1 }
  else
    { procs := st.procs.set b q2, currentTime := currentTime, completed := st.completed }

/-- One iteration of `while (completed < n && currentTime < maxTime)`. -/
def pStep (key : Process → Int) (st : PState) : Except Fault PState :=
  match scan st.procs key st.ready with
  | .error e => .error e
  | .ok (none, _) => .ok { st with currentTime := st.currentTime + 1 }
  | .ok (some b, _) =>
    match st.procs[b]? with
    | none => .error .outOfBounds
    | some q => .ok (st.tick b q)

/-- The loop `while (completed < n && currentTime < maxTime)`, at most `fuel`
iterations. -/
def pLoop (key : Process → Int) (maxTime : Int) : Nat → PState → Except Fault PState
  | 0, st =>
    if st.completed < st.procs.length ∧ st.currentTime < maxTime then .error .fuelExhausted
    else .ok st
  | fuel + 1, st =>
    if st.completed < st.procs.length ∧ st.currentTime < maxTime then
      match pStep key st with
      | .error e => .error e
      | .ok st1 => pLoop key maxTime fuel st1
    else .ok st

/-- The safety bound `maxTime`: all burst times, plus `procs[n-1].arrivalTime`,
plus 1000. It is the value the program computes where it is at most
`INT_MAX`. -/
def maxTimeOf (procs : List Process) (last : Process) : Int :=
  totalBurstTime procs + (last.arrivalTime + 1000)

/-- The locals of `srtf` and `priorityPreemptive` when the loop is left; the
two routines differ in the field the scan minimises only. -/
def preemptiveRun (key : Process → Int) (fuel : Nat) (processes : List Process) :
    Except Fault PState :=
  match processes.getLast? with
  | none => .ok { procs := [], currentTime := 0, completed := 0 }
  | some last =>
    pLoop key (maxTimeOf processes last) fuel
      { procs := processes, currentTime := 0, completed := 0 }

/-- The locals of `srtf` when its loop is left. -/
def srtfRun (fuel : Nat) (processes : List Process) : Except Fault PState :=
  preemptiveRun Process.remainingTime fuel processes

/-- The locals of `priorityPreemptive` when its loop is left. -/
def priorityPreemptiveRun (fuel : Nat) (processes : List Process) : Except Fault PState :=
  preemptiveRun Process.priority fuel processes

/-- The routine `srtf`: the list handed to `displayResults`. -/
def srtf (fuel : Nat) (processes : List Process) : Except Fault (List Process) :=
  (srtfRun fuel processes).map PState.procs

/-- The routine `priorityPreemptive`: the list handed to `displayResults`. -/
def priorityPreemptive (fuel : Nat) (processes : List Process) :
    Except Fault (List Process) :=
  (priorityPreemptiveRun fuel processes).map PState.procs

/-! ## roundRobin -/

/-- The local variables of `roundRobin`. -/
structure RRState where
  procs : List Process
  readyQueue : List Nat
  inQueue : List Bool
  currentTime : Int
  completed : Nat
  deriving DecidableEq, Repr

/-- The enqueue loops `for (i = 0; i < n; i++) if (cond) { readyQueue.push(i);
inQueue[i] = true; }`, over the not yet visited suffix of `procs` from index
`i`; `cond` sees the current `inQueue`. -/
def enqueueFrom (cond : List Bool → Nat → Process → Bool) :
    List Process → Nat → List Nat → List Bool → List Nat × List Bool
  | [], _, readyQueue, inQueue => (readyQueue, inQueue)
  | p :: rest, i, readyQueue, inQueue =>
    if cond inQueue i p then
      enqueueFrom cond rest (i + 1) (readyQueue ++ [i]) (inQueue.set i true)
    else enqueueFrom cond rest (i + 1) readyQueue inQueue

/-- The branch `if (readyQueue.empty())`: `none` is the `break`. -/
def RRState.jump (st : RRState) : Option RRState :=
  let nextArrival := nextArrivalFrom
    (fun _ p => decide (p.remainingTime > 0) && decide (p.arrivalTime > st.currentTime))
    st.procs 0 INT_MAX
  if nextArrival = INT_MAX then none
  else
    let currentTime := nextArrival
    let qs := enqueueFrom
      (fun inQueue i p => decide (p.arrivalTime ≤ currentTime) && !(inQueue.getD i false)
        && decide (p.remainingTime > 0))
      st.procs 0 st.readyQueue st.inQueue
    some { st with currentTime := currentTime, readyQueue := qs.1, inQueue := qs.2 }

/-- The statements that run the dequeued `procs[idx]` for one slice; `rest` is
the queue after `pop`. -/
def RRState.slice (quantum : Int) (st : RRState) (idx : Nat) (rest : List Nat)
    (q : Process) : RRState :=
  let inQueue1 := st.inQueue.set idx false
  let q1 : Process :=
    if !q.started then
      { q with responseTime := st.currentTime - q.arrivalTime, started := true }
    else q
  let execTime := min quantum q1.remainingTime
  let q2 : Process := { q1 with remainingTime := q1.remainingTime - execTime }
  let procs1 := st.procs.set idx q2
  let currentTime := st.currentTime + execTime
  let qs := enqueueFrom
    (fun inQueue i p => decide (p.arrivalTime ≤ currentTime) && !(inQueue.getD i false)
      && decide (p.remainingTime > 0) && decide (i ≠ idx))
    procs1 0 rest inQueue1
  if q2.remainingTime > 0 then
    { procs := procs1, readyQueue := qs.1 ++ [idx], inQueue := qs.2.set idx true,
      currentTime := currentTime, completed := st.completed }
  else
    let completionTime := currentTime
    let turnaroundTime := completionTime - q2.arrivalTime
    let waitingTime := turnaroundTime - q2.burstTime
    { procs := procs1.set idx
        { q2 with completionTime := completionTime, turnaroundTime := turnaroundTime,
                  waitingTime := waitingTime }
      readyQueue := qs.1, inQueue := qs.2
      currentTime := currentTime, completed := st.completed + 1 }

/-- The loop `while (completed < n && currentTime < maxTime)` of `roundRobin`,
at most `fuel` iterations. -/
def rrLoop (quantum : Int) (maxTime : Int) : Nat → RRState → Except Fault RRState
  | 0, st =>
    if st.completed < st.procs.length ∧ st.currentTime < maxTime then .error .fuelExhausted
    else .ok st
  | fuel + 1, st =>
    if st.completed < st.procs.length ∧ st.currentTime < maxTime then
      match st.readyQueue with
      | [] =>
        match st.jump with
        | none => .ok st
        | some st1 => rrLoop quantum maxTime fuel st1
      | idx :: rest =>
        match st.procs[idx]? with
        | none => .error .outOfBounds
        | some q => rrLoop quantum maxTime fuel (st.slice quantum idx rest q)
    else .ok st

/-- The locals of `roundRobin` when the loop is left, for the time quantum
read from the user. -/
def roundRobinRun (quantum : Int) (fuel : Nat) (processes : List Process) :
    Except Fault RRState :=
  match processes.getLast? with
  | none => .ok { procs := [], readyQueue := [], inQueue := [], currentTime := 0, completed := 0 }
  | some last =>
    let qs := enqueueFrom (fun _ _ p => decide (p.arrivalTime ≤ 0)) processes 0 []
      (List.replicate processes.length false)
    rrLoop quantum (maxTimeOf processes last) fuel
      { procs := processes, readyQueue := qs.1, inQueue := qs.2,
        currentTime := 0, completed := 0 }

/-- The routine `roundRobin`: the list handed to `displayResults`. -/
def roundRobin (quantum : Int) (fuel : Nat) (processes : List Process) :
    Except Fault (List Process) :=
  (roundRobinRun quantum fuel processes).map RRState.procs

/-! ## Vocabulary of the properties -/

/-- Two records describe the same job: the fields no run writes agree. -/
def sameJob (p q : Process) : Prop :=
  p.id = q.id ∧ p.name = q.name ∧ p.arrivalTime = q.arrivalTime ∧
    p.burstTime = q.burstTime ∧ p.priority = q.priority

instance (p q : Process) : Decidable (sameJob p q) := by unfold sameJob; infer_instance

/-- A record as the constructor leaves it: no simulation field written yet. -/
def Process.fresh (p : Process) : Prop :=
  p = Process.create p.id p.name p.arrivalTime p.burstTime p.priority

instance (p : Process) : Decidable p.fresh := by unfold Process.fresh; infer_instance

/-- The derived metrics of a completed process: completion no earlier than
arrival plus burst, turnaround and waiting time as derived from it, waiting
time not negative. -/
def completedMetrics (p : Process) : Prop :=
  p.arrivalTime + p.burstTime ≤ p.completionTime ∧
    p.turnaroundTime = p.completionTime - p.arrivalTime ∧
    p.waitingTime = p.turnaroundTime - p.burstTime ∧ 0 ≤ p.waitingTime

instance (p : Process) : Decidable (completedMetrics p) := by
  unfold completedMetrics; infer_instance

/-- The metrics of a process run without preemption: those of a completed
process, and a response time equal to the waiting time. -/
def nonPreemptiveMetrics (p : Process) : Prop :=
  completedMetrics p ∧ p.responseTime = p.waitingTime ∧ 0 ≤ p.responseTime

instance (p : Process) : Decidable (nonPreemptiveMetrics p) := by
  unfold nonPreemptiveMetrics; infer_instance

/-- The CPU interval `[completionTime - burstTime, completionTime)` of `p` ends
before that of `q` starts, or the other way round. -/
def disjointSlots (p q : Process) : Prop :=
  p.completionTime ≤ q.completionTime - q.burstTime ∨
    q.completionTime ≤ p.completionTime - p.burstTime

instance (p q : Process) : Decidable (disjointSlots p q) := by
  unfold disjointSlots; infer_instance

/-- No overlap on the CPU: every slot `[completionTime - burstTime,
completionTime)` starts at or after the arrival of its process, and the slots
of the processes at any two distinct positions are disjoint. -/
def noOverlap (out : List Process) : Prop :=
  (∀ p ∈ out, p.arrivalTime ≤ p.completionTime - p.burstTime) ∧
    ∀ (i j : Nat) (p q : Process), i ≠ j → out[i]? = some p → out[j]? = some q →
      disjointSlots p q

/-- The largest arrival time of a workload (0 for the empty one). -/
def maxArrival (procs : List Process) : Int :=
  procs.foldl (fun m p => max m p.arrivalTime) 0

/-- A number of loop iterations that suffices for every routine on `procs`. -/
def fuelBound (procs : List Process) : Nat :=
  procs.length + (totalBurstTime procs).toNat + (maxArrival procs).toNat + 1000

/-- A workload inside the run-input contract whose only burst time is the
sentinel value of the scan. -/
def sentinelBurst : List Process := [Process.create 1 "P1" 0 2147483647 0]

/-- A workload inside the run-input contract whose second burst time is the
sentinel value of the scan. -/
def sentinelSecond : List Process :=
  [Process.create 1 "P1" 0 1 0, Process.create 2 "P2" 0 2147483647 0]

/-- A workload inside the run-input contract whose first-listed process arrives
2000 time units after the last-listed one. -/
def lateArrival : List Process :=
  [Process.create 1 "P1" 2000 1 0, Process.create 2 "P2" 0 1 0]

/-- The reference order of FCFS: ascending arrival time, ties by ascending id. -/
def arrivalOrdered (ord : List Process) : Prop :=
  ord.Pairwise (fun a b => a.arrivalTime < b.arrivalTime ∨
    (a.arrivalTime = b.arrivalTime ∧ a.id ≤ b.id))

instance (ord : List Process) : Decidable (arrivalOrdered ord) := by
  unfold arrivalOrdered; infer_instance

/-- The reference clock of FCFS: `c_0 = 0` and `c_k = max(c_{k-1}, arrival_k) +
burst_k`, the `k`-th process of the order being `ord[k-1]`. -/
def refClock (ord : List Process) : Nat → Int
  | 0 => 0
  | k + 1 =>
    match ord[k]? with
    | none => refClock ord k
    | some p => max (refClock ord k) p.arrivalTime + p.burstTime

/-! ## What the selection scan computes -/

/-- The order the scan minimises: smaller key first, then earlier arrival. -/
def scanLe (key : Process → Int) (q p : Process) : Prop :=
  key q < key p ∨ (key q = key p ∧ q.arrivalTime ≤ p.arrivalTime)

/-- The strict part of `scanLe`. -/
def scanLt (key : Process → Int) (q p : Process) : Prop :=
  key q < key p ∨ (key q = key p ∧ q.arrivalTime < p.arrivalTime)

/-- The state of the scan after the indices below `i`: either nothing was
eligible, or `best` is the first eligible index that is least in `scanLe`. -/
def ScanPost (procs : List Process) (key : Process → Int) (eligible : Nat → Process → Bool)
    (i : Nat) (best : Option Nat) (minKey : Int) : Prop :=
  match best with
  | none => minKey = INT_MAX ∧ ∀ j p, j < i → procs[j]? = some p → eligible j p = false
  | some b => b < i ∧ ∃ q, procs[b]? = some q ∧ eligible b q = true ∧ minKey = key q ∧
      (∀ j p, j < i → procs[j]? = some p → eligible j p = true → scanLe key q p) ∧
      (∀ j p, j < b → procs[j]? = some p → eligible j p = true → scanLt key q p)

/-! ## Invariants of the loops -/

/-- The burst times of the processes flagged in `isCompleted`, summed. -/
def doneBurst : List Process → List Bool → Int
  | p :: ps, b :: bs => (if b then p.burstTime else 0) + doneBurst ps bs
  | _, _ => 0

/-- The loop invariant of `sjf` and `priorityNonPreemptive` over the workload
`input`. -/
structure NPInv (input : List Process) (st : NPState) : Prop where
  len : st.procs.length = input.length
  lenC : st.isCompleted.length = input.length
  same : ∀ (i : Nat) p q, input[i]? = some p → st.procs[i]? = some q → sameJob p q
  count : st.completedCount = st.isCompleted.count true
  done : ∀ (i : Nat) q, st.isCompleted[i]? = some true → st.procs[i]? = some q →
    nonPreemptiveMetrics q ∧ q.completionTime ≤ st.currentTime
  slots : ∀ (i j : Nat) p q, i ≠ j → st.isCompleted[i]? = some true → st.isCompleted[j]? = some true →
    st.procs[i]? = some p → st.procs[j]? = some q → disjointSlots p q
  busy : doneBurst st.procs st.isCompleted ≤ st.currentTime
  last : st.completedCount = 0 ∨ ∃ (i : Nat) (q : Process), st.isCompleted[i]? = some true ∧
    st.procs[i]? = some q ∧ doneBurst st.procs st.isCompleted ≤ q.completionTime

/-- The number of loop iterations `sjf` and `priorityNonPreemptive` still
need at most. -/
def NPState.potential (input : List Process) (st : NPState) : Nat :=
  (input.length - st.completedCount) + (maxArrival input - st.currentTime).toNat

/-- The remaining times of a list of records, summed. -/
def remainingSum (procs : List Process) : Int :=
  (procs.map Process.remainingTime).sum

/-- The number of records with no remaining time. -/
def finishedCount (procs : List Process) : Nat :=
  procs.countP (fun q => decide (q.remainingTime = 0))

/-- What the loops of the preemptive routines and of round robin maintain for
every record, at clock `t`: the remaining time stays within the burst time, a
process that has run is marked started, a started process was first dispatched
`responseTime` after its arrival and has been on the CPU since then only, a
finished process has its metrics, an unfinished one still has the
constructor's. -/
structure RecordInv (t : Int) (q : Process) : Prop where
  rem : 0 ≤ q.remainingTime ∧ q.remainingTime ≤ q.burstTime
  started : q.remainingTime < q.burstTime → q.started = true
  resp : q.started = true → 0 ≤ q.responseTime ∧
    q.arrivalTime + q.responseTime + (q.burstTime - q.remainingTime) ≤ t
  done : q.remainingTime = 0 → completedMetrics q ∧ q.completionTime ≤ t
  undone : 0 < q.remainingTime →
    q.completionTime = 0 ∧ q.turnaroundTime = 0 ∧ q.waitingTime = 0

/-- The loop invariant of `srtf` and `priorityPreemptive` over the workload
`input`. -/
structure PInv (input : List Process) (st : PState) : Prop where
  len : st.procs.length = input.length
  same : ∀ (i : Nat) p q, input[i]? = some p → st.procs[i]? = some q → sameJob p q
  records : ∀ q ∈ st.procs, RecordInv st.currentTime q
  count : st.completed = finishedCount st.procs
  work : st.currentTime + remainingSum st.procs ≤ maxArrival input + totalBurstTime input
  busy : totalBurstTime input - remainingSum st.procs ≤ st.currentTime
  last : st.completed = st.procs.length → ∃ q ∈ st.procs, st.currentTime ≤ q.completionTime

/-- The indices an enqueue loop pushes: those from `i` on that satisfy `c`. -/
def selectFrom (c : Nat → Process → Bool) : List Process → Nat → List Nat
  | [], _ => []
  | p :: rest, i => if c i p then i :: selectFrom c rest (i + 1) else selectFrom c rest (i + 1)

/-- The flags an enqueue loop leaves: those of the pushed indices raised. -/
def markFrom (c : Nat → Process → Bool) : List Process → Nat → List Bool → List Bool
  | [], _, inQueue => inQueue
  | p :: rest, i, inQueue =>
    markFrom c rest (i + 1) (if c i p then inQueue.set i true else inQueue)

/-- The loop invariant of `roundRobin` over the workload `input`. -/
structure RRInv (input : List Process) (st : RRState) : Prop where
  len : st.procs.length = input.length
  lenQ : st.inQueue.length = input.length
  same : ∀ (i : Nat) p q, input[i]? = some p → st.procs[i]? = some q → sameJob p q
  records : ∀ q ∈ st.procs, RecordInv st.currentTime q
  count : st.completed = finishedCount st.procs
  work : st.currentTime + remainingSum st.procs ≤ maxArrival input + totalBurstTime input
  busy : totalBurstTime input - remainingSum st.procs ≤ st.currentTime
  last : st.completed = st.procs.length → ∃ q ∈ st.procs, st.currentTime ≤ q.completionTime
  nodup : st.readyQueue.Nodup
  flag : ∀ i : Nat, st.inQueue.getD i false = true ↔ i ∈ st.readyQueue
  queued : ∀ i ∈ st.readyQueue, ∃ q, st.procs[i]? = some q ∧
    q.arrivalTime ≤ st.currentTime ∧ 0 < q.remainingTime
  arrived : ∀ (i : Nat) q, st.procs[i]? = some q → q.arrivalTime ≤ st.currentTime →
    0 < q.remainingTime → i ∈ st.readyQueue

/-- The number of loop iterations `roundRobin` still needs at most. -/
def RRState.potential (input : List Process) (st : RRState) : Nat :=
  (remainingSum st.procs).toNat + (maxArrival input - st.currentTime).toNat

/-- What the loop of `roundRobin` maintains on a workload listed in arrival
order when no slice is cut short: the queue is in list order, the first
`completed` processes have run one after the other as under FCFS, the others
are untouched, and the clock is between the FCFS clock and the start FCFS
gives the next process. -/
structure FifoInv (input : List Process) (st : RRState) : Prop where
  sorted : st.readyQueue.Pairwise (· < ·)
  done : ∀ (i : Nat) (q : Process), i < st.completed → st.procs[i]? = some q →
    q.remainingTime = 0 ∧ q.completionTime = refClock input (i + 1) ∧
      q.responseTime = max (refClock input i) q.arrivalTime - q.arrivalTime
  todo : ∀ (i : Nat), st.completed ≤ i → st.procs[i]? = input[i]?
  clockLo : refClock input st.completed ≤ st.currentTime
  clockHi : ∀ p, input[st.completed]? = some p →
    st.currentTime ≤ max (refClock input st.completed) p.arrivalTime

/-- The four metrics `displayResults` prints are the same in two records of
the same job. -/
def sameMetrics (r f : Process) : Prop :=
  sameJob r f ∧ r.completionTime = f.completionTime ∧ r.turnaroundTime = f.turnaroundTime ∧
    r.waitingTime = f.waitingTime ∧ r.responseTime = f.responseTime

/-- A workload listed in non-decreasing arrival order with ascending ids. -/
def listedInArrivalOrder (procs : List Process) : Prop :=
  procs.Pairwise (fun a b => a.arrivalTime ≤ b.arrivalTime ∧ a.id < b.id)

instance (procs : List Process) : Decidable (listedInArrivalOrder procs) := by
  unfold listedInArrivalOrder; infer_instance

/-! ## Vocabulary of the comparison of srtf with sjf -/

/-- The locals of `roundRobin` when the loop is entered: the ready queue holds
the processes that arrive at time 0, in list order. -/
def RRState.init (processes : List Process) : RRState :=
  let qs := enqueueFrom (fun _ _ p => decide (p.arrivalTime ≤ 0)) processes 0 []
    (List.replicate processes.length false)
  { procs := processes, readyQueue := qs.1, inQueue := qs.2, currentTime := 0, completed := 0 }

/-- The indices `idx = readyQueue.front()` the loop of `roundRobin` dequeues and
dispatches, in order, over at most `fuel` iterations. -/
def rrDispatches (quantum : Int) (maxTime : Int) : Nat → RRState → List Nat
  | 0, _ => []
  | fuel + 1, st =>
    if st.completed < st.procs.length ∧ st.currentTime < maxTime then
      match st.readyQueue with
      | [] =>
        match st.jump with
        | none => []
        | some st1 => rrDispatches quantum maxTime fuel st1
      | idx :: rest =>
        match st.procs[idx]? with
        | none => []
        | some q => idx :: rrDispatches quantum maxTime fuel (st.slice quantum idx rest q)
    else []

/-- The ids of the processes `roundRobin` dispatches, slice by slice. -/
def roundRobinDispatches (quantum : Int) (fuel : Nat) (processes : List Process) : List Int :=
  match processes.getLast? with
  | none => []
  | some last =>
    (rrDispatches quantum (maxTimeOf processes last) fuel (RRState.init processes)).map
      (fun idx => match processes[idx]? with
        | some p => p.id
        | none => 0)

/-- The states of the locals of `sjf` (`key` the burst time) and of
`priorityNonPreemptive` (`key` the priority) at the head of the loop, in a run
on `processes`. -/
inductive NPReach (key : Process → Int) (processes : List Process) : NPState → Prop
  | start : NPReach key processes (NPState.init processes)
  | next {st st1 : NPState} : NPReach key processes st →
      st.completedCount < st.procs.length → npStep key st = .ok st1 →
      NPReach key processes st1

/-- The states of the locals of `srtf` (`key` the remaining time) and of
`priorityPreemptive` (`key` the priority) at the head of the loop, in a run on
`processes` with the safety bound `maxTime`. -/
inductive PReach (key : Process → Int) (maxTime : Int) (processes : List Process) :
    PState → Prop
  | start : PReach key maxTime processes { procs := processes, currentTime := 0, completed := 0 }
  | next {st st1 : PState} : PReach key maxTime processes st →
      st.completed < st.procs.length ∧ st.currentTime < maxTime → pStep key st = .ok st1 →
      PReach key maxTime processes st1

/-- The states of the locals of `roundRobin` at the head of the loop, in a run
on `processes` with the safety bound `maxTime`: the loop either finds the queue
empty and jumps to the next arrival, or dequeues `idx` and runs one slice. -/
inductive RRReach (quantum : Int) (maxTime : Int) (processes : List Process) :
    RRState → Prop
  | start : RRReach quantum maxTime processes (RRState.init processes)
  | jump {st st1 : RRState} : RRReach quantum maxTime processes st →
      st.completed < st.procs.length ∧ st.currentTime < maxTime → st.readyQueue = [] →
      st.jump = some st1 → RRReach quantum maxTime processes st1
  | slice {st : RRState} {idx : Nat} {rest : List Nat} {q : Process} :
      RRReach quantum maxTime processes st →
      st.completed < st.procs.length ∧ st.currentTime < maxTime →
      st.readyQueue = idx :: rest → st.procs[idx]? = some q →
      RRReach quantum maxTime processes (st.slice quantum idx rest q)

/-! ## Vocabulary of the later properties -/

/-- A single process of the run-input contract, arriving at 0, whose priority is
the sentinel value of the scan. -/
def sentinelPriority : List Process := [Process.create 1 "P1" 0 1 2147483647]

/-- A single process whose arrival time is the sentinel value of the search for
the next arrival. -/
def sentinelArrival : List Process := [Process.create 1 "P1" 2147483647 1 0]

/-- The record `q` is the job `p` run alone from time 0: it never waited, was
dispatched on arrival and completed after its burst time. -/
def ranAlone (p q : Process) : Prop :=
  sameJob p q ∧ q.waitingTime = 0 ∧ q.responseTime = 0 ∧ q.completionTime = p.burstTime

instance (p q : Process) : Decidable (ranAlone p q) := by unfold ranAlone; infer_instance

/-- A routine as the menu calls it: it reads the global list `processes`, works
on the copy `procs = processes` and hands that copy to `displayResults`. The
pair is the global list after the call and what the routine displays. -/
def runOnGlobal {α : Type} (routine : List Process → α) (processes : List Process) :
    List Process × α :=
  (processes, routine processes)

/-- The iteration from `st` to `st1` of the loop of `sjf` (`key` the burst time)
or `priorityNonPreemptive` (`key` the priority) dispatched by the selection
rule: the process run to completion had arrived and was not completed, no such
process had a smaller key, none of the same key had arrived earlier, and none of
the same key and arrival time stands earlier in the list. -/
def NPState.dispatchedTo (key : Process → Int) (st st1 : NPState) : Prop :=
  ∃ (b : Nat) (q : Process), st.procs[b]? = some q ∧ st.ready b q = true ∧
    st1 = st.dispatch b q ∧
    (∀ (j : Nat) p, st.procs[j]? = some p → st.ready j p = true →
      key q < key p ∨ (key q = key p ∧ q.arrivalTime ≤ p.arrivalTime)) ∧
    (∀ (j : Nat) p, j < b → st.procs[j]? = some p → st.ready j p = true →
      key q < key p ∨ (key q = key p ∧ q.arrivalTime < p.arrivalTime))

/-- The iteration from `st` to `st1` of the loop of `sjf` or
`priorityNonPreemptive` found no process that had arrived and was not
completed, left records, flags and counter as they were, and set the clock to
the smallest arrival time of the processes not completed. -/
def NPState.jumpedTo (st st1 : NPState) : Prop :=
  (∀ (j : Nat) p, st.procs[j]? = some p → st.ready j p = false) ∧
    st1.procs = st.procs ∧ st1.isCompleted = st.isCompleted ∧
    st1.completedCount = st.completedCount ∧
    (∃ (i : Nat) (q : Process), st.procs[i]? = some q ∧
      st.isCompleted[i]? = some false ∧ st1.currentTime = q.arrivalTime) ∧
    ∀ (j : Nat) p, st.procs[j]? = some p → st.isCompleted[j]? = some false →
      st1.currentTime ≤ p.arrivalTime

/-- The iteration from `st` to `st1` of the loop of `srtf` (`key` the remaining
time) or `priorityPreemptive` (`key` the priority) ran one process for one time
unit by the selection rule: the process was ready, no ready process had a
smaller key, none of the same key had arrived earlier, none of the same key and
arrival time stands earlier in the list; its record `r` replaces `q` with the
remaining time one less, the response time set if this was its first dispatch,
and no other record is touched. -/
def PState.tickedTo (key : Process → Int) (st st1 : PState) : Prop :=
  ∃ (b : Nat) (q r : Process), st.procs[b]? = some q ∧ st.ready b q = true ∧
    (∀ (j : Nat) p, st.procs[j]? = some p → st.ready j p = true →
      key q < key p ∨ (key q = key p ∧ q.arrivalTime ≤ p.arrivalTime)) ∧
    (∀ (j : Nat) p, j < b → st.procs[j]? = some p → st.ready j p = true →
      key q < key p ∨ (key q = key p ∧ q.arrivalTime < p.arrivalTime)) ∧
    st1.procs = st.procs.set b r ∧ sameJob q r ∧
    r.remainingTime = q.remainingTime - 1 ∧ r.started = true ∧
    (q.started = false → r.responseTime = st.currentTime - q.arrivalTime) ∧
    (q.started = true → r.responseTime = q.responseTime)

/-- Between the records `before` an iteration and the records `after` it, the
iteration ending at `clock`: completion, turnaround and waiting time are
written for the processes whose remaining time reaches 0 in the iteration, and
are left as they were for every other process. -/
def writtenAtCompletion (before after : List Process) (clock : Int) : Prop :=
  ∀ (i : Nat) (q r : Process), before[i]? = some q → after[i]? = some r →
    (0 < q.remainingTime ∧ r.remainingTime = 0 →
      r.completionTime = clock ∧ r.turnaroundTime = r.completionTime - r.arrivalTime ∧
        r.waitingTime = r.turnaroundTime - r.burstTime) ∧
    (¬ (0 < q.remainingTime ∧ r.remainingTime = 0) →
      r.completionTime = q.completionTime ∧ r.turnaroundTime = q.turnaroundTime ∧
        r.waitingTime = q.waitingTime)

/-- One iteration of the loop of `roundRobin` leads from `st` to `st1`: the
jump to the next arrival when the queue is empty, a slice of the dequeued
process otherwise. -/
def RRState.stepsTo (quantum : Int) (st st1 : RRState) : Prop :=
  (st.readyQueue = [] ∧ st.jump = some st1) ∨
    ∃ (idx : Nat) (rest : List Nat) (q : Process), st.readyQueue = idx :: rest ∧
      st.procs[idx]? = some q ∧ st1 = st.slice quantum idx rest q

/-- The evaluations of `procs[best].arrivalTime` in the tie-break of the scan
over the not yet visited suffix of `procs` from index `i`, in order: each is
the pair of the scan index `i` and the value of `best` at the read, `none`
standing for `best = -1`. The right operand of `||` and of `&&` is evaluated
only where the left one does not decide, so the read happens where the key is
not below the minimum and equals it; a read out of bounds ends the list, as it
ends the scan. -/
def tieBreakReadsFrom (procs : List Process) (key : Process → Int)
    (eligible : Nat → Process → Bool) :
    List Process → Nat → Option Nat → Int → List (Nat × Option Nat)
  | [], _, _, _ => []
  | p :: rest, i, best, minKey =>
    if eligible i p then
      if key p < minKey then tieBreakReadsFrom procs key eligible rest (i + 1) (some i) (key p)
      else if key p = minKey then
        (i, best) ::
          (match best with
          | none => []
          | some b =>
            match procs[b]? with
            | none => []
            | some q =>
              if p.arrivalTime < q.arrivalTime then
                tieBreakReadsFrom procs key eligible rest (i + 1) (some i) (key p)
              else tieBreakReadsFrom procs key eligible rest (i + 1) best minKey)
      else tieBreakReadsFrom procs key eligible rest (i + 1) best minKey
    else tieBreakReadsFrom procs key eligible rest (i + 1) best minKey

/-- The tie-break reads of the whole scan, from `best = -1` and `min = INT_MAX`. -/
def tieBreakReads (procs : List Process) (key : Process → Int)
    (eligible : Nat → Process → Bool) : List (Nat × Option Nat) :=
  tieBreakReadsFrom procs key eligible procs 0 none INT_MAX

/-- A tie-break read is in bounds: `best` is not `-1` but the index of a
process the scan selected at an earlier index, an eligible process of the list. -/
def readInBounds (procs : List Process) (eligible : Nat → Process → Bool)
    (r : Nat × Option Nat) : Prop :=
  ∃ (b : Nat) (q : Process), r.2 = some b ∧ b < r.1 ∧ procs[b]? = some q ∧
    eligible b q = true

/-- A workload of two processes that tie in arrival time, burst time and
priority. -/
def tiedPair : List Process := [Process.create 1 "P1" 0 3 1, Process.create 2 "P2" 0 3 1]

/-! ## The range of `int` -/

/-- Every time a run wrote into the record is a non-negative `int`. The clock
only grows and the other times are differences below it, so where this holds
for every record of the output none of the additions and subtractions of the
run left the range of `int`. -/
def timesInRange (r : Process) : Prop :=
  (0 ≤ r.responseTime ∧ r.responseTime ≤ INT_MAX) ∧
    (0 ≤ r.waitingTime ∧ r.waitingTime ≤ INT_MAX) ∧
    (0 ≤ r.turnaroundTime ∧ r.turnaroundTime ≤ INT_MAX) ∧
    (0 ≤ r.completionTime ∧ r.completionTime ≤ INT_MAX)

instance (r : Process) : Decidable (timesInRange r) := by unfold timesInRange; infer_instance

/-! ## Sums and maxima of `displayResults` -/

theorem foldl_add_eq (f : Process → Int) (l : List Process) (s : Int) :
    l.foldl (fun s p => s + f p) s = s + (l.map f).sum := by
  induction l generalizing s with
  | nil => simp
  | cons a t ih => simp [List.foldl_cons, ih, add_assoc]

theorem totalBurstTime_eq (l : List Process) :
    totalBurstTime l = (l.map Process.burstTime).sum := by
  unfold totalBurstTime; rw [foldl_add_eq]; simp

theorem foldl_max_ge (l : List Process) (m : Int) :
    m ≤ l.foldl (fun m p => max m p.completionTime) m ∧
      ∀ p ∈ l, p.completionTime ≤ l.foldl (fun m p => max m p.completionTime) m := by
  induction l generalizing m with
  | nil => simp
  | cons a t ih =>
    simp only [List.foldl_cons, List.mem_cons, forall_eq_or_imp]
    have h := ih (max m a.completionTime)
    refine ⟨le_trans (le_max_left _ _) h.1, le_trans (le_max_right _ _) h.1, h.2⟩

theorem le_maxCompletionTime {l : List Process} {p : Process} (h : p ∈ l) :
    p.completionTime ≤ maxCompletionTime l :=
  (foldl_max_ge l 0).2 p h

/-! ## fcfs -/

/-- The run of `fcfs` returns one record per process. -/
theorem fcfsRun_length (c : Int) (l : List Process) : (fcfsRun c l).length = l.length := by
  induction l generalizing c with
  | nil => rfl
  | cons p t ih => simp [fcfsRun, ih]

theorem fcfsRun_sameJob (c : Int) (l : List Process) :
    List.Forall₂ sameJob l (fcfsRun c l) := by
  induction l generalizing c with
  | nil => exact List.Forall₂.nil
  | cons p t ih =>
    simp only [fcfsRun]
    exact List.Forall₂.cons ⟨rfl, rfl, rfl, rfl, rfl⟩ (ih _)

theorem fcfsRun_metrics (c : Int) (l : List Process) :
    ∀ r ∈ fcfsRun c l, nonPreemptiveMetrics r := by
  induction l generalizing c with
  | nil => simp [fcfsRun]
  | cons p t ih =>
    intro r hr
    simp only [fcfsRun, List.mem_cons] at hr
    rcases hr with rfl | hr
    · simp only [nonPreemptiveMetrics, completedMetrics]
      split_ifs <;> refine ⟨⟨?_, ?_, ?_, ?_⟩, ?_, ?_⟩ <;> dsimp only <;> omega
    · exact ih _ r hr

theorem fcfsRun_append (c : Int) (l₁ l₂ : List Process) :
    fcfsRun c (l₁ ++ l₂) =
      fcfsRun c l₁ ++ fcfsRun (l₁.foldl (fun c p => max c p.arrivalTime + p.burstTime) c) l₂ := by
  induction l₁ generalizing c with
  | nil => simp [fcfsRun]
  | cons p t ih =>
    have hmax : (if c < p.arrivalTime then p.arrivalTime else c) = max c p.arrivalTime := by
      split_ifs with h
      · exact (max_eq_right (le_of_lt h)).symm
      · exact (max_eq_left (not_lt.1 h)).symm
    rw [List.cons_append]
    simp only [fcfsRun, List.foldl_cons, hmax, ih, List.cons_append]

theorem refClock_eq (ord : List Process) (k : Nat) (hk : k ≤ ord.length) :
    refClock ord k = (ord.take k).foldl (fun c p => max c p.arrivalTime + p.burstTime) 0 := by
  induction k with
  | zero => simp [refClock]
  | succ k ih =>
    have hlt : k < ord.length := hk
    have hts : List.take (k + 1) ord = List.take k ord ++ [ord[k]] := by
      rw [List.take_succ, List.getElem?_eq_getElem hlt]; rfl
    rw [refClock, List.getElem?_eq_getElem hlt, hts, List.foldl_append, ← ih (Nat.le_of_lt hlt)]
    rfl

/-- The record `fcfs` leaves at position `k` of an order `ord`. -/
theorem fcfsRun_getElem? (ord : List Process) (k : Nat) (p : Process) (h : ord[k]? = some p) :
    (fcfsRun 0 ord)[k]? = some
      { p with responseTime := max (refClock ord k) p.arrivalTime - p.arrivalTime,
               completionTime := refClock ord (k + 1),
               turnaroundTime := refClock ord (k + 1) - p.arrivalTime,
               waitingTime := refClock ord (k + 1) - p.arrivalTime - p.burstTime } := by
  have hk : k < ord.length := (List.getElem?_eq_some.1 h).1
  have hp : ord[k] = p := (List.getElem?_eq_some.1 h).2
  have hsplit : ord = ord.take k ++ p :: ord.drop (k + 1) := by
    rw [← hp, List.getElem_cons_drop _ _ hk, List.take_append_drop]
  have hlen : (fcfsRun 0 (ord.take k)).length = k := by
    rw [fcfsRun_length, List.length_take]; omega
  have h1 : refClock ord (k + 1) = max (refClock ord k) p.arrivalTime + p.burstTime := by
    rw [refClock, h]
  have hmax : ∀ c : Int, (if c < p.arrivalTime then p.arrivalTime else c) = max c p.arrivalTime := by
    intro c
    split_ifs with h
    · exact (max_eq_right (le_of_lt h)).symm
    · exact (max_eq_left (not_lt.1 h)).symm
  conv_lhs => rw [hsplit, fcfsRun_append, ← refClock_eq ord k (Nat.le_of_lt hk)]
  rw [List.getElem?_append_right (by omega), hlen, Nat.sub_self]
  simp only [fcfsRun, List.getElem?_cons_zero, hmax, h1]

/-- Every slot of `fcfs` starts at or after the clock it is run from, and
ends before every later slot starts. -/
theorem fcfsRun_slots (c : Int) (l : List Process) (hb : ∀ p ∈ l, 0 ≤ p.burstTime) :
    (∀ r ∈ fcfsRun c l, c ≤ r.completionTime - r.burstTime ∧
        r.arrivalTime ≤ r.completionTime - r.burstTime) ∧
      (fcfsRun c l).Pairwise (fun r s => r.completionTime ≤ s.completionTime - s.burstTime) := by
  induction l generalizing c with
  | nil => simp [fcfsRun]
  | cons p t ih =>
    have hp := hb p (List.mem_cons_self _ _)
    have ht := ih (max c p.arrivalTime + p.burstTime) (fun q hq => hb q (List.mem_cons_of_mem _ hq))
    have hmax : (if c < p.arrivalTime then p.arrivalTime else c) = max c p.arrivalTime := by
      split_ifs with h
      · exact (max_eq_right (le_of_lt h)).symm
      · exact (max_eq_left (not_lt.1 h)).symm
    simp only [fcfsRun, hmax, List.mem_cons, forall_eq_or_imp, List.pairwise_cons]
    have h1 := le_max_left c p.arrivalTime
    have h2 := le_max_right c p.arrivalTime
    refine ⟨⟨⟨by simp, by simp⟩, fun r hr => ⟨?_, (ht.1 r hr).2⟩⟩, fun r hr => ?_, ht.2⟩
    · have := (ht.1 r hr).1; omega
    · exact (ht.1 r hr).1

/-- The last slot of `fcfs` ends no earlier than the start clock plus all the
burst times. -/
theorem fcfsRun_busy (c : Int) (l : List Process) (hne : l ≠ []) :
    ∃ r ∈ fcfsRun c l, c + (l.map Process.burstTime).sum ≤ r.completionTime := by
  induction l generalizing c with
  | nil => exact absurd rfl hne
  | cons p t ih =>
    have hmax : (if c < p.arrivalTime then p.arrivalTime else c) = max c p.arrivalTime := by
      split_ifs with h
      · exact (max_eq_right (le_of_lt h)).symm
      · exact (max_eq_left (not_lt.1 h)).symm
    have h1 := le_max_left c p.arrivalTime
    by_cases ht : t = []
    · subst ht
      refine ⟨_, List.mem_cons_self _ _, ?_⟩
      simp only [hmax, List.map_cons, List.map_nil, List.sum_cons, List.sum_nil]
      omega
    · obtain ⟨r, hr, hle⟩ := ih (max c p.arrivalTime + p.burstTime) ht
      refine ⟨r, ?_, ?_⟩
      · simp only [fcfsRun, hmax]; exact List.mem_cons_of_mem _ hr
      · simp only [List.map_cons, List.sum_cons]; omega

theorem fcfsRun_burst (c : Int) (l : List Process) :
    (fcfsRun c l).map Process.burstTime = l.map Process.burstTime := by
  induction l generalizing c with
  | nil => rfl
  | cons p t ih => simp [fcfsRun, ih]

/-! ## The sort of fcfs -/

theorem fcfsLe_iff (a b : Process) :
    fcfsLe a b ↔ a.arrivalTime < b.arrivalTime ∨ (a.arrivalTime = b.arrivalTime ∧ a.id ≤ b.id) := by
  unfold fcfsLe fcfsBefore
  split_ifs with h
  · simp only [decide_eq_false_iff_not, not_lt]
    constructor
    · intro hle; exact Or.inr ⟨h.symm, hle⟩
    · rintro (hlt | ⟨_, hle⟩)
      · omega
      · exact hle
  · simp only [decide_eq_false_iff_not, not_lt]
    constructor
    · intro hle; left; omega
    · rintro (hlt | ⟨heq, _⟩)
      · omega
      · exact absurd heq.symm h

theorem sortByArrival_perm (l : List Process) : (sortByArrival l).Perm l :=
  List.perm_insertionSort _ l

theorem sortByArrival_sorted (l : List Process) : (sortByArrival l).Pairwise fcfsLe :=
  List.sorted_insertionSort _ l

/-- Two orderings of the same elements by a relation that is antisymmetric on
them are the same list. -/
theorem ordered_perm_unique {α : Type} {r : α → α → Prop} :
    ∀ (l₁ l₂ : List α), l₁.Perm l₂ → l₁.Pairwise r → l₂.Pairwise r →
      (∀ a ∈ l₁, ∀ b ∈ l₁, r a b → r b a → a = b) → l₁ = l₂
  | [], l₂, hp, _, _, _ => hp.nil_eq
  | a :: t, [], hp, _, _, _ => absurd hp.symm.nil_eq (by simp)
  | a :: t, b :: t₂, hp, h1, h2, hanti => by
    have hab : a = b := by
      have ha : a ∈ b :: t₂ := hp.subset (List.mem_cons_self _ _)
      have hb : b ∈ a :: t := hp.symm.subset (List.mem_cons_self _ _)
      rcases List.mem_cons.1 ha with h | h
      · exact h
      · rcases List.mem_cons.1 hb with h' | h'
        · exact h'.symm
        · exact hanti a (List.mem_cons_self _ _) b hb
            ((List.pairwise_cons.1 h1).1 b h') ((List.pairwise_cons.1 h2).1 a h)
    subst hab
    have ht := ordered_perm_unique t t₂ (List.Perm.cons_inv hp) (List.pairwise_cons.1 h1).2
      (List.pairwise_cons.1 h2).2
      (fun x hx y hy => hanti x (List.mem_cons_of_mem _ hx) y (List.mem_cons_of_mem _ hy))
    rw [ht]

/-- With distinct ids every arrival-ordered arrangement of the workload is the
list the sort of `fcfs` returns. -/
theorem sortByArrival_unique (procs ord : List Process)
    (hid : (procs.map Process.id).Nodup) (hperm : ord.Perm procs)
    (hord : ord.Pairwise fcfsLe) : sortByArrival procs = ord := by
  refine ordered_perm_unique _ _ ((sortByArrival_perm procs).trans hperm.symm)
    (sortByArrival_sorted procs) hord ?_
  intro a ha b hb hab hba
  have ha' : a ∈ procs := (sortByArrival_perm procs).subset ha
  have hb' : b ∈ procs := (sortByArrival_perm procs).subset hb
  rw [fcfsLe_iff] at hab hba
  exact List.inj_on_of_nodup_map hid ha' hb' (by omega)

/-! ## The selection scan -/

theorem drop_cons_getElem? {α : Type} {l : List α} {i : Nat} {a : α} {t : List α}
    (h : l.drop i = a :: t) : l[i]? = some a ∧ l.drop (i + 1) = t := by
  have hi : i < l.length := by
    by_contra hge
    rw [List.drop_eq_nil_of_le (not_lt.1 hge)] at h
    exact List.noConfusion h
  rw [List.drop_eq_getElem_cons hi] at h
  injection h with h1 h2
  exact ⟨by rw [List.getElem?_eq_getElem hi, h1], h2⟩

theorem scanFrom_spec (procs : List Process) (key : Process → Int)
    (eligible : Nat → Process → Bool)
    (hkey : ∀ j p, procs[j]? = some p → eligible j p = true → key p < INT_MAX) :
    ∀ (rest : List Process) (i : Nat) (best : Option Nat) (minKey : Int),
      procs.drop i = rest → ScanPost procs key eligible i best minKey →
      ∃ best1 minKey1, scanFrom procs key eligible rest i best minKey = .ok (best1, minKey1) ∧
        ScanPost procs key eligible procs.length best1 minKey1 := by
  intro rest
  induction rest with
  | nil =>
    intro i best minKey hdrop hpost
    refine ⟨best, minKey, rfl, ?_⟩
    have hlen : procs.length ≤ i := List.drop_eq_nil_iff.1 hdrop
    cases best with
    | none =>
      exact ⟨hpost.1, fun j p hj hp => hpost.2 j p (lt_of_lt_of_le hj hlen) hp⟩
    | some b =>
      obtain ⟨_, q, hq, he, hm, hle, hlt⟩ := hpost
      exact ⟨(List.getElem?_eq_some.1 hq).1, q, hq, he, hm,
        fun j p hj hp => hle j p (lt_of_lt_of_le hj hlen) hp, hlt⟩
  | cons p rest ih =>
    intro i best minKey hdrop hpost
    obtain ⟨hpi, hdrop1⟩ := drop_cons_getElem? hdrop
    -- the state is kept
    have keep : (eligible i p = true → (match best with
          | none => False
          | some b => ∃ q, procs[b]? = some q ∧ scanLe key q p)) →
        ScanPost procs key eligible (i + 1) best minKey := by
      intro hk
      cases best with
      | none =>
        refine ⟨hpost.1, fun j p' hj hp' => ?_⟩
        rcases Nat.lt_succ_iff_lt_or_eq.1 hj with hj | rfl
        · exact hpost.2 j p' hj hp'
        · rw [hpi] at hp'; cases hp'
          by_contra hne
          exact hk (by simpa using hne)
      | some b =>
        obtain ⟨hb, q, hq, he, hm, hle, hlt⟩ := hpost
        refine ⟨Nat.lt_succ_of_lt hb, q, hq, he, hm, fun j p' hj hp' hel => ?_, hlt⟩
        rcases Nat.lt_succ_iff_lt_or_eq.1 hj with hj | rfl
        · exact hle j p' hj hp' hel
        · rw [hpi] at hp'; cases hp'
          obtain ⟨q', hq', hle'⟩ := hk hel
          rw [hq] at hq'; cases hq'
          exact hle'
    -- the state is replaced by the current index
    have take : eligible i p = true →
        (match best with
          | none => True
          | some b => ∃ q, procs[b]? = some q ∧ scanLt key p q) →
        ScanPost procs key eligible (i + 1) (some i) (key p) := by
      intro hel hk
      refine ⟨Nat.lt_succ_self i, p, hpi, hel, rfl, fun j p' hj hp' hel' => ?_,
        fun j p' hj hp' hel' => ?_⟩
      · rcases Nat.lt_succ_iff_lt_or_eq.1 hj with hj | rfl
        · cases best with
          | none => exact absurd hel' (by rw [hpost.2 j p' hj hp']; simp)
          | some b =>
            obtain ⟨hb, q, hq, he, hm, hle, hlt⟩ := hpost
            obtain ⟨q', hq', hlt'⟩ := hk
            rw [hq] at hq'; cases hq'
            have := hle j p' hj hp' hel'
            unfold scanLe at *; unfold scanLt at hlt'; omega
        · rw [hpi] at hp'; cases hp'
          exact Or.inr ⟨rfl, le_refl _⟩
      · cases best with
        | none => exact absurd hel' (by rw [hpost.2 j p' hj hp']; simp)
        | some b =>
          obtain ⟨hb, q, hq, he, hm, hle, hlt⟩ := hpost
          obtain ⟨q', hq', hlt'⟩ := hk
          rw [hq] at hq'; cases hq'
          have := hle j p' hj hp' hel'
          unfold scanLe at this; unfold scanLt at *; omega
    unfold scanFrom
    by_cases hel : eligible i p = true
    · rw [if_pos hel]
      have hkp := hkey i p hpi hel
      by_cases h1 : key p < minKey
      · rw [if_pos h1]
        refine ih (i + 1) (some i) (key p) hdrop1 (take hel ?_)
        cases best with
        | none => trivial
        | some b =>
          obtain ⟨hb, q, hq, he, hm, hle, hlt⟩ := hpost
          exact ⟨q, hq, Or.inl (by omega)⟩
      · rw [if_neg h1]
        by_cases h2 : key p = minKey
        · rw [if_pos h2]
          cases best with
          | none => exact absurd hpost.1 (by omega)
          | some b =>
            obtain ⟨hb, q, hq, he, hm, hle, hlt⟩ := hpost
            simp only [hq]
            by_cases h3 : p.arrivalTime < q.arrivalTime
            · rw [if_pos h3]
              exact ih (i + 1) (some i) (key p) hdrop1
                (take hel ⟨q, hq, Or.inr ⟨by omega, h3⟩⟩)
            · rw [if_neg h3]
              exact ih (i + 1) (some b) minKey hdrop1
                (keep (fun _ => ⟨q, hq, Or.inr ⟨by omega, by omega⟩⟩))
        · rw [if_neg h2]
          refine ih (i + 1) best minKey hdrop1 (keep (fun _ => ?_))
          cases best with
          | none => exact absurd hpost.1 (by omega)
          | some b =>
            obtain ⟨hb, q, hq, he, hm, hle, hlt⟩ := hpost
            exact ⟨q, hq, Or.inl (by omega)⟩
    · rw [if_neg hel]
      exact ih (i + 1) best minKey hdrop1 (keep (fun h => absurd h hel))

/-- Where every eligible key is below `INT_MAX` the scan reads in bounds and
returns the first eligible index least in `scanLe`, or `none` when no process
is eligible. -/
theorem scan_spec (procs : List Process) (key : Process → Int)
    (eligible : Nat → Process → Bool)
    (hkey : ∀ j p, procs[j]? = some p → eligible j p = true → key p < INT_MAX) :
    ∃ best minKey, scan procs key eligible = .ok (best, minKey) ∧
      ScanPost procs key eligible procs.length best minKey :=
  scanFrom_spec procs key eligible hkey procs 0 none INT_MAX rfl
    ⟨rfl, fun j _ hj _ => absurd hj (Nat.not_lt_zero j)⟩

/-! ## Helper facts on lists -/

theorem le_maxArrival_aux (l : List Process) (m : Int) :
    m ≤ l.foldl (fun m p => max m p.arrivalTime) m ∧
      ∀ p ∈ l, p.arrivalTime ≤ l.foldl (fun m p => max m p.arrivalTime) m := by
  induction l generalizing m with
  | nil => simp
  | cons a t ih =>
    simp only [List.foldl_cons, List.mem_cons, forall_eq_or_imp]
    have h := ih (max m a.arrivalTime)
    exact ⟨le_trans (le_max_left _ _) h.1, le_trans (le_max_right _ _) h.1, h.2⟩

theorem le_maxArrival {l : List Process} {p : Process} (h : p ∈ l) :
    p.arrivalTime ≤ maxArrival l :=
  (le_maxArrival_aux l 0).2 p h

theorem maxArrival_nonneg (l : List Process) : 0 ≤ maxArrival l :=
  (le_maxArrival_aux l 0).1

theorem getD_false_eq (bs : List Bool) (i : Nat) :
    bs.getD i false = true ↔ bs[i]? = some true := by
  rw [List.getD_eq_getElem?_getD]
  cases h : bs[i]? with
  | none => simp
  | some b => simp

theorem exists_false_of_count_lt :
    ∀ (bs : List Bool), bs.count true < bs.length → ∃ i : Nat, bs[i]? = some false
  | [], h => absurd h (by simp)
  | b :: bs, h => by
    cases b with
    | false => exact ⟨0, by simp⟩
    | true =>
      have h' : bs.count true < bs.length := by simpa using h
      obtain ⟨i, hi⟩ := exists_false_of_count_lt bs h'
      exact ⟨i + 1, by simpa using hi⟩

theorem all_true_of_count_eq (bs : List Bool) (h : bs.count true = bs.length) (i : Nat)
    (hi : i < bs.length) : bs[i]? = some true := by
  have hall := List.count_eq_length.1 h
  rw [List.getElem?_eq_getElem hi]
  have := hall bs[i] (List.getElem_mem hi)
  rw [← this]

theorem count_set_true (bs : List Bool) (i : Nat) (h : bs[i]? = some false) :
    (bs.set i true).count true = bs.count true + 1 := by
  have hi : i < bs.length := (List.getElem?_eq_some.1 h).1
  have hv : bs[i] = false := (List.getElem?_eq_some.1 h).2
  rw [List.count_set _ _ _ _ hi, hv]
  simp

theorem doneBurst_replicate (ps : List Process) (n : Nat) :
    doneBurst ps (List.replicate n false) = 0 := by
  induction ps generalizing n with
  | nil => cases n <;> simp [doneBurst, List.replicate]
  | cons p t ih =>
    cases n with
    | zero => simp [doneBurst]
    | succ n => simp [doneBurst, List.replicate, ih]

theorem doneBurst_set :
    ∀ (ps : List Process) (bs : List Bool) (i : Nat) (q q1 : Process),
      ps[i]? = some q → bs[i]? = some false → q1.burstTime = q.burstTime →
      doneBurst (ps.set i q1) (bs.set i true) = doneBurst ps bs + q.burstTime
  | [], _, _, _, _, h, _, _ => by simp at h
  | _ :: _, [], _, _, _, _, h, _ => by simp at h
  | p :: ps, b :: bs, 0, q, q1, hp, hb, hq => by
    simp only [List.getElem?_cons_zero, Option.some.injEq] at hp hb
    subst hp hb
    simp only [List.set_cons_zero, doneBurst, hq]
    simp only [if_true, Bool.false_eq_true, if_false]
    ring
  | p :: ps, b :: bs, i + 1, q, q1, hp, hb, hq => by
    simp only [List.getElem?_cons_succ] at hp hb
    simp only [List.set_cons_succ, doneBurst, doneBurst_set ps bs i q q1 hp hb hq]
    ring

theorem doneBurst_all :
    ∀ (ps : List Process) (bs : List Bool), bs.length = ps.length →
      (∀ i, i < bs.length → bs[i]? = some true) →
      doneBurst ps bs = (ps.map Process.burstTime).sum
  | [], _, _, _ => by simp [doneBurst]
  | p :: ps, [], h, _ => by simp at h
  | p :: ps, b :: bs, h, hall => by
    have h0 := hall 0 (by simp)
    simp only [List.getElem?_cons_zero, Option.some.injEq] at h0
    subst h0
    have := doneBurst_all ps bs (by simpa using h)
      (fun i hi => by simpa using hall (i + 1) (by simpa using hi))
    simp [doneBurst, this]

/-! ## The next-arrival loop -/

theorem nextArrivalFrom_spec (pending : Nat → Process → Bool) :
    ∀ (l : List Process) (i : Nat) (acc : Int),
      nextArrivalFrom pending l i acc = acc ∨
        ∃ (j : Nat) (p : Process), l[j]? = some p ∧ pending (i + j) p = true ∧
          nextArrivalFrom pending l i acc = p.arrivalTime
  | [], _, _ => Or.inl rfl
  | p :: rest, i, acc => by
    unfold nextArrivalFrom
    rcases nextArrivalFrom_spec pending rest (i + 1)
        (if pending i p then min acc p.arrivalTime else acc) with h | ⟨j, q, hq, hp, hr⟩
    · rw [h]
      by_cases hp : pending i p = true
      · rw [if_pos hp]
        rcases min_choice acc p.arrivalTime with hm | hm
        · exact Or.inl hm
        · exact Or.inr ⟨0, p, by simp, by simpa using hp, hm⟩
      · rw [if_neg hp]; exact Or.inl rfl
    · exact Or.inr ⟨j + 1, q, by simpa using hq, by rw [← hp]; congr 1; omega, hr⟩

/-! ## The loop of sjf and priorityNonPreemptive -/

theorem NPInv.np_init (input : List Process) : NPInv input (NPState.init input) where
  len := rfl
  lenC := by simp [NPState.init]
  same := by
    intro i p q hp hq
    simp only [NPState.init] at hq
    rw [hp] at hq; cases hq
    exact ⟨rfl, rfl, rfl, rfl, rfl⟩
  count := by simp [NPState.init, List.count_replicate]
  done := by
    intro i q h
    simp [NPState.init, List.getElem?_replicate] at h
  slots := by
    intro i j p q _ h
    simp [NPState.init, List.getElem?_replicate] at h
  busy := by simp [NPState.init, doneBurst_replicate]
  last := Or.inl rfl

theorem NPInv.advance {input : List Process} {st : NPState} (hinv : NPInv input st)
    (t : Int) (ht : st.currentTime ≤ t) : NPInv input { st with currentTime := t } where
  len := hinv.len
  lenC := hinv.lenC
  same := hinv.same
  count := hinv.count
  done := fun i q h1 h2 => ⟨(hinv.done i q h1 h2).1, le_trans (hinv.done i q h1 h2).2 ht⟩
  slots := hinv.slots
  busy := le_trans hinv.busy ht
  last := hinv.last

theorem ready_iff (st : NPState) (i : Nat) (p : Process) :
    st.ready i p = true ↔ st.isCompleted[i]? ≠ some true ∧ p.arrivalTime ≤ st.currentTime := by
  unfold NPState.ready
  simp only [Bool.and_eq_true, Bool.not_eq_true', decide_eq_true_iff, ne_eq, ← getD_false_eq,
    Bool.not_eq_true]

theorem pending_iff (st : NPState) (i : Nat) (p : Process) :
    st.pending i p = true ↔ st.isCompleted[i]? ≠ some true ∧ st.currentTime < p.arrivalTime := by
  unfold NPState.pending
  simp only [Bool.and_eq_true, Bool.not_eq_true', decide_eq_true_iff, ne_eq, ← getD_false_eq,
    Bool.not_eq_true, gt_iff_lt]

theorem NPInv.dispatch {input : List Process} {st : NPState} (hinv : NPInv input st)
    {b : Nat} {q : Process} (hq : st.procs[b]? = some q) (hready : st.ready b q = true)
    (hburst : 0 ≤ q.burstTime) : NPInv input (st.dispatch b q) := by
  have hb : b < st.procs.length := (List.getElem?_eq_some.1 hq).1
  have hbC : b < st.isCompleted.length := by rw [hinv.lenC, ← hinv.len]; exact hb
  obtain ⟨hnot, harr⟩ := (ready_iff st b q).1 hready
  have hfalse : st.isCompleted[b]? = some false := by
    rw [List.getElem?_eq_getElem hbC] at hnot ⊢
    cases h : st.isCompleted[b] with
    | false => rfl
    | true => rw [h] at hnot; exact absurd rfl hnot
  have hdb := doneBurst_set st.procs st.isCompleted b q
    { q with responseTime := st.currentTime - q.arrivalTime,
             completionTime := st.currentTime + q.burstTime,
             turnaroundTime := st.currentTime + q.burstTime - q.arrivalTime,
             waitingTime := st.currentTime + q.burstTime - q.arrivalTime - q.burstTime }
    hq hfalse rfl
  have hbusy := hinv.busy
  refine ⟨?_, ?_, ?_, ?_, ?_, ?_, ?_, ?_⟩
  · simp [NPState.dispatch, hinv.len]
  · simp [NPState.dispatch, hinv.lenC]
  · intro i p q1 hp hq1
    simp only [NPState.dispatch, List.getElem?_set] at hq1
    split_ifs at hq1 with h1
    · subst h1; cases hq1
      exact hinv.same b p q hp hq
    · exact hinv.same i p q1 hp hq1
  · simp only [NPState.dispatch]
    rw [count_set_true _ _ hfalse, hinv.count]
  · intro i q1 hc hq1
    simp only [NPState.dispatch, List.getElem?_set] at hc hq1 ⊢
    split_ifs at hq1 with h1
    · cases hq1
      refine ⟨⟨⟨?_, ?_, ?_, ?_⟩, ?_, ?_⟩, ?_⟩ <;> dsimp only <;> omega
    · rw [if_neg h1] at hc
      have := hinv.done i q1 hc hq1
      exact ⟨this.1, by omega⟩
  · intro i j p1 q1 hij hci hcj hp1 hq1
    simp only [NPState.dispatch, List.getElem?_set] at hci hcj hp1 hq1
    by_cases hi : b = i
    · have hj : b ≠ j := fun h => hij (hi.symm.trans h)
      rw [if_pos hi, if_pos hb] at hp1
      rw [if_neg hj] at hq1 hcj
      cases hp1
      have := (hinv.done j q1 hcj hq1).2
      right; dsimp only; omega
    · rw [if_neg hi] at hp1 hci
      by_cases hj : b = j
      · rw [if_pos hj, if_pos hb] at hq1
        cases hq1
        have := (hinv.done i p1 hci hp1).2
        left; dsimp only; omega
      · rw [if_neg hj] at hq1 hcj
        exact hinv.slots i j p1 q1 hij hci hcj hp1 hq1
  · simp only [NPState.dispatch]
    rw [hdb]; omega
  · refine Or.inr ⟨b, _, ?_,
      (List.getElem?_set_self hb : (st.dispatch b q).procs[b]? = some _), ?_⟩
    · simp only [NPState.dispatch]; rw [List.getElem?_set_self hbC]
    · simp only [NPState.dispatch]
      rw [hdb]; omega

theorem mem_of_getElem?_eq {α : Type} {l : List α} {i : Nat} {a : α} (h : l[i]? = some a) :
    a ∈ l := by
  obtain ⟨hi, rfl⟩ := List.getElem?_eq_some.1 h
  exact List.getElem_mem hi

theorem NPInv.np_input_of {input : List Process} {st : NPState} (hinv : NPInv input st)
    {i : Nat} {q : Process} (hq : st.procs[i]? = some q) :
    ∃ p, p ∈ input ∧ sameJob p q := by
  have hi : i < input.length := by rw [← hinv.len]; exact (List.getElem?_eq_some.1 hq).1
  exact ⟨input[i], List.getElem_mem hi,
    hinv.same i _ q (List.getElem?_eq_getElem hi) hq⟩

/-- One iteration of the loop keeps the invariant and uses up potential. -/
theorem npStep_spec (key : Process → Int) (input : List Process) (st : NPState)
    (hjob : ∀ p q, sameJob p q → key p = key q)
    (hkey : ∀ p ∈ input, key p < INT_MAX) (hburst : ∀ p ∈ input, 0 ≤ p.burstTime)
    (hinv : NPInv input st) (hlt : st.completedCount < st.procs.length) :
    ∃ st1, npStep key st = .ok st1 ∧ NPInv input st1 ∧
      st1.potential input < st.potential input := by
  obtain ⟨best, minKey, hscan, hpost⟩ := scan_spec st.procs key st.ready (by
    intro j p hp _
    obtain ⟨p0, hp0, hsame⟩ := hinv.np_input_of hp
    rw [← hjob p0 p hsame]; exact hkey p0 hp0)
  unfold npStep
  rw [hscan]
  cases best with
  | none =>
    refine ⟨st.idle, rfl, ?_⟩
    -- some process is not completed, and it has not arrived
    obtain ⟨i, hi⟩ := exists_false_of_count_lt st.isCompleted (by
      rw [← hinv.count, hinv.lenC, ← hinv.len]; exact hlt)
    have hiC : i < st.isCompleted.length := (List.getElem?_eq_some.1 hi).1
    have hiP : i < st.procs.length := by rw [hinv.len, ← hinv.lenC]; exact hiC
    have hnr := hpost.2 i st.procs[i] hiP (List.getElem?_eq_getElem hiP)
    have harr : st.currentTime < st.procs[i].arrivalTime := by
      by_contra hcon
      have : st.ready i st.procs[i] = true :=
        (ready_iff st i _).2 ⟨by rw [hi]; simp, not_lt.1 hcon⟩
      rw [hnr] at this; exact absurd this (by simp)
    have hmaxi : st.procs[i].arrivalTime ≤ maxArrival input := by
      obtain ⟨p0, hp0, hsame⟩ := hinv.np_input_of (List.getElem?_eq_getElem hiP)
      rw [← hsame.2.2.1]; exact le_maxArrival hp0
    have htime : st.currentTime < st.idle.currentTime ∧ st.idle.currentTime ≤ maxArrival input := by
      simp only [NPState.idle]
      rcases nextArrivalFrom_spec st.pending st.procs 0 INT_MAX with h | ⟨j, p, hp, hpend, hr⟩
      · rw [h, if_pos rfl]; omega
      · have hpa := ((pending_iff st (0 + j) p).1 hpend).2
        obtain ⟨p0, hp0, hsame⟩ := hinv.np_input_of hp
        have := le_maxArrival hp0
        rw [hsame.2.2.1] at this
        split_ifs with h
        · omega
        · rw [hr]; omega
    refine ⟨hinv.advance _ (le_of_lt htime.1), ?_⟩
    have hc : st.idle.completedCount = st.completedCount := rfl
    simp only [NPState.potential, hc]
    omega
  | some b =>
    obtain ⟨_, q, hq, hready, _⟩ := hpost
    simp only [hq]
    have hbq : 0 ≤ q.burstTime := by
      obtain ⟨p0, hp0, hsame⟩ := hinv.np_input_of hq
      rw [← hsame.2.2.2.1]; exact hburst p0 hp0
    refine ⟨_, rfl, hinv.dispatch hq hready hbq, ?_⟩
    have hlen := hinv.len
    simp only [NPState.potential, NPState.dispatch]
    omega

/-- With fuel for its potential the loop ends, the invariant holding and every
process completed. -/
theorem npLoop_spec (key : Process → Int) (input : List Process)
    (hjob : ∀ p q, sameJob p q → key p = key q)
    (hkey : ∀ p ∈ input, key p < INT_MAX) (hburst : ∀ p ∈ input, 0 ≤ p.burstTime) :
    ∀ (fuel : Nat) (st : NPState), NPInv input st → st.potential input ≤ fuel →
      ∃ st1, npLoop key fuel st = .ok st1 ∧ NPInv input st1 ∧
        ¬ st1.completedCount < st1.procs.length := by
  intro fuel
  induction fuel with
  | zero =>
    intro st hinv hpot
    have hlen := hinv.len
    have hnot : ¬ st.completedCount < st.procs.length := by
      simp only [NPState.potential] at hpot; omega
    exact ⟨st, by simp [npLoop, hnot], hinv, hnot⟩
  | succ fuel ih =>
    intro st hinv hpot
    by_cases hlt : st.completedCount < st.procs.length
    · obtain ⟨st1, hstep, hinv1, hdec⟩ := npStep_spec key input st hjob hkey hburst hinv hlt
      obtain ⟨st2, hloop, hinv2, hdone⟩ := ih st1 hinv1 (by omega)
      exact ⟨st2, by simp [npLoop, hlt, hstep, hloop], hinv2, hdone⟩
    · exact ⟨st, by simp [npLoop, hlt], hinv, hlt⟩

theorem forall₂_of_index {α : Type} {R : α → α → Prop} {l₁ l₂ : List α}
    (hlen : l₂.length = l₁.length)
    (h : ∀ (i : Nat) p q, l₁[i]? = some p → l₂[i]? = some q → R p q) :
    List.Forall₂ R l₁ l₂ := by
  rw [List.forall₂_iff_get]
  refine ⟨hlen.symm, fun i h1 h2 => h i _ _ ?_ ?_⟩
  · rw [List.getElem?_eq_getElem h1]; rfl
  · rw [List.getElem?_eq_getElem h2]; rfl

/-- The result of `sjf` and `priorityNonPreemptive` on a non-empty workload
whose keys are below `INT_MAX`, for any fuel from the bound on. -/
theorem nonPreemptive_spec (key : Process → Int) (input : List Process) (hne : input ≠ [])
    (hjob : ∀ p q, sameJob p q → key p = key q)
    (hkey : ∀ p ∈ input, key p < INT_MAX) (hburst : ∀ p ∈ input, 0 ≤ p.burstTime)
    (fuel : Nat) (hfuel : input.length + (maxArrival input).toNat ≤ fuel) :
    ∃ out, nonPreemptive key fuel input = .ok out ∧ List.Forall₂ sameJob input out ∧
      (∀ q ∈ out, nonPreemptiveMetrics q) ∧
      (∀ (i j : Nat) p q, i ≠ j → out[i]? = some p → out[j]? = some q → disjointSlots p q) ∧
      totalBurstTime out ≤ maxCompletionTime out := by
  obtain ⟨st, hloop, hinv, hdone⟩ := npLoop_spec key input hjob hkey hburst fuel
    (NPState.init input) (NPInv.np_init input) (by simpa [NPState.potential, NPState.init] using hfuel)
  have hall : ∀ i, i < st.isCompleted.length → st.isCompleted[i]? = some true := by
    have hle : st.isCompleted.count true ≤ st.isCompleted.length := List.count_le_length _ _
    refine all_true_of_count_eq _ ?_
    have h1 := hinv.count
    have h2 := hinv.len
    have h3 := hinv.lenC
    omega
  have hallP : ∀ (i : Nat) q, st.procs[i]? = some q → st.isCompleted[i]? = some true := by
    intro i q hq
    refine hall i ?_
    rw [hinv.lenC, ← hinv.len]; exact (List.getElem?_eq_some.1 hq).1
  refine ⟨st.procs, ?_, forall₂_of_index hinv.len hinv.same, ?_, ?_, ?_⟩
  · unfold nonPreemptive
    rw [if_neg (by simpa using hne), hloop]; rfl
  · intro q hq
    obtain ⟨i, hi, rfl⟩ := List.getElem_of_mem hq
    exact (hinv.done i _ (hallP i _ (List.getElem?_eq_getElem hi))
      (List.getElem?_eq_getElem hi)).1
  · intro i j p q hij hp hq
    exact hinv.slots i j p q hij (hallP i p hp) (hallP j q hq) hp hq
  · rw [totalBurstTime_eq, ← doneBurst_all st.procs st.isCompleted
      (by rw [hinv.lenC, hinv.len]) hall]
    rcases hinv.last with h0 | ⟨i, q, _, hq, hle⟩
    · exfalso
      have := hinv.len
      have : 0 < input.length := List.length_pos.2 hne
      omega
    · exact le_trans hle (le_maxCompletionTime (mem_of_getElem?_eq hq))

/-! ## Sums and counts under `set` -/

theorem sum_map_set (f : Process → Int) :
    ∀ (l : List Process) (i : Nat) (q q1 : Process), l[i]? = some q →
      ((l.set i q1).map f).sum = (l.map f).sum - f q + f q1
  | [], _, _, _, h => by simp at h
  | p :: l, 0, q, q1, h => by
    simp only [List.getElem?_cons_zero, Option.some.injEq] at h
    subst h
    simp only [List.set_cons_zero, List.map_cons, List.sum_cons]; ring
  | p :: l, i + 1, q, q1, h => by
    simp only [List.getElem?_cons_succ] at h
    simp only [List.set_cons_succ, List.map_cons, List.sum_cons, sum_map_set f l i q q1 h]; ring

theorem countP_set_eq (f : Process → Bool) :
    ∀ (l : List Process) (i : Nat) (q q1 : Process), l[i]? = some q →
      (l.set i q1).countP f + (if f q then 1 else 0) = l.countP f + (if f q1 then 1 else 0)
  | [], _, _, _, h => by simp at h
  | p :: l, 0, q, q1, h => by
    simp only [List.getElem?_cons_zero, Option.some.injEq] at h
    subst h
    simp only [List.set_cons_zero, List.countP_cons]; omega
  | p :: l, i + 1, q, q1, h => by
    simp only [List.getElem?_cons_succ] at h
    have := countP_set_eq f l i q q1 h
    simp only [List.set_cons_succ, List.countP_cons]; omega

theorem mem_set_cases {l : List Process} {i : Nat} {q1 x : Process}
    (h : x ∈ l.set i q1) : x = q1 ∨ x ∈ l := by
  rcases List.mem_or_eq_of_mem_set h with h | h
  · exact Or.inr h
  · exact Or.inl h

theorem remainingSum_le (l : List Process)
    (h : ∀ q ∈ l, q.remainingTime ≤ q.burstTime) :
    remainingSum l ≤ (l.map Process.burstTime).sum := by
  induction l with
  | nil => simp [remainingSum]
  | cons p t ih =>
    have h1 := h p (List.mem_cons_self _ _)
    have h2 := ih (fun q hq => h q (List.mem_cons_of_mem _ hq))
    simp only [remainingSum, List.map_cons, List.sum_cons] at h2 ⊢
    omega

theorem burst_sum_eq_of_sameJob {l₁ l₂ : List Process} (h : List.Forall₂ sameJob l₁ l₂) :
    (l₂.map Process.burstTime).sum = (l₁.map Process.burstTime).sum := by
  induction h with
  | nil => rfl
  | cons hab _ ih => simp only [List.map_cons, List.sum_cons, ih, hab.2.2.2.1]

theorem exists_unfinished (l : List Process) (h : finishedCount l < l.length) :
    ∃ q ∈ l, q.remainingTime ≠ 0 := by
  by_contra hcon
  push_neg at hcon
  have : finishedCount l = l.length := by
    unfold finishedCount
    rw [List.countP_eq_length]
    intro q hq
    simpa using hcon q hq
  omega

theorem finishedCount_eq_length (l : List Process) (h0 : ∀ q ∈ l, 0 ≤ q.remainingTime)
    (hs : remainingSum l ≤ 0) : finishedCount l = l.length ∧ ∀ q ∈ l, q.remainingTime = 0 := by
  induction l with
  | nil => simp [finishedCount]
  | cons p t ih =>
    have hp := h0 p (List.mem_cons_self _ _)
    have ht0 : ∀ q ∈ t, 0 ≤ q.remainingTime := fun q hq => h0 q (List.mem_cons_of_mem _ hq)
    have hnn : 0 ≤ remainingSum t := by
      unfold remainingSum
      exact List.sum_nonneg (by
        intro x hx
        obtain ⟨q, hq, rfl⟩ := List.mem_map.1 hx
        exact ht0 q hq)
    simp only [remainingSum, List.map_cons, List.sum_cons] at hs hnn
    have hp0 : p.remainingTime = 0 := by omega
    obtain ⟨h1, h2⟩ := ih ht0 (by simp only [remainingSum]; omega)
    refine ⟨?_, ?_⟩
    · simp only [finishedCount, List.countP_cons, List.length_cons] at h1 ⊢
      simp [hp0, h1]
    · intro q hq
      rcases List.mem_cons.1 hq with rfl | hq
      · exact hp0
      · exact h2 q hq

/-! ## Records under a run on the CPU -/

theorem fresh_fields {p : Process} (h : p.fresh) :
    p.remainingTime = p.burstTime ∧ p.completionTime = 0 ∧ p.turnaroundTime = 0 ∧
      p.waitingTime = 0 ∧ p.responseTime = -1 ∧ p.started = false := by
  cases p
  simp only [Process.fresh, Process.create, Process.mk.injEq] at h
  simp only
  obtain ⟨_, _, _, _, _, h1, h2, h3, h4, h5, h6⟩ := h
  exact ⟨h1, h2, h4, h3, h5, h6⟩

theorem RecordInv.mono {t t1 : Int} {q : Process} (h : RecordInv t q) (ht : t ≤ t1) :
    RecordInv t1 q where
  rem := h.rem
  started := h.started
  resp := fun hs => ⟨(h.resp hs).1, le_trans (h.resp hs).2 ht⟩
  done := fun hd => ⟨(h.done hd).1, le_trans (h.done hd).2 ht⟩
  undone := h.undone

theorem RecordInv.of_fresh {q : Process} (hf : q.fresh) (hb : 0 < q.burstTime) : RecordInv 0 q := by
  obtain ⟨h1, h2, h3, h4, _, h6⟩ := fresh_fields hf
  exact ⟨by omega, fun h => by omega, fun h => by rw [h6] at h; exact absurd h (by simp),
    fun h => by omega, fun _ => ⟨h2, h3, h4⟩⟩

/-- A record that was ready at clock `t` and ran for `e` time units. -/
theorem RecordInv.run {t e : Int} {q r : Process} (hq : RecordInv t q)
    (harr : q.arrivalTime ≤ t) (he : 0 < e) (hle : e ≤ q.remainingTime) (hs : sameJob q r)
    (hrem : r.remainingTime = q.remainingTime - e)
    (hst : r.started = true ∧ (q.started = true → r.responseTime = q.responseTime) ∧
      (q.started = false → r.responseTime = t - q.arrivalTime))
    (hfin : r.remainingTime = 0 → r.completionTime = t + e ∧
      r.turnaroundTime = r.completionTime - r.arrivalTime ∧
      r.waitingTime = r.turnaroundTime - r.burstTime)
    (hun : r.remainingTime ≠ 0 → r.completionTime = q.completionTime ∧
      r.turnaroundTime = q.turnaroundTime ∧ r.waitingTime = q.waitingTime) :
    RecordInv (t + e) r := by
  obtain ⟨_, _, ha, hb, _⟩ := hs
  have h1 := hq.rem
  have hresp : 0 ≤ r.responseTime ∧
      r.arrivalTime + r.responseTime + (r.burstTime - r.remainingTime) ≤ t + e := by
    cases hqs : q.started with
    | true =>
      have := hq.resp hqs
      rw [hst.2.1 hqs]; omega
    | false =>
      have hfull : ¬ q.remainingTime < q.burstTime := fun h => by
        rw [hq.started h] at hqs; exact absurd hqs (by simp)
      rw [hst.2.2 hqs]; omega
  refine ⟨by omega, fun _ => hst.1, fun _ => hresp, fun h0 => ?_, fun hpos => ?_⟩
  · obtain ⟨hc, htat, hwt⟩ := hfin h0
    refine ⟨⟨?_, htat, hwt, ?_⟩, ?_⟩ <;> omega
  · obtain ⟨hc, htat, hwt⟩ := hun (by omega)
    have := hq.undone (by omega)
    omega

/-! ## The loop of srtf and priorityPreemptive -/

theorem pready_iff (st : PState) (i : Nat) (p : Process) :
    st.ready i p = true ↔ p.arrivalTime ≤ st.currentTime ∧ 0 < p.remainingTime := by
  simp [PState.ready]

/-- The effect of one tick on the state. -/
theorem tick_shape (st : PState) (b : Nat) (q : Process) :
    ∃ r, (st.tick b q).procs = st.procs.set b r ∧
      (st.tick b q).currentTime = st.currentTime + 1 ∧ sameJob q r ∧
      r.remainingTime = q.remainingTime - 1 ∧
      (r.started = true ∧ (q.started = true → r.responseTime = q.responseTime) ∧
        (q.started = false → r.responseTime = st.currentTime - q.arrivalTime)) ∧
      (r.remainingTime = 0 → (st.tick b q).completed = st.completed + 1 ∧
        r.completionTime = st.currentTime + 1 ∧
        r.turnaroundTime = r.completionTime - r.arrivalTime ∧
        r.waitingTime = r.turnaroundTime - r.burstTime) ∧
      (r.remainingTime ≠ 0 → (st.tick b q).completed = st.completed ∧
        r.completionTime = q.completionTime ∧ r.turnaroundTime = q.turnaroundTime ∧
        r.waitingTime = q.waitingTime) := by
  unfold PState.tick
  cases hs : q.started <;> by_cases h0 : q.remainingTime - 1 = 0
  all_goals
    first
    | (rw [if_pos (by simpa using h0)]
       exact ⟨_, rfl, rfl, ⟨rfl, rfl, rfl, rfl, rfl⟩, rfl,
         ⟨by first | rfl | exact hs, fun h => by first | rfl | exact absurd h (by simp),
           fun h => by first | rfl | exact absurd h (by simp)⟩,
         fun _ => ⟨rfl, rfl, rfl, rfl⟩, fun h => absurd h0 h⟩)
    | (rw [if_neg (by simpa using h0)]
       exact ⟨_, rfl, rfl, ⟨rfl, rfl, rfl, rfl, rfl⟩, rfl,
         ⟨by first | rfl | exact hs, fun h => by first | rfl | exact absurd h (by simp),
           fun h => by first | rfl | exact absurd h (by simp)⟩,
         fun h => absurd h h0, fun _ => ⟨rfl, rfl, rfl, rfl⟩⟩)

theorem PInv.p_init (input : List Process) (hne : input ≠ [])
    (hfresh : ∀ p ∈ input, p.fresh) (hburst : ∀ p ∈ input, 0 < p.burstTime) :
    PInv input { procs := input, currentTime := 0, completed := 0 } := by
  have hrem : remainingSum input = (input.map Process.burstTime).sum := by
    unfold remainingSum
    congr 1
    exact List.map_congr_left (fun p hp => (fresh_fields (hfresh p hp)).1)
  refine ⟨rfl, ?_, ?_, ?_, ?_, ?_, ?_⟩
  · intro i p q hp hq
    rw [hp] at hq; cases hq
    exact ⟨rfl, rfl, rfl, rfl, rfl⟩
  · intro q hq
    exact RecordInv.of_fresh (hfresh q hq) (hburst q hq)
  · symm
    simp only [finishedCount, List.countP_eq_zero]
    intro q hq
    have := (fresh_fields (hfresh q hq)).1
    have := hburst q hq
    simp; omega
  · have := maxArrival_nonneg input
    simp only [hrem, totalBurstTime_eq]; omega
  · simp only [hrem, totalBurstTime_eq]; omega
  · intro h
    have : 0 < input.length := List.length_pos.2 hne
    simp only at h; omega

theorem PInv.p_input_of {input : List Process} {st : PState} (hinv : PInv input st)
    {i : Nat} {q : Process} (hq : st.procs[i]? = some q) :
    ∃ p, p ∈ input ∧ sameJob p q := by
  have hi : i < input.length := by rw [← hinv.len]; exact (List.getElem?_eq_some.1 hq).1
  exact ⟨input[i], List.getElem_mem hi,
    hinv.same i _ q (List.getElem?_eq_getElem hi) hq⟩

theorem PInv.p_burst_sum {input : List Process} {st : PState} (hinv : PInv input st) :
    (st.procs.map Process.burstTime).sum = totalBurstTime input := by
  rw [totalBurstTime_eq]
  exact burst_sum_eq_of_sameJob (forall₂_of_index hinv.len hinv.same)

theorem PInv.tick {input : List Process} {st : PState} (hinv : PInv input st)
    {b : Nat} {q : Process} (hq : st.procs[b]? = some q) (hready : st.ready b q = true)
    (hlt : st.completed < st.procs.length) : PInv input (st.tick b q) := by
  obtain ⟨harr, hpos⟩ := (pready_iff st b q).1 hready
  obtain ⟨r, hprocs, htime, hsame, hrem, hst, hfin, hun⟩ := tick_shape st b q
  have hb : b < st.procs.length := (List.getElem?_eq_some.1 hq).1
  have hqm : q ∈ st.procs := mem_of_getElem?_eq hq
  have hrec : RecordInv (st.currentTime + 1) r :=
    (hinv.records q hqm).run harr (by omega) (by omega) hsame hrem hst
      (fun h => (hfin h).2) (fun h => (hun h).2)
  have hsum : remainingSum (st.tick b q).procs = remainingSum st.procs - 1 := by
    rw [hprocs]; unfold remainingSum
    rw [sum_map_set _ _ _ _ _ hq, hrem]; ring
  have hcnt := countP_set_eq (fun q => decide (q.remainingTime = 0)) st.procs b q r hq
  have hq0 : decide (q.remainingTime = 0) = false := by simp; omega
  simp only [hq0, Bool.false_eq_true, if_false, add_zero] at hcnt
  refine ⟨?_, ?_, ?_, ?_, ?_, ?_, ?_⟩
  · rw [hprocs, List.length_set, hinv.len]
  · intro i p q1 hp hq1
    rw [hprocs, List.getElem?_set] at hq1
    split_ifs at hq1 with h1
    · subst h1; cases hq1
      obtain ⟨a1, a2, a3, a4, a5⟩ := hinv.same b p q hp hq
      obtain ⟨b1, b2, b3, b4, b5⟩ := hsame
      exact ⟨a1.trans b1, a2.trans b2, a3.trans b3, a4.trans b4, a5.trans b5⟩
    · exact hinv.same i p q1 hp hq1
  · intro x hx
    rw [htime]
    rw [hprocs] at hx
    rcases mem_set_cases hx with rfl | hx
    · exact hrec
    · exact (hinv.records x hx).mono (by omega)
  · unfold finishedCount
    rw [hprocs, hcnt]
    by_cases h0 : r.remainingTime = 0
    · rw [(hfin h0).1, hinv.count]; simp [finishedCount, h0]
    · rw [(hun h0).1, hinv.count]; simp [finishedCount, h0]
  · rw [hsum, htime]; have := hinv.work; omega
  · rw [hsum, htime]; have := hinv.busy; omega
  · intro hall
    by_cases h0 : r.remainingTime = 0
    · refine ⟨r, ?_, ?_⟩
      · rw [hprocs]; exact List.mem_iff_getElem?.2 ⟨b, List.getElem?_set_self hb⟩
      · rw [htime, (hfin h0).2.1]
    · rw [(hun h0).1, hprocs, List.length_set] at hall
      omega

theorem PInv.idle {input : List Process} {st : PState} (hinv : PInv input st)
    (hlt : st.completed < st.procs.length)
    (hnone : ∀ (j : Nat) p, st.procs[j]? = some p → st.ready j p = false) :
    PInv input { st with currentTime := st.currentTime + 1 } := by
  obtain ⟨q, hq, hq0⟩ := exists_unfinished st.procs (by rw [← hinv.count]; exact hlt)
  obtain ⟨i, hi⟩ := List.mem_iff_getElem?.1 hq
  have hrq := (hinv.records q hq).rem
  have hnr := hnone i q hi
  have harr : st.currentTime < q.arrivalTime := by
    by_contra hcon
    have : st.ready i q = true := (pready_iff st i q).2 ⟨not_lt.1 hcon, by omega⟩
    rw [hnr] at this; exact absurd this (by simp)
  obtain ⟨p0, hp0, hsame⟩ := hinv.p_input_of hi
  have hmax := le_maxArrival hp0
  rw [hsame.2.2.1] at hmax
  have hsum := remainingSum_le st.procs (fun x hx => (hinv.records x hx).rem.2)
  rw [hinv.p_burst_sum] at hsum
  refine ⟨hinv.len, hinv.same, fun x hx => (hinv.records x hx).mono (by simp), hinv.count,
    ?_, ?_, ?_⟩
  · simp only; omega
  · have := hinv.busy; simp only; omega
  · intro hall
    simp only at hall; omega

/-- One iteration of the loop keeps the invariant and advances the clock by
one; it either finds no process ready and changes nothing else, or runs for one
time unit a ready process whose key no ready process undercuts. -/
theorem pStep_spec (key : Process → Int) (input : List Process) (st : PState)
    (hkey : ∀ q ∈ st.procs, key q < INT_MAX)
    (hinv : PInv input st) (hlt : st.completed < st.procs.length) :
    ∃ st1, pStep key st = .ok st1 ∧ PInv input st1 ∧
      st1.currentTime = st.currentTime + 1 ∧
      (((∀ (j : Nat) p, st.procs[j]? = some p → st.ready j p = false) ∧
          st1.procs = st.procs) ∨
        ∃ (b : Nat) (q : Process), st.procs[b]? = some q ∧ st.ready b q = true ∧
          (∀ (j : Nat) p, st.procs[j]? = some p → st.ready j p = true → key q ≤ key p) ∧
          st1 = st.tick b q) := by
  obtain ⟨best, minKey, hscan, hpost⟩ := scan_spec st.procs key st.ready
    (fun j p hp _ => hkey p (mem_of_getElem?_eq hp))
  unfold pStep
  rw [hscan]
  cases best with
  | none =>
    have hnone : ∀ (j : Nat) p, st.procs[j]? = some p → st.ready j p = false :=
      fun j p hp => hpost.2 j p (List.getElem?_eq_some.1 hp).1 hp
    exact ⟨_, rfl, hinv.idle hlt hnone, rfl, Or.inl ⟨hnone, rfl⟩⟩
  | some b =>
    obtain ⟨_, q, hq, hready, _, hle, _⟩ := hpost
    simp only [hq]
    refine ⟨_, rfl, hinv.tick hq hready hlt, (tick_shape st b q).choose_spec.2.1,
      Or.inr ⟨b, q, hq, hready, fun j p hp hr => ?_, rfl⟩⟩
    have := hle j p (List.getElem?_eq_some.1 hp).1 hp hr
    unfold scanLe at this; omega

/-- With fuel for the time left to the safety bound the loop ends, the
invariant holding and the loop test false, together with any property `Q` of
the state that an iteration keeps. -/
theorem pLoop_inv (key : Process → Int) (input : List Process) (maxTime : Int)
    (hkey : ∀ st, PInv input st → ∀ q ∈ st.procs, key q < INT_MAX) (Q : PState → Prop)
    (hQ : ∀ st st1, PInv input st → Q st → st.completed < st.procs.length →
      pStep key st = .ok st1 → Q st1) :
    ∀ (fuel : Nat) (st : PState), PInv input st → Q st →
      (maxTime - st.currentTime).toNat ≤ fuel →
      ∃ st1, pLoop key maxTime fuel st = .ok st1 ∧ PInv input st1 ∧ Q st1 ∧
        ¬ (st1.completed < st1.procs.length ∧ st1.currentTime < maxTime) := by
  intro fuel
  induction fuel with
  | zero =>
    intro st hinv hq hpot
    have hnot : ¬ (st.completed < st.procs.length ∧ st.currentTime < maxTime) := by
      rintro ⟨_, h⟩; omega
    exact ⟨st, by simp only [pLoop, if_neg hnot], hinv, hq, hnot⟩
  | succ fuel ih =>
    intro st hinv hq hpot
    by_cases hc : st.completed < st.procs.length ∧ st.currentTime < maxTime
    · obtain ⟨st1, hstep, hinv1, htime, _⟩ :=
        pStep_spec key input st (hkey st hinv) hinv hc.1
      obtain ⟨st2, hloop, hinv2, hq2, hdone⟩ := ih st1 hinv1
        (hQ st st1 hinv hq hc.1 hstep) (by omega)
      exact ⟨st2, by simp only [pLoop, if_pos hc, hstep, hloop], hinv2, hq2, hdone⟩
    · exact ⟨st, by simp only [pLoop, if_neg hc], hinv, hq, hc⟩

theorem pLoop_spec (key : Process → Int) (input : List Process) (maxTime : Int)
    (hkey : ∀ st, PInv input st → ∀ q ∈ st.procs, key q < INT_MAX) :
    ∀ (fuel : Nat) (st : PState), PInv input st → (maxTime - st.currentTime).toNat ≤ fuel →
      ∃ st1, pLoop key maxTime fuel st = .ok st1 ∧ PInv input st1 ∧
        ¬ (st1.completed < st1.procs.length ∧ st1.currentTime < maxTime) := by
  intro fuel st hinv hfuel
  obtain ⟨st1, h1, h2, _, h3⟩ := pLoop_inv key input maxTime hkey (fun _ => True)
    (fun _ _ _ _ _ _ => trivial) fuel st hinv trivial hfuel
  exact ⟨st1, h1, h2, h3⟩

theorem maxArrival_le_aux (l : List Process) (m M : Int) (hm : m ≤ M)
    (h : ∀ p ∈ l, p.arrivalTime ≤ M) :
    l.foldl (fun m p => max m p.arrivalTime) m ≤ M := by
  induction l generalizing m with
  | nil => simpa using hm
  | cons a t ih =>
    simp only [List.foldl_cons]
    exact ih _ (max_le hm (h a (List.mem_cons_self _ _)))
      (fun p hp => h p (List.mem_cons_of_mem _ hp))

theorem maxArrival_le (l : List Process) (M : Int) (hM : 0 ≤ M)
    (h : ∀ p ∈ l, p.arrivalTime ≤ M) : maxArrival l ≤ M :=
  maxArrival_le_aux l 0 M hM h

/-- The loop of `srtf` and `priorityPreemptive` completes every process when
no process arrives more than 1000 time units after the last-listed one. -/
theorem preemptiveRun_spec (key : Process → Int) (input : List Process) (last : Process)
    (hlast : input.getLast? = some last)
    (hfresh : ∀ p ∈ input, p.fresh) (harr : ∀ p ∈ input, 0 ≤ p.arrivalTime)
    (hburst : ∀ p ∈ input, 0 < p.burstTime)
    (hkey : ∀ st, PInv input st → ∀ q ∈ st.procs, key q < INT_MAX)
    (hbound : ∀ p ∈ input, p.arrivalTime ≤ last.arrivalTime + 1000)
    (fuel : Nat) (hfuel : (maxTimeOf input last).toNat ≤ fuel) :
    ∃ st, preemptiveRun key fuel input = .ok st ∧ PInv input st ∧
      st.completed = st.procs.length ∧ ∀ q ∈ st.procs, q.remainingTime = 0 := by
  have hne : input ≠ [] := by
    rintro rfl; simp at hlast
  have hlm : last ∈ input := List.mem_of_mem_getLast? (Option.mem_def.2 hlast)
  obtain ⟨st, hloop, hinv, hexit⟩ := pLoop_spec key input (maxTimeOf input last) hkey fuel
    { procs := input, currentTime := 0, completed := 0 }
    (PInv.p_init input hne hfresh hburst) (by simpa using hfuel)
  have hA : maxArrival input ≤ last.arrivalTime + 1000 :=
    maxArrival_le input _ (by have := harr last hlm; omega) hbound
  have h0 : ∀ q ∈ st.procs, 0 ≤ q.remainingTime := fun q hq => (hinv.records q hq).rem.1
  have hcl : finishedCount st.procs ≤ st.procs.length := List.countP_le_length _
  have hcomp : st.completed = st.procs.length := by
    by_contra hcon
    have hlt : st.completed < st.procs.length := by
      have := hinv.count; omega
    have ht : maxTimeOf input last ≤ st.currentTime := by
      by_contra h; exact hexit ⟨hlt, not_le.1 h⟩
    have hw := hinv.work
    unfold maxTimeOf at ht
    have := (finishedCount_eq_length st.procs h0 (by omega)).1
    have := hinv.count
    omega
  refine ⟨st, ?_, hinv, hcomp, ?_⟩
  · unfold preemptiveRun; rw [hlast]; exact hloop
  · intro q hq
    have hall : finishedCount st.procs = st.procs.length := by rw [← hinv.count, hcomp]
    unfold finishedCount at hall
    have := (List.countP_eq_length.1 hall) q hq
    simpa using this

/-- What a completed run of `srtf` or `priorityPreemptive` hands to
`displayResults`. -/
theorem PInv.p_final {input : List Process} {st : PState} (hinv : PInv input st)
    (hcomp : st.completed = st.procs.length) (hall : ∀ q ∈ st.procs, q.remainingTime = 0) :
    List.Forall₂ sameJob input st.procs ∧ (∀ q ∈ st.procs, completedMetrics q) ∧
      totalBurstTime st.procs ≤ maxCompletionTime st.procs := by
  refine ⟨forall₂_of_index hinv.len hinv.same,
    fun q hq => ((hinv.records q hq).done (hall q hq)).1, ?_⟩
  obtain ⟨q, hq, hle⟩ := hinv.last hcomp
  have hsum : remainingSum st.procs = 0 := by
    unfold remainingSum
    have : st.procs.map Process.remainingTime = st.procs.map (fun _ => (0 : Int)) :=
      List.map_congr_left hall
    rw [this]; simp
  have hb := hinv.busy
  rw [totalBurstTime_eq, hinv.p_burst_sum]
  have := le_maxCompletionTime hq
  omega

/-! ## The enqueue loops -/

theorem selectFrom_congr (c c1 : Nat → Process → Bool) :
    ∀ (rest : List Process) (i : Nat), (∀ j p, i ≤ j → c j p = c1 j p) →
      selectFrom c rest i = selectFrom c1 rest i
  | [], _, _ => rfl
  | p :: rest, i, h => by
    simp only [selectFrom, h i p (le_refl i),
      selectFrom_congr c c1 rest (i + 1) (fun j p hj => h j p (by omega))]

theorem markFrom_congr (c c1 : Nat → Process → Bool) :
    ∀ (rest : List Process) (i : Nat) (inQueue : List Bool),
      (∀ j p, i ≤ j → c j p = c1 j p) → markFrom c rest i inQueue = markFrom c1 rest i inQueue
  | [], _, _, _ => rfl
  | p :: rest, i, inQueue, h => by
    simp only [markFrom, h i p (le_refl i),
      markFrom_congr c c1 rest (i + 1) _ (fun j p hj => h j p (by omega))]

theorem getD_set_ne (l : List Bool) (i j : Nat) (v : Bool) (h : i ≠ j) :
    (l.set i v).getD j false = l.getD j false := by
  rw [List.getD_eq_getElem?_getD, List.getD_eq_getElem?_getD, List.getElem?_set_ne h]

theorem getD_set_self (l : List Bool) (i : Nat) (v : Bool) (h : i < l.length) :
    (l.set i v).getD i false = v := by
  rw [List.getD_eq_getElem?_getD, List.getElem?_set_self h]; rfl

/-- An enqueue loop whose test reads the flag of the visited index only pushes
the indices that pass the test on the flags it starts from. -/
theorem enqueueFrom_eq (cond : List Bool → Nat → Process → Bool)
    (hloc : ∀ (a b : List Bool) (i : Nat) (p : Process),
      a.getD i false = b.getD i false → cond a i p = cond b i p) :
    ∀ (rest : List Process) (i : Nat) (queue : List Nat) (inQueue : List Bool),
      enqueueFrom cond rest i queue inQueue =
        (queue ++ selectFrom (cond inQueue) rest i, markFrom (cond inQueue) rest i inQueue)
  | [], _, _, _ => by simp [enqueueFrom, selectFrom, markFrom]
  | p :: rest, i, queue, inQueue => by
    unfold enqueueFrom
    by_cases h : cond inQueue i p = true
    · rw [if_pos h, enqueueFrom_eq cond hloc rest (i + 1)]
      have hc : ∀ j p, i + 1 ≤ j → cond (inQueue.set i true) j p = cond inQueue j p :=
        fun j p hj => hloc _ _ j p (getD_set_ne _ _ _ _ (by omega))
      simp only [selectFrom, markFrom, if_pos h, List.append_assoc, List.singleton_append,
        selectFrom_congr _ _ rest (i + 1) hc, markFrom_congr _ _ rest (i + 1) _ hc]
    · rw [if_neg h, enqueueFrom_eq cond hloc rest (i + 1)]
      simp only [selectFrom, markFrom, if_neg h]

theorem mem_selectFrom (c : Nat → Process → Bool) :
    ∀ (rest : List Process) (i j : Nat),
      j ∈ selectFrom c rest i ↔ ∃ (k : Nat) (p : Process), rest[k]? = some p ∧ j = i + k ∧ c j p = true
  | [], i, j => by simp [selectFrom]
  | p :: rest, i, j => by
    have ih := mem_selectFrom c rest (i + 1) j
    constructor
    · intro h
      unfold selectFrom at h
      split_ifs at h with hc
      · rcases List.mem_cons.1 h with rfl | h
        · exact ⟨0, p, by simp, rfl, hc⟩
        · obtain ⟨k, q, hq, hj, hcq⟩ := ih.1 h
          exact ⟨k + 1, q, by simpa using hq, by omega, hcq⟩
      · obtain ⟨k, q, hq, hj, hcq⟩ := ih.1 h
        exact ⟨k + 1, q, by simpa using hq, by omega, hcq⟩
    · rintro ⟨k, q, hq, hj, hcq⟩
      unfold selectFrom
      cases k with
      | zero =>
        simp only [List.getElem?_cons_zero, Option.some.injEq] at hq
        subst hq
        have : j = i := by omega
        subst this
        rw [if_pos hcq]; exact List.mem_cons_self _ _
      | succ k =>
        simp only [List.getElem?_cons_succ] at hq
        have hm : j ∈ selectFrom c rest (i + 1) := ih.2 ⟨k, q, hq, by omega, hcq⟩
        split_ifs
        · exact List.mem_cons_of_mem _ hm
        · exact hm

theorem selectFrom_sorted (c : Nat → Process → Bool) :
    ∀ (rest : List Process) (i : Nat), (selectFrom c rest i).Pairwise (· < ·)
  | [], _ => by simp [selectFrom]
  | p :: rest, i => by
    unfold selectFrom
    split_ifs
    · refine List.pairwise_cons.2 ⟨fun j hj => ?_, selectFrom_sorted c rest (i + 1)⟩
      obtain ⟨k, _, _, hjk, _⟩ := (mem_selectFrom c rest (i + 1) j).1 hj
      omega
    · exact selectFrom_sorted c rest (i + 1)

theorem markFrom_length (c : Nat → Process → Bool) :
    ∀ (rest : List Process) (i : Nat) (inQueue : List Bool),
      (markFrom c rest i inQueue).length = inQueue.length
  | [], _, _ => rfl
  | p :: rest, i, inQueue => by
    unfold markFrom
    rw [markFrom_length c rest (i + 1)]
    split_ifs <;> simp

theorem markFrom_getD (c : Nat → Process → Bool) :
    ∀ (rest : List Process) (i : Nat) (inQueue : List Bool) (j : Nat),
      i + rest.length ≤ inQueue.length →
      ((markFrom c rest i inQueue).getD j false = true ↔
        inQueue.getD j false = true ∨ j ∈ selectFrom c rest i)
  | [], _, _, _, _ => by simp [markFrom, selectFrom]
  | p :: rest, i, inQueue, j, hlen => by
    simp only [List.length_cons] at hlen
    unfold markFrom selectFrom
    by_cases hc : c i p = true
    · rw [if_pos hc, if_pos hc, markFrom_getD c rest (i + 1) _ j (by simp; omega)]
      by_cases hij : i = j
      · subst hij
        rw [getD_set_self _ _ _ (by omega)]
        simp
      · rw [getD_set_ne _ _ _ _ hij]
        simp only [List.mem_cons]
        constructor
        · rintro (h | h)
          · exact Or.inl h
          · exact Or.inr (Or.inr h)
        · rintro (h | h | h)
          · exact Or.inl h
          · exact absurd h.symm hij
          · exact Or.inr h
    · rw [if_neg hc, if_neg hc, markFrom_getD c rest (i + 1) _ j (by omega)]

/-! ## One slice of roundRobin -/

/-- The effect of one slice on the state. -/
theorem slice_shape (quantum : Int) (st : RRState) (idx : Nat) (rest : List Nat) (q : Process)
    (hlen : st.procs.length = st.inQueue.length) :
    ∃ (r : Process) (new : List Nat) (mark : List Bool),
      (st.slice quantum idx rest q).procs = st.procs.set idx r ∧
      (st.slice quantum idx rest q).currentTime = st.currentTime + min quantum q.remainingTime ∧
      sameJob q r ∧ r.remainingTime = q.remainingTime - min quantum q.remainingTime ∧
      (r.started = true ∧ (q.started = true → r.responseTime = q.responseTime) ∧
        (q.started = false → r.responseTime = st.currentTime - q.arrivalTime)) ∧
      new.Pairwise (· < ·) ∧
      (∀ j, j ∈ new ↔ j ≠ idx ∧ ∃ p, st.procs[j]? = some p ∧
        p.arrivalTime ≤ st.currentTime + min quantum q.remainingTime ∧
        (st.inQueue.set idx false).getD j false = false ∧ 0 < p.remainingTime) ∧
      mark.length = st.inQueue.length ∧
      (∀ j, mark.getD j false = true ↔
        (st.inQueue.set idx false).getD j false = true ∨ j ∈ new) ∧
      (0 < r.remainingTime →
        (st.slice quantum idx rest q).readyQueue = rest ++ new ++ [idx] ∧
        (st.slice quantum idx rest q).inQueue = mark.set idx true ∧
        (st.slice quantum idx rest q).completed = st.completed ∧
        r.completionTime = q.completionTime ∧ r.turnaroundTime = q.turnaroundTime ∧
        r.waitingTime = q.waitingTime) ∧
      (¬ 0 < r.remainingTime →
        (st.slice quantum idx rest q).readyQueue = rest ++ new ∧
        (st.slice quantum idx rest q).inQueue = mark ∧
        (st.slice quantum idx rest q).completed = st.completed + 1 ∧
        r.completionTime = st.currentTime + min quantum q.remainingTime ∧
        r.turnaroundTime = r.completionTime - r.arrivalTime ∧
        r.waitingTime = r.turnaroundTime - r.burstTime) := by
  -- the enqueue loop of the slice, for any intermediate record `x` of `idx`
  have henq : ∀ (x : Process) (t1 : Int), ∃ (new : List Nat) (mark : List Bool),
      enqueueFrom (fun inQueue i p => decide (p.arrivalTime ≤ t1) && !(inQueue.getD i false)
          && decide (p.remainingTime > 0) && decide (i ≠ idx))
        (st.procs.set idx x) 0 rest (st.inQueue.set idx false) = (rest ++ new, mark) ∧
      new.Pairwise (· < ·) ∧
      (∀ j, j ∈ new ↔ j ≠ idx ∧ ∃ p, st.procs[j]? = some p ∧ p.arrivalTime ≤ t1 ∧
        (st.inQueue.set idx false).getD j false = false ∧ 0 < p.remainingTime) ∧
      mark.length = st.inQueue.length ∧
      (∀ j, mark.getD j false = true ↔
        (st.inQueue.set idx false).getD j false = true ∨ j ∈ new) := by
    intro x t1
    refine ⟨_, _, enqueueFrom_eq _ (fun a b i p h => by simp only [h]) _ 0 rest _,
      selectFrom_sorted _ _ _, fun j => ?_, ?_, fun j => ?_⟩
    · rw [mem_selectFrom]
      constructor
      · rintro ⟨k, p, hp, hj, hc⟩
        have hjk : j = k := by omega
        subst hjk
        simp only [Bool.and_eq_true, decide_eq_true_iff, Bool.not_eq_true'] at hc
        obtain ⟨⟨⟨h1, h2⟩, h3⟩, h4⟩ := hc
        rw [List.getElem?_set_ne (Ne.symm h4)] at hp
        exact ⟨h4, p, hp, h1, h2, h3⟩
      · rintro ⟨hne, p, hp, h1, h2, h3⟩
        refine ⟨j, p, ?_, by omega, ?_⟩
        · rw [List.getElem?_set_ne (Ne.symm hne)]; exact hp
        · simp only [Bool.and_eq_true, decide_eq_true_iff, Bool.not_eq_true']
          exact ⟨⟨⟨h1, h2⟩, h3⟩, hne⟩
    · rw [markFrom_length, List.length_set]
    · exact markFrom_getD _ _ 0 _ j (by simp [hlen])
  unfold RRState.slice
  cases hs : q.started <;>
    by_cases h0 : 0 < q.remainingTime - min quantum q.remainingTime
  all_goals
    first
    | (obtain ⟨new, mark, he, h1, h2, h3, h4⟩ := henq
        { q with responseTime := st.currentTime - q.arrivalTime, started := true,
                 remainingTime := q.remainingTime - min quantum q.remainingTime }
        (st.currentTime + min quantum q.remainingTime)
       rw [if_pos (by simpa using h0)]
       exact ⟨_, new, mark, rfl, rfl, ⟨rfl, rfl, rfl, rfl, rfl⟩, rfl,
         ⟨by first | rfl | exact hs, fun h => by first | rfl | exact absurd h (by simp),
           fun h => by first | rfl | exact absurd h (by simp)⟩, h1, h2, h3, h4,
         fun _ => ⟨congrArg (fun z => z.1 ++ [idx]) he,
           congrArg (fun z => z.2.set idx true) he, rfl, rfl, rfl, rfl⟩,
         fun h => absurd h0 h⟩)
    | (obtain ⟨new, mark, he, h1, h2, h3, h4⟩ := henq
        { q with remainingTime := q.remainingTime - min quantum q.remainingTime }
        (st.currentTime + min quantum q.remainingTime)
       rw [if_pos (by simpa using h0)]
       exact ⟨_, new, mark, rfl, rfl, ⟨rfl, rfl, rfl, rfl, rfl⟩, rfl,
         ⟨by first | rfl | exact hs, fun _ => rfl,
           fun h => by first | rfl | exact absurd h (by simp)⟩, h1, h2, h3, h4,
         fun _ => ⟨congrArg (fun z => z.1 ++ [idx]) he,
           congrArg (fun z => z.2.set idx true) he, rfl, rfl, rfl, rfl⟩,
         fun h => absurd h0 h⟩)
    | (obtain ⟨new, mark, he, h1, h2, h3, h4⟩ := henq
        { q with responseTime := st.currentTime - q.arrivalTime, started := true,
                 remainingTime := q.remainingTime - min quantum q.remainingTime }
        (st.currentTime + min quantum q.remainingTime)
       rw [if_neg (by simpa using h0)]
       exact ⟨_, new, mark, List.set_set _ _ _ _, rfl, ⟨rfl, rfl, rfl, rfl, rfl⟩, rfl,
         ⟨by first | rfl | exact hs, fun h => by first | rfl | exact absurd h (by simp),
           fun h => by first | rfl | exact absurd h (by simp)⟩,
         h1, h2, h3, h4, fun h => absurd h h0,
         fun _ => ⟨congrArg (fun z => z.1) he, congrArg (fun z => z.2) he,
           rfl, rfl, rfl, rfl⟩⟩)
    | (obtain ⟨new, mark, he, h1, h2, h3, h4⟩ := henq
        { q with remainingTime := q.remainingTime - min quantum q.remainingTime }
        (st.currentTime + min quantum q.remainingTime)
       rw [if_neg (by simpa using h0)]
       exact ⟨_, new, mark, List.set_set _ _ _ _, rfl, ⟨rfl, rfl, rfl, rfl, rfl⟩, rfl,
         ⟨by first | rfl | exact hs, fun _ => rfl,
           fun h => by first | rfl | exact absurd h (by simp)⟩,
         h1, h2, h3, h4, fun h => absurd h h0,
         fun _ => ⟨congrArg (fun z => z.1) he, congrArg (fun z => z.2) he,
           rfl, rfl, rfl, rfl⟩⟩)

theorem RRInv.rr_input_of {input : List Process} {st : RRState} (hinv : RRInv input st)
    {i : Nat} {q : Process} (hq : st.procs[i]? = some q) :
    ∃ p, p ∈ input ∧ sameJob p q := by
  have hi : i < input.length := by rw [← hinv.len]; exact (List.getElem?_eq_some.1 hq).1
  exact ⟨input[i], List.getElem_mem hi,
    hinv.same i _ q (List.getElem?_eq_getElem hi) hq⟩

theorem RRInv.rr_burst_sum {input : List Process} {st : RRState} (hinv : RRInv input st) :
    (st.procs.map Process.burstTime).sum = totalBurstTime input := by
  rw [totalBurstTime_eq]
  exact burst_sum_eq_of_sameJob (forall₂_of_index hinv.len hinv.same)

theorem RRInv.slice {input : List Process} {st : RRState} (hinv : RRInv input st)
    {quantum : Int} (hquantum : 1 ≤ quantum) {idx : Nat} {rest : List Nat} {q : Process}
    (hqueue : st.readyQueue = idx :: rest) (hq : st.procs[idx]? = some q)
    (hlt : st.completed < st.procs.length) :
    RRInv input (st.slice quantum idx rest q) ∧
      remainingSum (st.slice quantum idx rest q).procs < remainingSum st.procs ∧
      st.currentTime ≤ (st.slice quantum idx rest q).currentTime := by
  obtain ⟨r, new, mark, hprocs, htime, hsame, hrem, hst, hsorted, hnew, hmlen, hmark, hpos,
      hzero⟩ :=
    slice_shape quantum st idx rest q (by rw [hinv.len, hinv.lenQ])
  have hidx : idx < st.procs.length := (List.getElem?_eq_some.1 hq).1
  have hidxQ : idx < st.inQueue.length := by rw [hinv.lenQ, ← hinv.len]; exact hidx
  have hqm : q ∈ st.procs := mem_of_getElem?_eq hq
  obtain ⟨q', hq', harr, hqpos⟩ := hinv.queued idx (by rw [hqueue]; exact List.mem_cons_self _ _)
  rw [hq] at hq'; cases hq'
  have he1 : 1 ≤ min quantum q.remainingTime := le_min hquantum (by omega)
  have he2 : min quantum q.remainingTime ≤ q.remainingTime := min_le_right _ _
  have hnd := hinv.nodup
  rw [hqueue] at hnd
  obtain ⟨hidx_rest, hrest_nd⟩ := List.nodup_cons.1 hnd
  -- the flags after `inQueue[idx] = false`
  have hflag1 : ∀ j, (st.inQueue.set idx false).getD j false = true ↔ j ∈ rest := by
    intro j
    by_cases hj : idx = j
    · subst hj
      rw [getD_set_self _ _ _ hidxQ]
      simpa using hidx_rest
    · rw [getD_set_ne _ _ _ _ hj, hinv.flag j, hqueue, List.mem_cons]
      constructor
      · rintro (h | h)
        · exact absurd h.symm hj
        · exact h
      · exact Or.inr
  have hnew_nd : new.Nodup := hsorted.imp (fun h => ne_of_lt h)
  have hnew_rest : ∀ j ∈ new, j ∉ rest := by
    intro j hj hjr
    have := ((hnew j).1 hj).2.choose_spec.2.2.1
    rw [(hflag1 j).2 hjr] at this
    exact absurd this (by simp)
  have hnew_idx : idx ∉ new := fun h => ((hnew idx).1 h).1 rfl
  have hrec : RecordInv (st.currentTime + min quantum q.remainingTime) r :=
    (hinv.records q hqm).run harr (by omega) he2 hsame hrem hst
      (fun h => (hzero (by omega)).2.2.2)
      (fun h => by
        have := (hinv.records q hqm).rem
        exact (hpos (by omega)).2.2.2)
  have hsum : remainingSum (st.slice quantum idx rest q).procs =
      remainingSum st.procs - min quantum q.remainingTime := by
    rw [hprocs]; unfold remainingSum
    rw [sum_map_set _ _ _ _ _ hq, hrem]; ring
  have hcnt := countP_set_eq (fun q => decide (q.remainingTime = 0)) st.procs idx q r hq
  have hq0 : decide (q.remainingTime = 0) = false := by simp; omega
  simp only [hq0, Bool.false_eq_true, if_false, add_zero] at hcnt
  have hget : ∀ (i : Nat), i ≠ idx → (st.slice quantum idx rest q).procs[i]? = st.procs[i]? := by
    intro i hi
    rw [hprocs, List.getElem?_set_ne (Ne.symm hi)]
  have hgetidx : (st.slice quantum idx rest q).procs[idx]? = some r := by
    rw [hprocs, List.getElem?_set_self hidx]
  refine ⟨⟨?_, ?_, ?_, ?_, ?_, ?_, ?_, ?_, ?_, ?_, ?_, ?_⟩, by rw [hsum]; omega, by rw [htime]; omega⟩
  · rw [hprocs, List.length_set, hinv.len]
  · by_cases h0 : 0 < r.remainingTime
    · rw [(hpos h0).2.1, List.length_set, hmlen, hinv.lenQ]
    · rw [(hzero h0).2.1, hmlen, hinv.lenQ]
  · intro i p q1 hp hq1
    by_cases hi : i = idx
    · subst hi
      rw [hgetidx] at hq1; cases hq1
      obtain ⟨a1, a2, a3, a4, a5⟩ := hinv.same i p q hp hq
      obtain ⟨b1, b2, b3, b4, b5⟩ := hsame
      exact ⟨a1.trans b1, a2.trans b2, a3.trans b3, a4.trans b4, a5.trans b5⟩
    · rw [hget i hi] at hq1
      exact hinv.same i p q1 hp hq1
  · intro x hx
    rw [htime]
    rw [hprocs] at hx
    rcases mem_set_cases hx with rfl | hx
    · exact hrec
    · exact (hinv.records x hx).mono (by omega)
  · unfold finishedCount
    rw [hprocs, hcnt]
    by_cases h0 : 0 < r.remainingTime
    · have hne : ¬ r.remainingTime = 0 := by omega
      rw [(hpos h0).2.2.1, hinv.count]; simp [finishedCount, hne]
    · have heq : r.remainingTime = 0 := by
        have := (hinv.records q hqm).rem; omega
      rw [(hzero h0).2.2.1, hinv.count]; simp [finishedCount, heq]
  · rw [hsum, htime]; have := hinv.work; omega
  · rw [hsum, htime]; have := hinv.busy; omega
  · intro hall
    by_cases h0 : 0 < r.remainingTime
    · rw [(hpos h0).2.2.1, hprocs, List.length_set] at hall
      omega
    · exact ⟨r, mem_of_getElem?_eq hgetidx, by rw [htime, (hzero h0).2.2.2.1]⟩
  · by_cases h0 : 0 < r.remainingTime
    · rw [(hpos h0).1]
      refine List.nodup_append.2 ⟨List.nodup_append.2 ⟨hrest_nd, hnew_nd, ?_⟩, by simp, ?_⟩
      · intro j hj1 hj2; exact hnew_rest j hj2 hj1
      · intro j hj1 hj2
        rw [List.mem_singleton] at hj2; subst hj2
        rcases List.mem_append.1 hj1 with h | h
        · exact hidx_rest h
        · exact hnew_idx h
    · rw [(hzero h0).1]
      refine List.nodup_append.2 ⟨hrest_nd, hnew_nd, ?_⟩
      intro j hj1 hj2; exact hnew_rest j hj2 hj1
  · intro j
    by_cases h0 : 0 < r.remainingTime
    · rw [(hpos h0).1, (hpos h0).2.1]
      by_cases hj : idx = j
      · subst hj
        rw [getD_set_self _ _ _ (by rw [hmlen]; exact hidxQ)]
        simp
      · rw [getD_set_ne _ _ _ _ hj, hmark j, hflag1 j]
        simp only [List.mem_append, List.mem_singleton]
        constructor
        · intro h; exact Or.inl h
        · rintro (h | h)
          · exact h
          · exact absurd h.symm hj
    · rw [(hzero h0).1, (hzero h0).2.1, hmark j, hflag1 j, List.mem_append]
  · intro i hi
    have hmem : i ∈ rest ∨ i ∈ new ∨ (i = idx ∧ 0 < r.remainingTime) := by
      by_cases h0 : 0 < r.remainingTime
      · rw [(hpos h0).1] at hi
        simp only [List.mem_append, List.mem_singleton] at hi
        rcases hi with (h | h) | h
        · exact Or.inl h
        · exact Or.inr (Or.inl h)
        · exact Or.inr (Or.inr ⟨h, h0⟩)
      · rw [(hzero h0).1, List.mem_append] at hi
        rcases hi with h | h
        · exact Or.inl h
        · exact Or.inr (Or.inl h)
    rw [htime]
    rcases hmem with h | h | ⟨h, h0⟩
    · have hne : i ≠ idx := fun he => hidx_rest (he ▸ h)
      obtain ⟨x, hx, hxa, hxr⟩ := hinv.queued i (by rw [hqueue]; exact List.mem_cons_of_mem _ h)
      exact ⟨x, by rw [hget i hne]; exact hx, by omega, hxr⟩
    · obtain ⟨hne, x, hx, hxa, _, hxr⟩ := (hnew i).1 h
      exact ⟨x, by rw [hget i hne]; exact hx, hxa, hxr⟩
    · subst h
      exact ⟨r, hgetidx, by rw [← hsame.2.2.1]; omega, h0⟩
  · intro i x hx hxa hxr
    rw [htime] at hxa
    by_cases hi : i = idx
    · subst hi
      rw [hgetidx] at hx; cases hx
      rw [(hpos hxr).1]
      simp
    · rw [hget i hi] at hx
      have hin : i ∈ rest ∨ i ∈ new := by
        by_cases hf : (st.inQueue.set idx false).getD i false = true
        · exact Or.inl ((hflag1 i).1 hf)
        · exact Or.inr ((hnew i).2 ⟨hi, x, hx, hxa, by simpa using hf, hxr⟩)
      by_cases h0 : 0 < r.remainingTime
      · rw [(hpos h0).1]
        simp only [List.mem_append, List.mem_singleton]
        exact Or.inl hin
      · rw [(hzero h0).1, List.mem_append]
        exact hin

/-! ## The jump to the next arrival -/

theorem nextArrivalFrom_le (pending : Nat → Process → Bool) :
    ∀ (l : List Process) (i : Nat) (acc : Int),
      nextArrivalFrom pending l i acc ≤ acc ∧
        ∀ (j : Nat) (p : Process), l[j]? = some p → pending (i + j) p = true →
          nextArrivalFrom pending l i acc ≤ p.arrivalTime
  | [], _, _ => by simp [nextArrivalFrom]
  | p :: rest, i, acc => by
    unfold nextArrivalFrom
    obtain ⟨h1, h2⟩ := nextArrivalFrom_le pending rest (i + 1)
      (if pending i p then min acc p.arrivalTime else acc)
    have hacc : (if pending i p = true then min acc p.arrivalTime else acc) ≤ acc := by
      split_ifs
      · exact min_le_left _ _
      · exact le_refl _
    refine ⟨le_trans h1 hacc, fun j x hx hp => ?_⟩
    cases j with
    | zero =>
      simp only [List.getElem?_cons_zero, Option.some.injEq] at hx
      subst hx
      rw [Nat.add_zero] at hp
      rw [if_pos hp] at h1 ⊢
      exact le_trans h1 (min_le_right _ _)
    | succ j =>
      simp only [List.getElem?_cons_succ] at hx
      exact h2 j x hx (by rw [← hp]; congr 1; omega)

theorem remainingSum_nonneg (l : List Process) (h : ∀ q ∈ l, 0 ≤ q.remainingTime) :
    0 ≤ remainingSum l := by
  unfold remainingSum
  refine List.sum_nonneg ?_
  intro x hx
  obtain ⟨q, hq, rfl⟩ := List.mem_map.1 hx
  exact h q hq

/-- The jump to the next arrival, where the search for it found one. -/
theorem RRInv.jump_of_ne {input : List Process} {st : RRState} (hinv : RRInv input st)
    (hqueue : st.readyQueue = []) (hlt : st.completed < st.procs.length)
    (hne : nextArrivalFrom
      (fun _ p => decide (p.remainingTime > 0) && decide (p.arrivalTime > st.currentTime))
      st.procs 0 INT_MAX ≠ INT_MAX) :
    ∃ st1, st.jump = some st1 ∧ RRInv input st1 ∧ st1.procs = st.procs ∧
      st.currentTime < st1.currentTime ∧ st1.currentTime ≤ maxArrival input ∧
      st1.completed = st.completed ∧ st1.readyQueue.Pairwise (· < ·) ∧
      ∀ (i : Nat) (q : Process), st.procs[i]? = some q → 0 < q.remainingTime →
        st.currentTime < q.arrivalTime → st1.currentTime ≤ q.arrivalTime := by
  have hbounds : st.currentTime < nextArrivalFrom
      (fun _ p => decide (p.remainingTime > 0) && decide (p.arrivalTime > st.currentTime))
      st.procs 0 INT_MAX ∧ nextArrivalFrom
      (fun _ p => decide (p.remainingTime > 0) && decide (p.arrivalTime > st.currentTime))
      st.procs 0 INT_MAX ≤ maxArrival input := by
    rcases nextArrivalFrom_spec
      (fun _ p => decide (p.remainingTime > 0) && decide (p.arrivalTime > st.currentTime))
      st.procs 0 INT_MAX with h | ⟨j, p, hp, hpend, hr⟩
    · exact absurd h hne
    · simp only [Bool.and_eq_true, decide_eq_true_iff] at hpend
      obtain ⟨p1, hp1, hsame1⟩ := hinv.rr_input_of hp
      have := le_maxArrival hp1
      rw [hsame1.2.2.1] at this
      rw [hr]; exact ⟨hpend.2, this⟩
  have hmin : ∀ (i : Nat) (q : Process), st.procs[i]? = some q → 0 < q.remainingTime →
      st.currentTime < q.arrivalTime → nextArrivalFrom
      (fun _ p => decide (p.remainingTime > 0) && decide (p.arrivalTime > st.currentTime))
      st.procs 0 INT_MAX ≤ q.arrivalTime := by
    intro i q hi h1 h2
    exact (nextArrivalFrom_le _ st.procs 0 INT_MAX).2 i q hi (by simp; omega)
  generalize hr : nextArrivalFrom
      (fun _ p => decide (p.remainingTime > 0) && decide (p.arrivalTime > st.currentTime))
      st.procs 0 INT_MAX = r at hne hbounds hmin
  have hflag0 : ∀ j, st.inQueue.getD j false = false := by
    intro j
    have := hinv.flag j
    rw [hqueue] at this
    simpa using this
  have henq := enqueueFrom_eq
    (fun inQueue i p => decide (p.arrivalTime ≤ r) && !(inQueue.getD i false)
      && decide (p.remainingTime > 0))
    (fun a b i p h => by simp only [h]) st.procs 0 st.readyQueue st.inQueue
  have hnew : ∀ j, j ∈ selectFrom (fun i p => decide (p.arrivalTime ≤ r) &&
      !(st.inQueue.getD i false) && decide (p.remainingTime > 0)) st.procs 0 ↔
      ∃ p, st.procs[j]? = some p ∧ p.arrivalTime ≤ r ∧ 0 < p.remainingTime := by
    intro j
    rw [mem_selectFrom]
    constructor
    · rintro ⟨k, p, hp, hj, hc⟩
      have hjk : j = k := by omega
      subst hjk
      simp only [Bool.and_eq_true, decide_eq_true_iff, Bool.not_eq_true'] at hc
      exact ⟨p, hp, hc.1.1, hc.2⟩
    · rintro ⟨p, hp, h1, h2⟩
      refine ⟨j, p, hp, by omega, ?_⟩
      simp only [Bool.and_eq_true, decide_eq_true_iff, Bool.not_eq_true']
      exact ⟨⟨h1, hflag0 j⟩, h2⟩
  have hsum := remainingSum_le st.procs (fun x hx => (hinv.records x hx).rem.2)
  rw [hinv.rr_burst_sum] at hsum
  have hjump : st.jump = some { st with
      currentTime := r
      readyQueue := selectFrom (fun i p => decide (p.arrivalTime ≤ r) &&
        !(st.inQueue.getD i false) && decide (p.remainingTime > 0)) st.procs 0
      inQueue := markFrom (fun i p => decide (p.arrivalTime ≤ r) &&
        !(st.inQueue.getD i false) && decide (p.remainingTime > 0)) st.procs 0 st.inQueue } := by
    rw [hqueue, List.nil_append] at henq
    unfold RRState.jump
    simp only [hr, if_neg hne, hqueue, henq]
  refine ⟨_, hjump, ?_, rfl, hbounds.1, hbounds.2, rfl, selectFrom_sorted _ _ _, hmin⟩
  refine ⟨hinv.len, ?_, hinv.same, fun x hx => (hinv.records x hx).mono (le_of_lt hbounds.1),
    hinv.count, ?_, ?_, ?_, ?_, ?_, ?_, ?_⟩
  · simp only [markFrom_length]; exact hinv.lenQ
  · have := hinv.work; simp only; omega
  · have := hinv.busy; simp only; omega
  · intro hall; simp only at hall; omega
  · exact (selectFrom_sorted _ _ _).imp (fun h => ne_of_lt h)
  · intro j
    simp only
    rw [markFrom_getD _ _ 0 _ j (by simp [hinv.len, hinv.lenQ]), hflag0 j]
    simp
  · intro j hj
    obtain ⟨p, hp, h1, h2⟩ := (hnew j).1 hj
    exact ⟨p, hp, h1, h2⟩
  · intro j p hp h1 h2
    exact (hnew j).2 ⟨p, hp, h1, h2⟩

theorem RRInv.jump {input : List Process} {st : RRState} (hinv : RRInv input st)
    (hqueue : st.readyQueue = []) (hlt : st.completed < st.procs.length)
    (harrlt : ∀ p ∈ input, p.arrivalTime < INT_MAX) :
    ∃ st1, st.jump = some st1 ∧ RRInv input st1 ∧ st1.procs = st.procs ∧
      st.currentTime < st1.currentTime ∧ st1.currentTime ≤ maxArrival input ∧
      st1.completed = st.completed ∧ st1.readyQueue.Pairwise (· < ·) ∧
      ∀ (i : Nat) (q : Process), st.procs[i]? = some q → 0 < q.remainingTime →
        st.currentTime < q.arrivalTime → st1.currentTime ≤ q.arrivalTime := by
  -- an unfinished process exists; it is not queued, so it has not arrived
  obtain ⟨q, hq, hq0⟩ := exists_unfinished st.procs (by rw [← hinv.count]; exact hlt)
  obtain ⟨i, hi⟩ := List.mem_iff_getElem?.1 hq
  have hrq := (hinv.records q hq).rem
  have hqarr : st.currentTime < q.arrivalTime := by
    by_contra hcon
    have := hinv.arrived i q hi (not_lt.1 hcon) (by omega)
    rw [hqueue] at this; exact absurd this (by simp)
  obtain ⟨p0, hp0, hsame0⟩ := hinv.rr_input_of hi
  have hqlt : q.arrivalTime < INT_MAX := by rw [← hsame0.2.2.1]; exact harrlt p0 hp0
  have hle := (nextArrivalFrom_le
    (fun _ p => decide (p.remainingTime > 0) && decide (p.arrivalTime > st.currentTime))
    st.procs 0 INT_MAX).2 i q hi (by simp; omega)
  have hne : nextArrivalFrom
      (fun _ p => decide (p.remainingTime > 0) && decide (p.arrivalTime > st.currentTime))
      st.procs 0 INT_MAX ≠ INT_MAX := by omega
  exact hinv.jump_of_ne hqueue hlt hne

theorem RRInv.rr_init (input : List Process) (hne : input ≠ [])
    (hfresh : ∀ p ∈ input, p.fresh) (hburst : ∀ p ∈ input, 0 < p.burstTime) :
    RRInv input
      { procs := input
        readyQueue := (enqueueFrom (fun _ _ p => decide (p.arrivalTime ≤ 0)) input 0 []
          (List.replicate input.length false)).1
        inQueue := (enqueueFrom (fun _ _ p => decide (p.arrivalTime ≤ 0)) input 0 []
          (List.replicate input.length false)).2
        currentTime := 0, completed := 0 } := by
  have hP := PInv.p_init input hne hfresh hburst
  have henq := enqueueFrom_eq (fun _ _ p => decide (p.arrivalTime ≤ 0))
    (fun _ _ _ _ _ => rfl) input 0 [] (List.replicate input.length false)
  have hnew : ∀ j, j ∈ selectFrom (fun _ p => decide (p.arrivalTime ≤ 0)) input 0 ↔
      ∃ p, input[j]? = some p ∧ p.arrivalTime ≤ 0 := by
    intro j
    rw [mem_selectFrom]
    constructor
    · rintro ⟨k, p, hp, hj, hc⟩
      have hjk : j = k := by omega
      subst hjk
      exact ⟨p, hp, by simpa using hc⟩
    · rintro ⟨p, hp, h1⟩
      exact ⟨j, p, hp, by omega, by simpa using h1⟩
  rw [henq, List.nil_append]
  refine ⟨rfl, ?_, hP.same, hP.records, hP.count, hP.work, hP.busy, hP.last, ?_, ?_, ?_, ?_⟩
  · simp only [markFrom_length, List.length_replicate]
  · exact (selectFrom_sorted _ _ _).imp (fun h => ne_of_lt h)
  · intro j
    simp only
    rw [markFrom_getD _ _ 0 _ j (by simp)]
    have : (List.replicate input.length false).getD j false = false := by
      rw [List.getD_eq_getElem?_getD, List.getElem?_replicate]
      split_ifs <;> rfl
    rw [this]; simp
  · intro j hj
    obtain ⟨p, hp, h1⟩ := (hnew j).1 hj
    have := (fresh_fields (hfresh p (mem_of_getElem?_eq hp))).1
    have := hburst p (mem_of_getElem?_eq hp)
    exact ⟨p, hp, h1, by omega⟩
  · intro j p hp h1 _
    exact (hnew j).2 ⟨p, hp, h1⟩

/-- With fuel for its potential the loop of `roundRobin` ends at the loop test,
the invariant holding, together with any property `Q` of the state that the
jump and the slice keep. -/
theorem rrLoop_inv (quantum : Int) (hquantum : 1 ≤ quantum) (input : List Process)
    (maxTime : Int) (harrlt : ∀ p ∈ input, p.arrivalTime < INT_MAX) (Q : RRState → Prop)
    (hQjump : ∀ st st1, RRInv input st → Q st → st.readyQueue = [] →
      st.completed < st.procs.length → st1.procs = st.procs →
      st.currentTime < st1.currentTime → st1.completed = st.completed →
      st1.readyQueue.Pairwise (· < ·) →
      (∀ (i : Nat) (q : Process), st.procs[i]? = some q → 0 < q.remainingTime →
        st.currentTime < q.arrivalTime → st1.currentTime ≤ q.arrivalTime) → Q st1)
    (hQslice : ∀ st idx rest q, RRInv input st → Q st → st.readyQueue = idx :: rest →
      st.procs[idx]? = some q → st.completed < st.procs.length →
      Q (st.slice quantum idx rest q)) :
    ∀ (fuel : Nat) (st : RRState), RRInv input st → Q st → st.potential input ≤ fuel →
      ∃ st1, rrLoop quantum maxTime fuel st = .ok st1 ∧ RRInv input st1 ∧ Q st1 ∧
        ¬ (st1.completed < st1.procs.length ∧ st1.currentTime < maxTime) := by
  intro fuel
  induction fuel with
  | zero =>
    intro st hinv hQ hpot
    have h0 : ∀ q ∈ st.procs, 0 ≤ q.remainingTime := fun q hq => (hinv.records q hq).rem.1
    have hnot : ¬ (st.completed < st.procs.length ∧ st.currentTime < maxTime) := by
      rintro ⟨h, _⟩
      have := (finishedCount_eq_length st.procs h0 (by
        simp only [RRState.potential] at hpot; omega)).1
      have := hinv.count
      omega
    exact ⟨st, by simp only [rrLoop, if_neg hnot], hinv, hQ, hnot⟩
  | succ fuel ih =>
    intro st hinv hQ hpot
    by_cases hc : st.completed < st.procs.length ∧ st.currentTime < maxTime
    · cases hqueue : st.readyQueue with
      | nil =>
        obtain ⟨st1, hjump, hinv1, hprocs, ht1, ht2, hcomp, hsorted, hmin⟩ :=
          hinv.jump hqueue hc.1 harrlt
        obtain ⟨st2, hloop, hinv2, hQ2, hdone⟩ := ih st1 hinv1
          (hQjump st st1 hinv hQ hqueue hc.1 hprocs ht1 hcomp hsorted hmin) (by
            simp only [RRState.potential, hprocs] at hpot ⊢; omega)
        exact ⟨st2, by simp only [rrLoop, if_pos hc, hqueue, hjump, hloop], hinv2, hQ2, hdone⟩
      | cons idx rest =>
        obtain ⟨q, hq, _, _⟩ := hinv.queued idx (by rw [hqueue]; exact List.mem_cons_self _ _)
        obtain ⟨hinv1, hsum, htime⟩ := hinv.slice hquantum hqueue hq hc.1
        have h0 := remainingSum_nonneg _ (fun x hx => (hinv1.records x hx).rem.1)
        obtain ⟨st2, hloop, hinv2, hQ2, hdone⟩ := ih _ hinv1
          (hQslice st idx rest q hinv hQ hqueue hq hc.1) (by
            simp only [RRState.potential] at hpot ⊢; omega)
        exact ⟨st2, by simp only [rrLoop, if_pos hc, hqueue, hq, hloop], hinv2, hQ2, hdone⟩
    · exact ⟨st, by simp only [rrLoop, if_neg hc], hinv, hQ, hc⟩

/-- The loop of `roundRobin` completes every process when no process arrives
more than 1000 time units after the last-listed one, and keeps any property
`Q` of the state that holds at its start and that the jump and the slice keep. -/
theorem roundRobinRun_inv (quantum : Int) (hquantum : 1 ≤ quantum) (input : List Process)
    (last : Process) (hlast : input.getLast? = some last)
    (hfresh : ∀ p ∈ input, p.fresh) (harr : ∀ p ∈ input, 0 ≤ p.arrivalTime)
    (hburst : ∀ p ∈ input, 0 < p.burstTime)
    (harrlt : ∀ p ∈ input, p.arrivalTime < INT_MAX)
    (hbound : ∀ p ∈ input, p.arrivalTime ≤ last.arrivalTime + 1000)
    (Q : RRState → Prop)
    (hQinit : ∀ st, st.procs = input → st.currentTime = 0 → st.completed = 0 →
      st.readyQueue.Pairwise (· < ·) → Q st)
    (hQjump : ∀ st st1, RRInv input st → Q st → st.readyQueue = [] →
      st.completed < st.procs.length → st1.procs = st.procs →
      st.currentTime < st1.currentTime → st1.completed = st.completed →
      st1.readyQueue.Pairwise (· < ·) →
      (∀ (i : Nat) (q : Process), st.procs[i]? = some q → 0 < q.remainingTime →
        st.currentTime < q.arrivalTime → st1.currentTime ≤ q.arrivalTime) → Q st1)
    (hQslice : ∀ st idx rest q, RRInv input st → Q st → st.readyQueue = idx :: rest →
      st.procs[idx]? = some q → st.completed < st.procs.length →
      Q (st.slice quantum idx rest q))
    (fuel : Nat) (hfuel : (totalBurstTime input).toNat + (maxArrival input).toNat ≤ fuel) :
    ∃ st, roundRobinRun quantum fuel input = .ok st ∧ RRInv input st ∧ Q st ∧
      st.completed = st.procs.length ∧ ∀ q ∈ st.procs, q.remainingTime = 0 := by
  have hne : input ≠ [] := by
    rintro rfl; simp at hlast
  have hlm : last ∈ input := List.mem_of_mem_getLast? (Option.mem_def.2 hlast)
  have hinit := RRInv.rr_init input hne hfresh hburst
  have hsorted0 : (enqueueFrom (fun _ _ p => decide (p.arrivalTime ≤ 0)) input 0 []
      (List.replicate input.length false)).1.Pairwise (· < ·) := by
    rw [enqueueFrom_eq (fun _ _ p => decide (p.arrivalTime ≤ 0)) (fun _ _ _ _ _ => rfl),
      List.nil_append]
    exact selectFrom_sorted _ _ _
  obtain ⟨st, hloop, hinv, hQ, hexit⟩ := rrLoop_inv quantum hquantum input
    (maxTimeOf input last) harrlt Q hQjump hQslice fuel _ hinit
    (hQinit _ rfl rfl rfl hsorted0) (by
      have hrem : remainingSum input = totalBurstTime input := by
        rw [totalBurstTime_eq]; unfold remainingSum
        congr 1
        exact List.map_congr_left (fun p hp => (fresh_fields (hfresh p hp)).1)
      simp only [RRState.potential, hrem, sub_zero]; exact hfuel)
  have hA : maxArrival input ≤ last.arrivalTime + 1000 :=
    maxArrival_le input _ (by have := harr last hlm; omega) hbound
  have h0 : ∀ q ∈ st.procs, 0 ≤ q.remainingTime := fun q hq => (hinv.records q hq).rem.1
  have hcl : finishedCount st.procs ≤ st.procs.length := List.countP_le_length _
  have hcomp : st.completed = st.procs.length := by
    by_contra hcon
    have hlt : st.completed < st.procs.length := by
      have := hinv.count; omega
    have ht : maxTimeOf input last ≤ st.currentTime := by
      by_contra h; exact hexit ⟨hlt, not_le.1 h⟩
    have hw := hinv.work
    unfold maxTimeOf at ht
    have := (finishedCount_eq_length st.procs h0 (by omega)).1
    have := hinv.count
    omega
  refine ⟨st, ?_, hinv, hQ, hcomp, ?_⟩
  · unfold roundRobinRun; rw [hlast]; exact hloop
  · intro q hq
    have hall : finishedCount st.procs = st.procs.length := by rw [← hinv.count, hcomp]
    unfold finishedCount at hall
    have := (List.countP_eq_length.1 hall) q hq
    simpa using this

/-- The loop of `roundRobin` completes every process when no process arrives
more than 1000 time units after the last-listed one. -/
theorem roundRobinRun_spec (quantum : Int) (hquantum : 1 ≤ quantum) (input : List Process)
    (last : Process) (hlast : input.getLast? = some last)
    (hfresh : ∀ p ∈ input, p.fresh) (harr : ∀ p ∈ input, 0 ≤ p.arrivalTime)
    (hburst : ∀ p ∈ input, 0 < p.burstTime)
    (harrlt : ∀ p ∈ input, p.arrivalTime < INT_MAX)
    (hbound : ∀ p ∈ input, p.arrivalTime ≤ last.arrivalTime + 1000)
    (fuel : Nat) (hfuel : (totalBurstTime input).toNat + (maxArrival input).toNat ≤ fuel) :
    ∃ st, roundRobinRun quantum fuel input = .ok st ∧ RRInv input st ∧
      st.completed = st.procs.length ∧ ∀ q ∈ st.procs, q.remainingTime = 0 := by
  obtain ⟨st, h1, h2, _, h3, h4⟩ := roundRobinRun_inv quantum hquantum input last hlast hfresh
    harr hburst harrlt hbound (fun _ => True) (fun _ _ _ _ _ => trivial)
    (fun _ _ _ _ _ _ _ _ _ _ _ => trivial) (fun _ _ _ _ _ _ _ _ _ => trivial) fuel hfuel
  exact ⟨st, h1, h2, h3, h4⟩

/-- What a completed run of `roundRobin` hands to `displayResults`. -/
theorem RRInv.rr_final {input : List Process} {st : RRState} (hinv : RRInv input st)
    (hcomp : st.completed = st.procs.length) (hall : ∀ q ∈ st.procs, q.remainingTime = 0) :
    List.Forall₂ sameJob input st.procs ∧ (∀ q ∈ st.procs, completedMetrics q) ∧
      totalBurstTime st.procs ≤ maxCompletionTime st.procs := by
  refine ⟨forall₂_of_index hinv.len hinv.same,
    fun q hq => ((hinv.records q hq).done (hall q hq)).1, ?_⟩
  obtain ⟨q, hq, hle⟩ := hinv.last hcomp
  have hsum : remainingSum st.procs = 0 := by
    unfold remainingSum
    have : st.procs.map Process.remainingTime = st.procs.map (fun _ => (0 : Int)) :=
      List.map_congr_left hall
    rw [this]; simp
  have hb := hinv.busy
  rw [totalBurstTime_eq, hinv.rr_burst_sum]
  have := le_maxCompletionTime hq
  omega

/-! ## roundRobin with a quantum no slice exceeds -/

theorem refClock_succ (input : List Process) (k : Nat) (p : Process)
    (h : input[k]? = some p) :
    refClock input (k + 1) = max (refClock input k) p.arrivalTime + p.burstTime := by
  rw [refClock, h]

theorem fifo_init (input : List Process) (st : RRState) (hprocs : st.procs = input)
    (htime : st.currentTime = 0) (hcomp : st.completed = 0)
    (hsorted : st.readyQueue.Pairwise (· < ·)) : FifoInv input st := by
  refine ⟨hsorted, ?_, ?_, ?_, ?_⟩
  · intro i q hi; rw [hcomp] at hi; exact absurd hi (Nat.not_lt_zero i)
  · intro i _; rw [hprocs]
  · rw [hcomp, htime]; exact le_refl _
  · intro p _; rw [hcomp, htime]; exact le_max_left _ _

theorem fifo_next {input : List Process} {st : RRState}
    (hfresh : ∀ p ∈ input, p.fresh) (hburst : ∀ p ∈ input, 0 < p.burstTime)
    (hinv : RRInv input st) (hfifo : FifoInv input st)
    (hlt : st.completed < st.procs.length) :
    ∃ p, input[st.completed]? = some p ∧ st.procs[st.completed]? = some p ∧ p.fresh ∧
      0 < p.remainingTime ∧ p.remainingTime = p.burstTime := by
  have hk : st.completed < input.length := by rw [← hinv.len]; exact hlt
  have hp : input[st.completed]? = some input[st.completed] := List.getElem?_eq_getElem hk
  have hm : input[st.completed] ∈ input := List.getElem_mem hk
  have hf := hfresh _ hm
  have hr := (fresh_fields hf).1
  have hb := hburst _ hm
  exact ⟨_, hp, by rw [hfifo.todo _ (le_refl _)]; exact hp, hf, by omega, hr⟩

theorem fifo_jump {input : List Process} (hfresh : ∀ p ∈ input, p.fresh)
    (hburst : ∀ p ∈ input, 0 < p.burstTime) (st st1 : RRState)
    (hinv : RRInv input st) (hfifo : FifoInv input st) (hqueue : st.readyQueue = [])
    (hlt : st.completed < st.procs.length) (hprocs : st1.procs = st.procs)
    (htime : st.currentTime < st1.currentTime) (hcomp : st1.completed = st.completed)
    (hsorted : st1.readyQueue.Pairwise (· < ·))
    (hmin : ∀ (i : Nat) (q : Process), st.procs[i]? = some q → 0 < q.remainingTime →
      st.currentTime < q.arrivalTime → st1.currentTime ≤ q.arrivalTime) :
    FifoInv input st1 := by
  obtain ⟨p, hp, hpk, _, hpos, _⟩ := fifo_next hfresh hburst hinv hfifo hlt
  have hlate : st.currentTime < p.arrivalTime := by
    by_contra hcon
    have := hinv.arrived _ p hpk (not_lt.1 hcon) hpos
    rw [hqueue] at this; exact absurd this (by simp)
  refine ⟨hsorted, ?_, ?_, ?_, ?_⟩
  · intro i q hi hq
    rw [hcomp] at hi; rw [hprocs] at hq
    exact hfifo.done i q hi hq
  · intro i hi
    rw [hcomp] at hi; rw [hprocs]
    exact hfifo.todo i hi
  · rw [hcomp]; have := hfifo.clockLo; omega
  · intro p1 hp1
    rw [hcomp] at hp1 ⊢
    rw [hp] at hp1; cases hp1
    exact le_trans (hmin _ p hpk hpos hlate) (le_max_right _ _)

theorem fifo_slice {input : List Process} (hfresh : ∀ p ∈ input, p.fresh)
    (hburst : ∀ p ∈ input, 0 < p.burstTime)
    (hord : input.Pairwise (fun a b => a.arrivalTime ≤ b.arrivalTime))
    (quantum : Int) (hquantum : ∀ p ∈ input, p.burstTime ≤ quantum)
    (st : RRState) (idx : Nat) (rest : List Nat) (q : Process)
    (hinv : RRInv input st) (hfifo : FifoInv input st) (hqueue : st.readyQueue = idx :: rest)
    (hq : st.procs[idx]? = some q) (hlt : st.completed < st.procs.length) :
    FifoInv input (st.slice quantum idx rest q) := by
  obtain ⟨p, hp, hpk, hpf, hpos, hprem⟩ := fifo_next hfresh hburst hinv hfifo hlt
  have hpm : p ∈ input := mem_of_getElem?_eq hp
  obtain ⟨q1, hq1, hqarr, hqpos⟩ := hinv.queued idx (by rw [hqueue]; exact List.mem_cons_self _ _)
  rw [hq] at hq1; cases hq1
  -- arrival times of the records are those of the workload, in list order
  have harrival : ∀ (i j : Nat) (x y : Process), st.procs[i]? = some x → st.procs[j]? = some y →
      i < j → x.arrivalTime ≤ y.arrivalTime := by
    intro i j x y hx hy hij
    have hi : i < input.length := by rw [← hinv.len]; exact (List.getElem?_eq_some.1 hx).1
    have hj : j < input.length := by rw [← hinv.len]; exact (List.getElem?_eq_some.1 hy).1
    have h1 := hinv.same i _ x (List.getElem?_eq_getElem hi) hx
    have h2 := hinv.same j _ y (List.getElem?_eq_getElem hj) hy
    have := List.pairwise_iff_getElem.1 hord i j hi hj hij
    rw [← h1.2.2.1, ← h2.2.2.1]; exact this
  -- the head of the queue is the next process in list order
  have hle : st.completed ≤ idx := by
    by_contra hcon
    have := (hfifo.done idx q (not_le.1 hcon) hq).1
    omega
  have hkarr : p.arrivalTime ≤ st.currentTime := by
    rcases Nat.lt_or_eq_of_le hle with h | h
    · exact le_trans (harrival _ _ p q hpk hq h) hqarr
    · rw [← h, hpk] at hq; cases hq; exact hqarr
  have hkq : st.completed ∈ idx :: rest := by
    rw [← hqueue]; exact hinv.arrived _ p hpk hkarr hpos
  have hsorted := hfifo.sorted
  rw [hqueue] at hsorted
  have hidx : idx = st.completed := by
    rcases List.mem_cons.1 hkq with h | h
    · exact h.symm
    · have := (List.pairwise_cons.1 hsorted).1 _ h
      omega
  subst hidx
  rw [hpk] at hq; cases hq
  -- the slice runs the whole burst
  obtain ⟨r, new, mark, hprocs, htime, hsame, hrem, hst, hnsorted, hnew, _, _, _, hzero⟩ :=
    slice_shape quantum st st.completed rest q (by rw [hinv.len, hinv.lenQ])
  have hmin : min quantum q.remainingTime = q.burstTime := by
    rw [hprem]; exact min_eq_right (hquantum q hpm)
  rw [hmin] at htime hrem hnew hzero
  have hr0 : ¬ 0 < r.remainingTime := by omega
  obtain ⟨hq', _, hc', hC, _, _⟩ := hzero hr0
  have hstart : st.currentTime = max (refClock input st.completed) q.arrivalTime := by
    have h1 := hfifo.clockLo
    have h2 := hfifo.clockHi q hp
    exact le_antisymm h2 (max_le h1 hkarr)
  have hclock : refClock input (st.completed + 1) = st.currentTime + q.burstTime := by
    rw [refClock_succ input _ q hp, hstart]
  have hk : st.completed < st.procs.length := hlt
  have hget : ∀ (i : Nat), i ≠ st.completed →
      (st.slice quantum st.completed rest q).procs[i]? = st.procs[i]? := by
    intro i hi
    rw [hprocs, List.getElem?_set_ne (Ne.symm hi)]
  refine ⟨?_, ?_, ?_, ?_, ?_⟩
  · rw [hq']
    refine List.pairwise_append.2 ⟨(List.pairwise_cons.1 hsorted).2, hnsorted, ?_⟩
    intro a ha b hb
    obtain ⟨qa, hqa, hqaarr, _⟩ := hinv.queued a (by
      rw [hqueue]; exact List.mem_cons_of_mem _ ha)
    obtain ⟨hbne, pb, hpb, _, hbflag, hpbpos⟩ := (hnew b).1 hb
    have hbq : b ∉ st.readyQueue := by
      intro hin
      have := (hinv.flag b).2 hin
      rw [getD_set_ne _ _ _ _ (Ne.symm hbne), this] at hbflag
      exact absurd hbflag (by simp)
    have hblate : st.currentTime < pb.arrivalTime := by
      by_contra hcon
      exact hbq (hinv.arrived b pb hpb (not_lt.1 hcon) hpbpos)
    by_contra hcon
    rcases Nat.lt_or_eq_of_le (not_lt.1 hcon) with h | h
    · have := harrival b a pb qa hpb hqa h
      omega
    · subst h
      exact hbq (by rw [hqueue]; exact List.mem_cons_of_mem _ ha)
  · intro i x hi hx
    rw [hc'] at hi
    rcases Nat.lt_or_eq_of_le (Nat.lt_succ_iff.1 hi) with h | h
    · rw [hget i (by omega)] at hx
      exact hfifo.done i x h hx
    · subst h
      rw [hprocs, List.getElem?_set_self hk] at hx
      cases hx
      refine ⟨by omega, by rw [hC, hclock], ?_⟩
      rw [hst.2.2 (fresh_fields hpf).2.2.2.2.2, ← hsame.2.2.1, hstart]
  · intro i hi
    rw [hc'] at hi
    rw [hget i (by omega)]
    exact hfifo.todo i (by omega)
  · rw [hc', htime, hclock]
  · intro p1 _
    rw [hc', htime, hclock]
    exact le_max_left _ _

/-! ## Domination of remaining times -/

theorem fuelBound_np (procs : List Process) {fuel : Nat} (h : fuelBound procs ≤ fuel) :
    procs.length + (maxArrival procs).toNat ≤ fuel := by
  unfold fuelBound at h; omega

theorem fuelBound_p (procs : List Process) (last : Process) (hl : last ∈ procs) {fuel : Nat}
    (h : fuelBound procs ≤ fuel) : (maxTimeOf procs last).toNat ≤ fuel := by
  have h1 := le_maxArrival hl
  have h2 := maxArrival_nonneg procs
  unfold fuelBound at h; unfold maxTimeOf; omega

theorem fuelBound_rr (procs : List Process) {fuel : Nat} (h : fuelBound procs ≤ fuel) :
    (totalBurstTime procs).toNat + (maxArrival procs).toNat ≤ fuel := by
  unfold fuelBound at h; omega

theorem sameJob_burst (p q : Process) (h : sameJob p q) : p.burstTime = q.burstTime :=
  h.2.2.2.1

theorem sameJob_priority (p q : Process) (h : sameJob p q) : p.priority = q.priority :=
  h.2.2.2.2

theorem sjf_spec (procs : List Process) (hne : procs ≠ [])
    (hburst : ∀ p ∈ procs, 0 < p.burstTime) (hsent : ∀ p ∈ procs, p.burstTime < INT_MAX)
    (fuel : Nat) (hfuel : fuelBound procs ≤ fuel) :
    ∃ out, sjf fuel procs = .ok out ∧ List.Forall₂ sameJob procs out ∧
      (∀ q ∈ out, nonPreemptiveMetrics q) ∧
      (∀ (i j : Nat) p q, i ≠ j → out[i]? = some p → out[j]? = some q → disjointSlots p q) ∧
      totalBurstTime out ≤ maxCompletionTime out :=
  nonPreemptive_spec Process.burstTime procs hne sameJob_burst hsent
    (fun p hp => le_of_lt (hburst p hp)) fuel (fuelBound_np procs hfuel)

theorem priorityNonPreemptive_spec (procs : List Process) (hne : procs ≠ [])
    (hburst : ∀ p ∈ procs, 0 < p.burstTime) (hsent : ∀ p ∈ procs, p.priority < INT_MAX)
    (fuel : Nat) (hfuel : fuelBound procs ≤ fuel) :
    ∃ out, priorityNonPreemptive fuel procs = .ok out ∧ List.Forall₂ sameJob procs out ∧
      (∀ q ∈ out, nonPreemptiveMetrics q) ∧
      (∀ (i j : Nat) p q, i ≠ j → out[i]? = some p → out[j]? = some q → disjointSlots p q) ∧
      totalBurstTime out ≤ maxCompletionTime out :=
  nonPreemptive_spec Process.priority procs hne sameJob_priority hsent
    (fun p hp => le_of_lt (hburst p hp)) fuel (fuelBound_np procs hfuel)

theorem metrics_noOverlap {out : List Process} (hm : ∀ q ∈ out, nonPreemptiveMetrics q)
    (hs : ∀ (i j : Nat) p q, i ≠ j → out[i]? = some p → out[j]? = some q → disjointSlots p q) :
    noOverlap out :=
  ⟨fun p hp => by have := (hm p hp).1.1; omega, hs⟩

theorem fcfs_noOverlap (procs : List Process) (hburst : ∀ p ∈ procs, 0 < p.burstTime) :
    noOverlap (fcfs procs) := by
  have hb : ∀ p ∈ sortByArrival procs, 0 ≤ p.burstTime := fun p hp =>
    le_of_lt (hburst p ((sortByArrival_perm procs).subset hp))
  obtain ⟨h1, h2⟩ := fcfsRun_slots 0 (sortByArrival procs) hb
  refine ⟨fun p hp => (h1 p hp).2, ?_⟩
  intro i j p q hij hp hq
  obtain ⟨hi, rfl⟩ := List.getElem?_eq_some.1 hp
  obtain ⟨hj, rfl⟩ := List.getElem?_eq_some.1 hq
  rcases Nat.lt_or_gt_of_ne hij with h | h
  · exact Or.inl (List.pairwise_iff_getElem.1 h2 i j hi hj h)
  · exact Or.inr (List.pairwise_iff_getElem.1 h2 j i hj hi h)

theorem sortByArrival_ne_nil {procs : List Process} (hne : procs ≠ []) :
    sortByArrival procs ≠ [] := by
  intro h
  have := (sortByArrival_perm procs).length_eq
  rw [h] at this
  exact hne (List.length_eq_zero.1 this.symm)

theorem fcfs_busy (procs : List Process) (hne : procs ≠ []) :
    totalBurstTime (fcfs procs) ≤ maxCompletionTime (fcfs procs) := by
  obtain ⟨r, hr, hle⟩ := fcfsRun_busy 0 (sortByArrival procs) (sortByArrival_ne_nil hne)
  rw [totalBurstTime_eq]
  unfold fcfs
  rw [fcfsRun_burst]
  have := le_maxCompletionTime hr
  unfold fcfs at *
  omega

theorem totalBurstTime_pos {procs out : List Process} (hne : procs ≠ [])
    (hburst : ∀ p ∈ procs, 0 < p.burstTime) (hsame : List.Forall₂ sameJob procs out) :
    0 < totalBurstTime out := by
  rw [totalBurstTime_eq, burst_sum_eq_of_sameJob hsame]
  cases procs with
  | nil => exact absurd rfl hne
  | cons p t =>
    have hp := hburst p (List.mem_cons_self _ _)
    have ht : 0 ≤ (t.map Process.burstTime).sum := List.sum_nonneg (by
      intro x hx
      obtain ⟨q, hq, rfl⟩ := List.mem_map.1 hx
      exact le_of_lt (hburst q (List.mem_cons_of_mem _ hq)))
    simp only [List.map_cons, List.sum_cons]; omega

/-! ## Claims on fcfs -/

/-- C9: `fcfs` is invariant to input order. For a workload with distinct ids,
`fcfs` on any permutation of the list returns the same list, so every process
gets the same completion, turnaround, waiting and response time. -/
theorem fcfs_permutation_invariant (procs perm : List Process)
    (hid : (procs.map Process.id).Nodup) (hperm : perm.Perm procs) :
    fcfs perm = fcfs procs := by
  have h := sortByArrival_unique procs (sortByArrival perm) hid
    ((sortByArrival_perm perm).trans hperm) (sortByArrival_sorted perm)
  unfold fcfs; rw [h]

/-- C9 at the sample workload and its reversal. -/
theorem fcfs_permutation_invariant_witness :
    ((sampleData.map Process.id).Nodup ∧ sampleData.reverse.Perm sampleData) ∧
      fcfs sampleData.reverse = fcfs sampleData :=
  ⟨⟨by decide, List.reverse_perm _⟩,
    fcfs_permutation_invariant sampleData sampleData.reverse (by decide) (List.reverse_perm _)⟩

/-! ## Claims on the non-preemptive routines -/

/-- C1, as stated, fails: the workload `sentinelBurst` (one process, arrival 0,
burst time `INT_MAX`) meets arrivalTime >= 0 and burstTime > 0, its latest
arrival plus burst times fits an `int`, and `sjf` produces no result on it with
any fuel: the scan finds the burst time equal to its initial minimum and reads
`procs[-1]`. -/
theorem sjf_sentinel_burst_no_result :
    (sentinelBurst ≠ [] ∧ (∀ p ∈ sentinelBurst, 0 ≤ p.arrivalTime ∧ 0 < p.burstTime) ∧
        maxArrival sentinelBurst + totalBurstTime sentinelBurst ≤ INT_MAX) ∧
      ¬ ∃ fuel out, sjf fuel sentinelBurst = .ok out := by
  refine ⟨by decide, ?_⟩
  rintro ⟨fuel, out, h⟩
  cases fuel with
  | zero =>
    have h0 : sjf 0 sentinelBurst = .error .fuelExhausted := rfl
    rw [h0] at h; cases h
  | succ n =>
    have h1 : sjf (n + 1) sentinelBurst = .error .outOfBounds := rfl
    rw [h1] at h; cases h

/-- C4, as stated, fails: the workload `sentinelSecond` (arrivals 0, burst
times 1 and `INT_MAX`) meets arrivalTime >= 0 and burstTime > 0, and `sjf`
produces no output on it with any fuel: after the first process has run, at
clock 1, the scan finds the second burst time equal to its initial minimum and
reads `procs[-1]`. Likewise the workload `sentinelPriority` (one process,
arrival 0, burst time 1, priority `INT_MAX`) meets arrivalTime >= 0 and
burstTime > 0, its latest arrival plus burst times fits an `int`, and
`priorityNonPreemptive` produces no output on it with any fuel. -/
theorem sjf_sentinel_second_no_result :
    ((sentinelSecond ≠ [] ∧ ∀ p ∈ sentinelSecond, 0 ≤ p.arrivalTime ∧ 0 < p.burstTime) ∧
      ¬ ∃ fuel out, sjf fuel sentinelSecond = .ok out) ∧
    ((sentinelPriority ≠ [] ∧
        (∀ p ∈ sentinelPriority, 0 ≤ p.arrivalTime ∧ 0 < p.burstTime) ∧
        maxArrival sentinelPriority + totalBurstTime sentinelPriority ≤ INT_MAX) ∧
      ¬ ∃ fuel out, priorityNonPreemptive fuel sentinelPriority = .ok out) := by
  refine ⟨⟨by decide, ?_⟩, by decide, ?_⟩
  · rintro ⟨fuel, out, h⟩
    rcases fuel with _ | _ | n
    · have h0 : sjf 0 sentinelSecond = .error .fuelExhausted := rfl
      rw [h0] at h; cases h
    · have h1 : sjf 1 sentinelSecond = .error .fuelExhausted := rfl
      rw [h1] at h; cases h
    · have h2 : sjf (n + 1 + 1) sentinelSecond = .error .outOfBounds := rfl
      rw [h2] at h; cases h
  · rintro ⟨fuel, out, h⟩
    cases fuel with
    | zero =>
      have h0 : priorityNonPreemptive 0 sentinelPriority = .error .fuelExhausted := rfl
      rw [h0] at h; cases h
    | succ n =>
      have h1 : priorityNonPreemptive (n + 1) sentinelPriority = .error .outOfBounds := rfl
      rw [h1] at h; cases h

/-- C10, as stated, fails: on the sample workload no run of `sjf` yields the
completion times 5, 8, 14, 22 for P1, P2, P3, P4 in id order. -/
theorem sjf_sample_not_in_id_order :
    ¬ ∃ fuel out, sjf fuel sampleData = .ok out ∧
      out.map (fun p => (p.id, p.completionTime)) = [(1, 5), (2, 8), (3, 14), (4, 22)] := by
  rintro ⟨fuel, out, h, hm⟩
  rcases fuel with _ | _ | _ | _ | _ | n
  · have h0 : sjf 0 sampleData = .error .fuelExhausted := rfl
    rw [h0] at h; cases h
  · have h0 : sjf 1 sampleData = .error .fuelExhausted := rfl
    rw [h0] at h; cases h
  · have h0 : sjf 2 sampleData = .error .fuelExhausted := rfl
    rw [h0] at h; cases h
  · have h0 : sjf 3 sampleData = .error .fuelExhausted := rfl
    rw [h0] at h; cases h
  · have h0 : (sjf 4 sampleData).map (fun out => out.map (fun p => (p.id, p.completionTime))) =
        .ok [(1, 5), (2, 8), (3, 22), (4, 14)] := rfl
    rw [h] at h0
    simp only [Except.map, hm] at h0
    exact absurd h0 (by decide)
  · have h0 : (sjf (n + 1 + 1 + 1 + 1 + 1) sampleData).map
        (fun out => out.map (fun p => (p.id, p.completionTime))) =
        .ok [(1, 5), (2, 8), (3, 22), (4, 14)] := rfl
    rw [h] at h0
    simp only [Except.map, hm] at h0
    exact absurd h0 (by decide)

/-- C10, amended: on the sample workload `sjf`, with any fuel from 4 on, runs
P1 first (the slots start at 0, 5, 14, 8 for P1, P2, P3, P4) and yields the
completion times 5, 8, 22, 14 for P1, P2, P3, P4 in id order; 5, 8, 14, 22 are
these times in the order P1, P2, P4, P3 in which the processes run. -/
theorem sjf_sample_completions (fuel : Nat) (hfuel : 4 ≤ fuel) :
    ∃ out, sjf fuel sampleData = .ok out ∧
      out.map (fun p => (p.id, p.completionTime)) = [(1, 5), (2, 8), (3, 22), (4, 14)] ∧
      out.map (fun p => p.completionTime - p.burstTime) = [0, 5, 14, 8] := by
  obtain ⟨n, rfl⟩ : ∃ n, fuel = n + 4 := ⟨fuel - 4, by omega⟩
  cases n with
  | zero => exact ⟨_, rfl, rfl, rfl⟩
  | succ n => exact ⟨_, rfl, rfl, rfl⟩

/-- C10, amended, with fuel 4. -/
theorem sjf_sample_completions_witness :
    4 ≤ 4 ∧ ∃ out, sjf 4 sampleData = .ok out ∧
      out.map (fun p => (p.id, p.completionTime)) = [(1, 5), (2, 8), (3, 22), (4, 14)] ∧
      out.map (fun p => p.completionTime - p.burstTime) = [0, 5, 14, 8] :=
  ⟨le_refl 4, sjf_sample_completions 4 (le_refl 4)⟩

/-! ## Claims on the preemptive routines and round robin -/

/-- More fuel does not change the result of the loop of `srtf` and
`priorityPreemptive`. -/
theorem pLoop_mono (key : Process → Int) (maxTime : Int) :
    ∀ (fuel : Nat) (st r : PState), pLoop key maxTime fuel st = .ok r →
      ∀ k, pLoop key maxTime (fuel + k) st = .ok r := by
  intro fuel
  induction fuel with
  | zero =>
    intro st r h k
    by_cases hc : st.completed < st.procs.length ∧ st.currentTime < maxTime
    · simp only [pLoop, if_pos hc] at h; cases h
    · simp only [pLoop, if_neg hc] at h
      cases k <;> simp only [Nat.zero_add, pLoop, if_neg hc, h]
  | succ fuel ih =>
    intro st r h k
    have hk : fuel + 1 + k = (fuel + k) + 1 := by omega
    rw [hk]
    by_cases hc : st.completed < st.procs.length ∧ st.currentTime < maxTime
    · simp only [pLoop, if_pos hc] at h ⊢
      cases hs : pStep key st with
      | error e => rw [hs] at h; cases h
      | ok st1 =>
        rw [hs] at h
        exact ih st1 r h k
    · simp only [pLoop, if_neg hc] at h ⊢
      exact h

theorem srtf_mono (fuel : Nat) (procs out : List Process) (h : srtf fuel procs = .ok out)
    (k : Nat) : srtf (fuel + k) procs = .ok out := by
  unfold srtf srtfRun preemptiveRun at h ⊢
  cases hl : procs.getLast? with
  | none => rw [hl] at h; exact h
  | some last =>
    rw [hl] at h
    simp only at h ⊢
    cases hp : pLoop Process.remainingTime (maxTimeOf procs last) fuel
        { procs := procs, currentTime := 0, completed := 0 } with
    | error e => rw [hp] at h; cases h
    | ok st =>
      rw [hp] at h
      rw [pLoop_mono _ _ fuel _ st hp k]
      exact h

/-- C2, as stated, fails: the workload `lateArrival` (P1 arriving at 2000, then
P2 arriving at 0, burst times 1, priorities 0) meets the run-input contract,
and no run of `srtf`, and none of `roundRobin` with quantum 1, gives every
process completionTime >= arrivalTime + burstTime: the safety bound, computed
from the arrival of the last-listed process, is 1002, and P1 is left with
completion time 0. -/
theorem late_arrival_left_incomplete :
    (lateArrival ≠ [] ∧ ∀ p ∈ lateArrival,
      0 ≤ p.arrivalTime ∧ 0 < p.burstTime ∧ 0 ≤ p.priority ∧ p.priority ≤ 99) ∧
    (¬ ∃ fuel out, srtf fuel lateArrival = .ok out ∧
      ∀ p ∈ out, p.arrivalTime + p.burstTime ≤ p.completionTime) ∧
    (¬ ∃ fuel out, roundRobin 1 fuel lateArrival = .ok out ∧
      ∀ p ∈ out, p.arrivalTime + p.burstTime ≤ p.completionTime) := by
  refine ⟨by decide, ?_, ?_⟩
  · rintro ⟨fuel, out, h, hp⟩
    have h1 := srtf_mono fuel lateArrival out h 1002
    have h2 : srtf 1002 lateArrival = .ok
        [{ Process.create 1 "P1" 2000 1 0 with },
         { Process.create 2 "P2" 0 1 0 with
             remainingTime := 0, completionTime := 1, turnaroundTime := 1, waitingTime := 0,
             responseTime := 0, started := true }] := by
      set_option maxRecDepth 100000 in rfl
    have h3 := srtf_mono 1002 lateArrival _ h2 fuel
    rw [Nat.add_comm] at h3
    rw [h3] at h1
    injection h1 with h1
    subst h1
    exact absurd (hp _ (List.mem_cons_self _ _)) (by decide)
  · rintro ⟨fuel, out, h, hp⟩
    have hbad : ∀ out1, Except.ok out1 = Except.ok (ε := Fault)
        [{ Process.create 1 "P1" 2000 1 0 with },
         { Process.create 2 "P2" 0 1 0 with
             remainingTime := 0, completionTime := 1, turnaroundTime := 1, waitingTime := 0,
             responseTime := 0, started := true }] →
        ¬ ∀ p ∈ out1, p.arrivalTime + p.burstTime ≤ p.completionTime := by
      intro out1 he hall
      injection he with he
      subst he
      exact absurd (hall _ (List.mem_cons_self _ _)) (by decide)
    rcases fuel with _ | _ | _ | _ | n
    · have h0 : roundRobin 1 0 lateArrival = .error .fuelExhausted := rfl
      rw [h0] at h; cases h
    · have h0 : roundRobin 1 1 lateArrival = .error .fuelExhausted := rfl
      rw [h0] at h; cases h
    · exact hbad out (h.symm.trans rfl) hp
    · exact hbad out (h.symm.trans rfl) hp
    · exact hbad out (h.symm.trans rfl) hp

theorem srtfRun_complete (procs : List Process) (last : Process)
    (hlast : procs.getLast? = some last) (hfresh : ∀ p ∈ procs, p.fresh)
    (harr : ∀ p ∈ procs, 0 ≤ p.arrivalTime) (hburst : ∀ p ∈ procs, 0 < p.burstTime)
    (hsent : ∀ p ∈ procs, p.burstTime < INT_MAX)
    (hbound : ∀ p ∈ procs, p.arrivalTime ≤ last.arrivalTime + 1000)
    (fuel : Nat) (hfuel : fuelBound procs ≤ fuel) :
    ∃ st, srtfRun fuel procs = .ok st ∧ PInv procs st ∧
      st.completed = st.procs.length ∧ ∀ q ∈ st.procs, q.remainingTime = 0 := by
  refine preemptiveRun_spec Process.remainingTime procs last hlast hfresh harr hburst ?_ hbound
    fuel (fuelBound_p procs last (List.mem_of_mem_getLast? (Option.mem_def.2 hlast)) hfuel)
  intro st hinv q hq
  obtain ⟨i, hi⟩ := List.mem_iff_getElem?.1 hq
  obtain ⟨p0, hp0, hsame⟩ := hinv.p_input_of hi
  have h1 := (hinv.records q hq).rem.2
  have h2 := hsent p0 hp0
  rw [hsame.2.2.2.1] at h2
  omega

theorem priorityPreemptiveRun_complete (procs : List Process) (last : Process)
    (hlast : procs.getLast? = some last) (hfresh : ∀ p ∈ procs, p.fresh)
    (harr : ∀ p ∈ procs, 0 ≤ p.arrivalTime) (hburst : ∀ p ∈ procs, 0 < p.burstTime)
    (hsent : ∀ p ∈ procs, p.priority < INT_MAX)
    (hbound : ∀ p ∈ procs, p.arrivalTime ≤ last.arrivalTime + 1000)
    (fuel : Nat) (hfuel : fuelBound procs ≤ fuel) :
    ∃ st, priorityPreemptiveRun fuel procs = .ok st ∧ PInv procs st ∧
      st.completed = st.procs.length ∧ ∀ q ∈ st.procs, q.remainingTime = 0 := by
  refine preemptiveRun_spec Process.priority procs last hlast hfresh harr hburst ?_ hbound
    fuel (fuelBound_p procs last (List.mem_of_mem_getLast? (Option.mem_def.2 hlast)) hfuel)
  intro st hinv q hq
  obtain ⟨i, hi⟩ := List.mem_iff_getElem?.1 hq
  obtain ⟨p0, hp0, hsame⟩ := hinv.p_input_of hi
  have h2 := hsent p0 hp0
  rw [hsame.2.2.2.2] at h2
  exact h2

theorem le_totalBurstTime (procs : List Process) (hb : ∀ p ∈ procs, 0 ≤ p.burstTime)
    {p : Process} (hp : p ∈ procs) : p.burstTime ≤ totalBurstTime procs := by
  rw [totalBurstTime_eq]
  refine List.single_le_sum ?_ _ (List.mem_map_of_mem _ hp)
  intro x hx
  obtain ⟨q, hq, rfl⟩ := List.mem_map.1 hx
  exact hb q hq

/-- A safety bound that fits an `int` keeps every arrival and burst time below
`INT_MAX`. -/
theorem below_sentinel_of_fit (procs : List Process) (last : Process)
    (hlast : procs.getLast? = some last)
    (harr : ∀ p ∈ procs, 0 ≤ p.arrivalTime) (hburst : ∀ p ∈ procs, 0 < p.burstTime)
    (hfit : maxTimeOf procs last ≤ INT_MAX)
    (hbound : ∀ p ∈ procs, p.arrivalTime ≤ last.arrivalTime + 1000) :
    ∀ p ∈ procs, p.arrivalTime < INT_MAX ∧ p.burstTime < INT_MAX := by
  intro p hp
  have h1 := le_totalBurstTime procs (fun q hq => le_of_lt (hburst q hq)) hp
  have h2 := hburst p hp
  have h3 := hbound p hp
  have h4 := harr last (List.mem_of_mem_getLast? (Option.mem_def.2 hlast))
  unfold maxTimeOf at hfit
  constructor <;> omega

/-- C2, amended: for every non-empty workload of fresh records meeting the
run-input contract (arrivalTime >= 0, burstTime > 0, priority in 0..99), whose
safety bound fits an `int`, and in which no process arrives more than 1000
time units after the last-listed one (as when every arrival time is at most
1000), and every quantum >= 1: `srtf`, `priorityPreemptive` and `roundRobin`,
with any fuel from `fuelBound` on, return the jobs of the workload, each with
completionTime >= arrivalTime + burstTime and waitingTime = turnaroundTime -
burstTime >= 0. -/
theorem preemptive_metrics (procs : List Process) (last : Process)
    (hlast : procs.getLast? = some last) (hfresh : ∀ p ∈ procs, p.fresh)
    (hrange : ∀ p ∈ procs,
      0 ≤ p.arrivalTime ∧ 0 < p.burstTime ∧ 0 ≤ p.priority ∧ p.priority ≤ 99)
    (hfit : maxTimeOf procs last ≤ INT_MAX)
    (hbound : ∀ p ∈ procs, p.arrivalTime ≤ last.arrivalTime + 1000)
    (quantum : Int) (hquantum : 1 ≤ quantum) (fuel : Nat) (hfuel : fuelBound procs ≤ fuel) :
    (∃ out, srtf fuel procs = .ok out ∧ List.Forall₂ sameJob procs out ∧
      ∀ q ∈ out, completedMetrics q) ∧
    (∃ out, priorityPreemptive fuel procs = .ok out ∧ List.Forall₂ sameJob procs out ∧
      ∀ q ∈ out, completedMetrics q) ∧
    (∃ out, roundRobin quantum fuel procs = .ok out ∧ List.Forall₂ sameJob procs out ∧
      ∀ q ∈ out, completedMetrics q) := by
  have harr : ∀ p ∈ procs, 0 ≤ p.arrivalTime := fun p hp => (hrange p hp).1
  have hburst : ∀ p ∈ procs, 0 < p.burstTime := fun p hp => (hrange p hp).2.1
  have hsent := below_sentinel_of_fit procs last hlast harr hburst hfit hbound
  refine ⟨?_, ?_, ?_⟩
  · obtain ⟨st, hrun, hinv, hcomp, hall⟩ := srtfRun_complete procs last hlast hfresh harr hburst
      (fun p hp => (hsent p hp).2) hbound fuel hfuel
    obtain ⟨h1, h2, _⟩ := hinv.p_final hcomp hall
    exact ⟨st.procs, by unfold srtf; rw [hrun]; rfl, h1, h2⟩
  · obtain ⟨st, hrun, hinv, hcomp, hall⟩ := priorityPreemptiveRun_complete procs last hlast
      hfresh harr hburst (fun p hp => by
        have := (hrange p hp).2.2.2
        unfold INT_MAX; omega) hbound fuel hfuel
    obtain ⟨h1, h2, _⟩ := hinv.p_final hcomp hall
    exact ⟨st.procs, by unfold priorityPreemptive; rw [hrun]; rfl, h1, h2⟩
  · obtain ⟨st, hrun, hinv, hcomp, hall⟩ := roundRobinRun_spec quantum hquantum procs last
      hlast hfresh harr hburst (fun p hp => (hsent p hp).1) hbound fuel
      (fuelBound_rr procs hfuel)
    obtain ⟨h1, h2, _⟩ := hinv.rr_final hcomp hall
    exact ⟨st.procs, by unfold roundRobin; rw [hrun]; rfl, h1, h2⟩

/-- C2, amended, at the sample workload with quantum 2 and fuel 1029. -/
theorem preemptive_metrics_witness :
    (sampleData.getLast? = some (Process.create 4 "P4" 3 6 2) ∧
      (∀ p ∈ sampleData, p.fresh) ∧
      (∀ p ∈ sampleData,
        0 ≤ p.arrivalTime ∧ 0 < p.burstTime ∧ 0 ≤ p.priority ∧ p.priority ≤ 99) ∧
      maxTimeOf sampleData (Process.create 4 "P4" 3 6 2) ≤ INT_MAX ∧
      (∀ p ∈ sampleData, p.arrivalTime ≤ (Process.create 4 "P4" 3 6 2).arrivalTime + 1000) ∧
      (1 : Int) ≤ 2 ∧ fuelBound sampleData ≤ 1029) ∧
    ((∃ out, srtf 1029 sampleData = .ok out ∧ List.Forall₂ sameJob sampleData out ∧
      ∀ q ∈ out, completedMetrics q) ∧
    (∃ out, priorityPreemptive 1029 sampleData = .ok out ∧
      List.Forall₂ sameJob sampleData out ∧ ∀ q ∈ out, completedMetrics q) ∧
    (∃ out, roundRobin 2 1029 sampleData = .ok out ∧ List.Forall₂ sameJob sampleData out ∧
      ∀ q ∈ out, completedMetrics q)) :=
  ⟨⟨by decide, by decide, by decide, by decide, by decide, by decide, by decide⟩,
    preemptive_metrics sampleData (Process.create 4 "P4" 3 6 2) (by decide) (by decide)
      (by decide) (by decide) (by decide) 2 (by decide) 1029 (by decide)⟩

/-- The workloads the input boundary accepts: fresh records with the ranges
`addProcess` enforces. -/
theorem boundary_facts (procs : List Process) (hne : procs ≠ [])
    (hrange : ∀ p ∈ procs, 0 ≤ p.arrivalTime ∧ p.arrivalTime ≤ 1000 ∧ 1 ≤ p.burstTime ∧
      p.burstTime ≤ 100 ∧ 0 ≤ p.priority ∧ p.priority ≤ 99) :
    ∃ last, procs.getLast? = some last ∧ (∀ p ∈ procs, 0 ≤ p.arrivalTime) ∧
      (∀ p ∈ procs, 0 < p.burstTime) ∧ (∀ p ∈ procs, p.burstTime < INT_MAX) ∧
      (∀ p ∈ procs, p.priority < INT_MAX) ∧ (∀ p ∈ procs, p.arrivalTime < INT_MAX) ∧
      ∀ p ∈ procs, p.arrivalTime ≤ last.arrivalTime + 1000 := by
  refine ⟨procs.getLast hne, List.getLast?_eq_getLast _ hne, ?_, ?_, ?_, ?_, ?_, ?_⟩
  · intro p hp; exact (hrange p hp).1
  · intro p hp; have := (hrange p hp).2.2.1; omega
  · intro p hp; have := (hrange p hp).2.2.2.1; unfold INT_MAX; omega
  · intro p hp; have := (hrange p hp).2.2.2.2.2; unfold INT_MAX; omega
  · intro p hp; have := (hrange p hp).2.1; unfold INT_MAX; omega
  · intro p hp
    have h1 := (hrange p hp).2.1
    have h2 := (hrange _ (List.getLast_mem hne)).1
    omega

/-- C5: CPU utilization never exceeds 100%. For every non-empty workload of
fresh records in the ranges the input boundary accepts (arrivalTime 0..1000,
burstTime 1..100, priority 0..99) and every quantum 1..100, each of the six
routines, with any fuel from `fuelBound` on, returns the jobs of the workload
with sum of burstTime <= maximum completionTime and a maximum completionTime
above 0. -/
theorem utilization_at_most_full (procs : List Process) (hne : procs ≠ [])
    (hfresh : ∀ p ∈ procs, p.fresh)
    (hrange : ∀ p ∈ procs, 0 ≤ p.arrivalTime ∧ p.arrivalTime ≤ 1000 ∧ 1 ≤ p.burstTime ∧
      p.burstTime ≤ 100 ∧ 0 ≤ p.priority ∧ p.priority ≤ 99)
    (quantum : Int) (hquantum : 1 ≤ quantum ∧ quantum ≤ 100)
    (fuel : Nat) (hfuel : fuelBound procs ≤ fuel) :
    (List.Forall₂ sameJob (sortByArrival procs) (fcfs procs) ∧
      0 < maxCompletionTime (fcfs procs) ∧
      totalBurstTime (fcfs procs) ≤ maxCompletionTime (fcfs procs)) ∧
    (∃ out, sjf fuel procs = .ok out ∧ List.Forall₂ sameJob procs out ∧
      0 < maxCompletionTime out ∧ totalBurstTime out ≤ maxCompletionTime out) ∧
    (∃ out, srtf fuel procs = .ok out ∧ List.Forall₂ sameJob procs out ∧
      0 < maxCompletionTime out ∧ totalBurstTime out ≤ maxCompletionTime out) ∧
    (∃ out, priorityNonPreemptive fuel procs = .ok out ∧ List.Forall₂ sameJob procs out ∧
      0 < maxCompletionTime out ∧ totalBurstTime out ≤ maxCompletionTime out) ∧
    (∃ out, priorityPreemptive fuel procs = .ok out ∧ List.Forall₂ sameJob procs out ∧
      0 < maxCompletionTime out ∧ totalBurstTime out ≤ maxCompletionTime out) ∧
    (∃ out, roundRobin quantum fuel procs = .ok out ∧ List.Forall₂ sameJob procs out ∧
      0 < maxCompletionTime out ∧ totalBurstTime out ≤ maxCompletionTime out) := by
  obtain ⟨last, hlast, harr, hburst, hsb, hsp, hsa, hbound⟩ := boundary_facts procs hne hrange
  have hpos : ∀ out, List.Forall₂ sameJob procs out →
      totalBurstTime out ≤ maxCompletionTime out → 0 < maxCompletionTime out :=
    fun out hs hle => lt_of_lt_of_le (totalBurstTime_pos hne hburst hs) hle
  refine ⟨?_, ?_, ?_, ?_, ?_, ?_⟩
  · have hs := fcfsRun_sameJob 0 (sortByArrival procs)
    have hle := fcfs_busy procs hne
    refine ⟨hs, lt_of_lt_of_le (totalBurstTime_pos (sortByArrival_ne_nil hne)
      (fun p hp => hburst p ((sortByArrival_perm procs).subset hp)) hs) hle, hle⟩
  · obtain ⟨out, h1, h2, _, _, h5⟩ := sjf_spec procs hne hburst hsb fuel hfuel
    exact ⟨out, h1, h2, hpos out h2 h5, h5⟩
  · obtain ⟨st, hrun, hinv, hcomp, hall⟩ := srtfRun_complete procs last hlast hfresh harr hburst
      hsb hbound fuel hfuel
    obtain ⟨h1, _, h3⟩ := hinv.p_final hcomp hall
    exact ⟨st.procs, by unfold srtf; rw [hrun]; rfl, h1, hpos _ h1 h3, h3⟩
  · obtain ⟨out, h1, h2, _, _, h5⟩ := priorityNonPreemptive_spec procs hne hburst hsp fuel hfuel
    exact ⟨out, h1, h2, hpos out h2 h5, h5⟩
  · obtain ⟨st, hrun, hinv, hcomp, hall⟩ := priorityPreemptiveRun_complete procs last hlast
      hfresh harr hburst hsp hbound fuel hfuel
    obtain ⟨h1, _, h3⟩ := hinv.p_final hcomp hall
    exact ⟨st.procs, by unfold priorityPreemptive; rw [hrun]; rfl, h1, hpos _ h1 h3, h3⟩
  · obtain ⟨st, hrun, hinv, hcomp, hall⟩ := roundRobinRun_spec quantum hquantum.1 procs last
      hlast hfresh harr hburst hsa hbound fuel (fuelBound_rr procs hfuel)
    obtain ⟨h1, _, h3⟩ := hinv.rr_final hcomp hall
    exact ⟨st.procs, by unfold roundRobin; rw [hrun]; rfl, h1, hpos _ h1 h3, h3⟩

/-- C5 at the sample workload with quantum 2 and fuel 1029. -/
theorem utilization_at_most_full_witness :
    (sampleData ≠ [] ∧ (∀ p ∈ sampleData, p.fresh) ∧
      (∀ p ∈ sampleData, 0 ≤ p.arrivalTime ∧ p.arrivalTime ≤ 1000 ∧ 1 ≤ p.burstTime ∧
        p.burstTime ≤ 100 ∧ 0 ≤ p.priority ∧ p.priority ≤ 99) ∧
      ((1 : Int) ≤ 2 ∧ (2 : Int) ≤ 100) ∧ fuelBound sampleData ≤ 1029) ∧
    ((List.Forall₂ sameJob (sortByArrival sampleData) (fcfs sampleData) ∧
      0 < maxCompletionTime (fcfs sampleData) ∧
      totalBurstTime (fcfs sampleData) ≤ maxCompletionTime (fcfs sampleData)) ∧
    (∃ out, sjf 1029 sampleData = .ok out ∧ List.Forall₂ sameJob sampleData out ∧
      0 < maxCompletionTime out ∧ totalBurstTime out ≤ maxCompletionTime out) ∧
    (∃ out, srtf 1029 sampleData = .ok out ∧ List.Forall₂ sameJob sampleData out ∧
      0 < maxCompletionTime out ∧ totalBurstTime out ≤ maxCompletionTime out) ∧
    (∃ out, priorityNonPreemptive 1029 sampleData = .ok out ∧
      List.Forall₂ sameJob sampleData out ∧
      0 < maxCompletionTime out ∧ totalBurstTime out ≤ maxCompletionTime out) ∧
    (∃ out, priorityPreemptive 1029 sampleData = .ok out ∧
      List.Forall₂ sameJob sampleData out ∧
      0 < maxCompletionTime out ∧ totalBurstTime out ≤ maxCompletionTime out) ∧
    (∃ out, roundRobin 2 1029 sampleData = .ok out ∧ List.Forall₂ sameJob sampleData out ∧
      0 < maxCompletionTime out ∧ totalBurstTime out ≤ maxCompletionTime out)) :=
  ⟨⟨by decide, by decide, by decide, by decide, by decide⟩,
    utilization_at_most_full sampleData (by decide) (by decide) (by decide) 2 (by decide)
      1029 (by decide)⟩

/-- What a record of a completed process carries. -/
theorem RecordInv.populated {t : Int} {q : Process} (h : RecordInv t q)
    (hb : 0 < q.burstTime) (h0 : q.remainingTime = 0) :
    completedMetrics q ∧ q.started = true ∧ 0 ≤ q.responseTime :=
  ⟨(h.done h0).1, h.started (by omega), (h.resp (h.started (by omega))).1⟩

/-- C6: the safety bound is never hit on boundary-validated input. For every
non-empty workload of fresh records in the ranges `addProcess` accepts
(arrivalTime 0..1000, burstTime 1..100, priority 0..99), in any list order,
and every quantum 1..100, the loops of `srtf`, `priorityPreemptive` and
`roundRobin`, with any fuel from `fuelBound` on, end with `completed = n` (the
test `completed < n` of the warning is false) and with every process at
remainingTime = 0, its completion, turnaround and waiting time derived, and
its response time recorded (started, responseTime >= 0). -/
theorem safety_bound_not_hit (procs : List Process) (hne : procs ≠ [])
    (hfresh : ∀ p ∈ procs, p.fresh)
    (hrange : ∀ p ∈ procs, 0 ≤ p.arrivalTime ∧ p.arrivalTime ≤ 1000 ∧ 1 ≤ p.burstTime ∧
      p.burstTime ≤ 100 ∧ 0 ≤ p.priority ∧ p.priority ≤ 99)
    (quantum : Int) (hquantum : 1 ≤ quantum ∧ quantum ≤ 100)
    (fuel : Nat) (hfuel : fuelBound procs ≤ fuel) :
    (∃ st, srtfRun fuel procs = .ok st ∧ List.Forall₂ sameJob procs st.procs ∧
      ¬ st.completed < st.procs.length ∧ st.completed = procs.length ∧
      ∀ q ∈ st.procs, q.remainingTime = 0 ∧ completedMetrics q ∧
        q.started = true ∧ 0 ≤ q.responseTime) ∧
    (∃ st, priorityPreemptiveRun fuel procs = .ok st ∧ List.Forall₂ sameJob procs st.procs ∧
      ¬ st.completed < st.procs.length ∧ st.completed = procs.length ∧
      ∀ q ∈ st.procs, q.remainingTime = 0 ∧ completedMetrics q ∧
        q.started = true ∧ 0 ≤ q.responseTime) ∧
    (∃ st, roundRobinRun quantum fuel procs = .ok st ∧ List.Forall₂ sameJob procs st.procs ∧
      ¬ st.completed < st.procs.length ∧ st.completed = procs.length ∧
      ∀ q ∈ st.procs, q.remainingTime = 0 ∧ completedMetrics q ∧
        q.started = true ∧ 0 ≤ q.responseTime) := by
  obtain ⟨last, hlast, harr, hburst, hsb, hsp, hsa, hbound⟩ := boundary_facts procs hne hrange
  refine ⟨?_, ?_, ?_⟩
  · obtain ⟨st, hrun, hinv, hcomp, hall⟩ := srtfRun_complete procs last hlast hfresh harr hburst
      hsb hbound fuel hfuel
    refine ⟨st, hrun, (hinv.p_final hcomp hall).1, by omega, by rw [hcomp, hinv.len],
      fun q hq => ⟨hall q hq, (hinv.records q hq).populated ?_ (hall q hq)⟩⟩
    obtain ⟨i, hi⟩ := List.mem_iff_getElem?.1 hq
    obtain ⟨p0, hp0, hsame⟩ := hinv.p_input_of hi
    rw [← hsame.2.2.2.1]; exact hburst p0 hp0
  · obtain ⟨st, hrun, hinv, hcomp, hall⟩ := priorityPreemptiveRun_complete procs last hlast
      hfresh harr hburst hsp hbound fuel hfuel
    refine ⟨st, hrun, (hinv.p_final hcomp hall).1, by omega, by rw [hcomp, hinv.len],
      fun q hq => ⟨hall q hq, (hinv.records q hq).populated ?_ (hall q hq)⟩⟩
    obtain ⟨i, hi⟩ := List.mem_iff_getElem?.1 hq
    obtain ⟨p0, hp0, hsame⟩ := hinv.p_input_of hi
    rw [← hsame.2.2.2.1]; exact hburst p0 hp0
  · obtain ⟨st, hrun, hinv, hcomp, hall⟩ := roundRobinRun_spec quantum hquantum.1 procs last
      hlast hfresh harr hburst hsa hbound fuel (fuelBound_rr procs hfuel)
    refine ⟨st, hrun, (hinv.rr_final hcomp hall).1, by omega, by rw [hcomp, hinv.len],
      fun q hq => ⟨hall q hq, (hinv.records q hq).populated ?_ (hall q hq)⟩⟩
    obtain ⟨i, hi⟩ := List.mem_iff_getElem?.1 hq
    obtain ⟨p0, hp0, hsame⟩ := hinv.rr_input_of hi
    rw [← hsame.2.2.2.1]; exact hburst p0 hp0

/-- C6 at the sample workload with quantum 2 and fuel 1029. -/
theorem safety_bound_not_hit_witness :
    (sampleData ≠ [] ∧ (∀ p ∈ sampleData, p.fresh) ∧
      (∀ p ∈ sampleData, 0 ≤ p.arrivalTime ∧ p.arrivalTime ≤ 1000 ∧ 1 ≤ p.burstTime ∧
        p.burstTime ≤ 100 ∧ 0 ≤ p.priority ∧ p.priority ≤ 99) ∧
      ((1 : Int) ≤ 2 ∧ (2 : Int) ≤ 100) ∧ fuelBound sampleData ≤ 1029) ∧
    ((∃ st, srtfRun 1029 sampleData = .ok st ∧ List.Forall₂ sameJob sampleData st.procs ∧
      ¬ st.completed < st.procs.length ∧ st.completed = sampleData.length ∧
      ∀ q ∈ st.procs, q.remainingTime = 0 ∧ completedMetrics q ∧
        q.started = true ∧ 0 ≤ q.responseTime) ∧
    (∃ st, priorityPreemptiveRun 1029 sampleData = .ok st ∧
      List.Forall₂ sameJob sampleData st.procs ∧
      ¬ st.completed < st.procs.length ∧ st.completed = sampleData.length ∧
      ∀ q ∈ st.procs, q.remainingTime = 0 ∧ completedMetrics q ∧
        q.started = true ∧ 0 ≤ q.responseTime) ∧
    (∃ st, roundRobinRun 2 1029 sampleData = .ok st ∧
      List.Forall₂ sameJob sampleData st.procs ∧
      ¬ st.completed < st.procs.length ∧ st.completed = sampleData.length ∧
      ∀ q ∈ st.procs, q.remainingTime = 0 ∧ completedMetrics q ∧
        q.started = true ∧ 0 ≤ q.responseTime)) :=
  ⟨⟨by decide, by decide, by decide, by decide, by decide⟩,
    safety_bound_not_hit sampleData (by decide) (by decide) (by decide) 2 (by decide)
      1029 (by decide)⟩

/-! ## Round robin against FCFS -/

theorem le_last_of_pairwise {α : Type} {R : α → α → Prop} {l : List α} {last : α}
    (hp : l.Pairwise R) (hlast : l.getLast? = some last) :
    ∀ x ∈ l, x = last ∨ R x last := by
  intro x hx
  obtain ⟨i, hi, rfl⟩ := List.getElem_of_mem hx
  rw [List.getLast?_eq_getElem?] at hlast
  obtain ⟨hn, hl⟩ := List.getElem?_eq_some.1 hlast
  rcases Nat.lt_or_eq_of_le (Nat.le_sub_one_of_lt hi) with h | h
  · right
    rw [← hl]
    exact List.pairwise_iff_getElem.1 hp i (l.length - 1) hi hn h
  · left
    rw [← hl]
    congr 1

/-- C8: round robin with a quantum at least as large as every burst time
equals FCFS. For every non-empty workload of fresh records listed in
non-decreasing arrival order with ascending ids (arrivalTime >= 0, burstTime >
0), whose safety bound fits an `int`, and every quantum >= max burstTime,
`roundRobin` with any fuel from `fuelBound` on returns, position by position,
the jobs of `fcfs` with the same completionTime, turnaroundTime, waitingTime
and responseTime. -/
theorem roundRobin_large_quantum_is_fcfs (procs : List Process) (last : Process)
    (hlast : procs.getLast? = some last) (hfresh : ∀ p ∈ procs, p.fresh)
    (hrange : ∀ p ∈ procs, 0 ≤ p.arrivalTime ∧ 0 < p.burstTime)
    (hfit : maxTimeOf procs last ≤ INT_MAX)
    (hord : listedInArrivalOrder procs)
    (quantum : Int) (hquantum : ∀ p ∈ procs, p.burstTime ≤ quantum)
    (fuel : Nat) (hfuel : fuelBound procs ≤ fuel) :
    ∃ out, roundRobin quantum fuel procs = .ok out ∧
      List.Forall₂ sameMetrics out (fcfs procs) := by
  have harr : ∀ p ∈ procs, 0 ≤ p.arrivalTime := fun p hp => (hrange p hp).1
  have hburst : ∀ p ∈ procs, 0 < p.burstTime := fun p hp => (hrange p hp).2
  have hlm : last ∈ procs := List.mem_of_mem_getLast? (Option.mem_def.2 hlast)
  have hq1 : 1 ≤ quantum := by
    have := hquantum last hlm
    have := hburst last hlm
    omega
  have hordA : procs.Pairwise (fun a b => a.arrivalTime ≤ b.arrivalTime) :=
    hord.imp (fun h => h.1)
  have hbound : ∀ p ∈ procs, p.arrivalTime ≤ last.arrivalTime + 1000 := by
    intro p hp
    rcases le_last_of_pairwise hordA hlast p hp with h | h
    · rw [h]; omega
    · omega
  have hsent := below_sentinel_of_fit procs last hlast harr hburst hfit hbound
  have hid : (procs.map Process.id).Nodup := by
    unfold List.Nodup
    rw [List.pairwise_map]
    exact hord.imp (fun h => ne_of_lt h.2)
  have hsort : sortByArrival procs = procs :=
    sortByArrival_unique procs procs hid (List.Perm.refl _)
      (hord.imp (fun h => (fcfsLe_iff _ _).2 (by omega)))
  obtain ⟨st, hrun, hinv, hfifo, hcomp, hall⟩ := roundRobinRun_inv quantum hq1 procs last
    hlast hfresh harr hburst (fun p hp => (hsent p hp).1) hbound (FifoInv procs)
    (fifo_init procs) (fifo_jump hfresh hburst) (fifo_slice hfresh hburst hordA quantum hquantum)
    fuel (fuelBound_rr procs hfuel)
  refine ⟨st.procs, by unfold roundRobin; rw [hrun]; rfl, ?_⟩
  unfold fcfs
  rw [hsort]
  refine forall₂_of_index (by rw [fcfsRun_length, hinv.len]) ?_
  intro i r f hr hf
  have hi : i < procs.length := by rw [← hinv.len]; exact (List.getElem?_eq_some.1 hr).1
  have hp : procs[i]? = some procs[i] := List.getElem?_eq_getElem hi
  rw [fcfsRun_getElem? procs i _ hp] at hf
  cases hf
  obtain ⟨s1, s2, s3, s4, s5⟩ := hinv.same i _ r hp hr
  obtain ⟨_, hC, hR⟩ := hfifo.done i r (by rw [hcomp, hinv.len]; exact hi) hr
  obtain ⟨_, hT, hW, _⟩ := ((hinv.records r (mem_of_getElem?_eq hr)).done
    (hall r (mem_of_getElem?_eq hr))).1
  refine ⟨⟨s1.symm, s2.symm, s3.symm, s4.symm, s5.symm⟩, hC, ?_, ?_, ?_⟩
  · simp only; rw [hT, hC, s3]
  · simp only; rw [hW, hT, hC, s3, s4]
  · simp only; rw [hR, s3]

/-- C8 at the sample workload with quantum 8 and fuel 1029. -/
theorem roundRobin_large_quantum_is_fcfs_witness :
    (sampleData.getLast? = some (Process.create 4 "P4" 3 6 2) ∧
      (∀ p ∈ sampleData, p.fresh) ∧
      (∀ p ∈ sampleData, 0 ≤ p.arrivalTime ∧ 0 < p.burstTime) ∧
      maxTimeOf sampleData (Process.create 4 "P4" 3 6 2) ≤ INT_MAX ∧
      listedInArrivalOrder sampleData ∧ (∀ p ∈ sampleData, p.burstTime ≤ 8) ∧
      fuelBound sampleData ≤ 1029) ∧
    ∃ out, roundRobin 8 1029 sampleData = .ok out ∧
      List.Forall₂ sameMetrics out (fcfs sampleData) :=
  ⟨⟨by decide, by decide, by decide, by decide, by decide, by decide, by decide⟩,
    roundRobin_large_quantum_is_fcfs sampleData (Process.create 4 "P4" 3 6 2) (by decide)
      (by decide) (by decide) (by decide) (by decide) 8 (by decide) 1029 (by decide)⟩

/-! ## srtf against sjf -/

theorem index_of_forall₂ {α : Type} {R : α → α → Prop} {l₁ l₂ : List α}
    (h : List.Forall₂ R l₁ l₂) (i : Nat) (p q : α) (hp : l₁[i]? = some p)
    (hq : l₂[i]? = some q) : R p q := by
  obtain ⟨h1, rfl⟩ := List.getElem?_eq_some.1 hp
  obtain ⟨h2, rfl⟩ := List.getElem?_eq_some.1 hq
  exact (List.forall₂_iff_get.1 h).2 i h1 h2

/-- The index a scan returns is that of an eligible process. -/
theorem scanFrom_eligible (procs : List Process) (key : Process → Int)
    (eligible : Nat → Process → Bool) :
    ∀ (rest : List Process) (i : Nat) (best : Option Nat) (minKey : Int),
      procs.drop i = rest →
      (∀ b, best = some b → ∃ q, procs[b]? = some q ∧ eligible b q = true) →
      ∀ best1 minKey1, scanFrom procs key eligible rest i best minKey = .ok (best1, minKey1) →
        ∀ b, best1 = some b → ∃ q, procs[b]? = some q ∧ eligible b q = true := by
  intro rest
  induction rest with
  | nil =>
    intro i best minKey _ hbest best1 minKey1 h b hb
    simp only [scanFrom, Except.ok.injEq, Prod.mk.injEq] at h
    exact hbest b (by rw [h.1, hb])
  | cons p rest ih =>
    intro i best minKey hdrop hbest best1 minKey1 h
    obtain ⟨hpi, hdrop1⟩ := drop_cons_getElem? hdrop
    have hnew : eligible i p = true →
        ∀ b, some i = some b → ∃ q, procs[b]? = some q ∧ eligible b q = true := by
      intro hel b hb
      cases hb
      exact ⟨p, hpi, hel⟩
    unfold scanFrom at h
    by_cases hel : eligible i p = true
    · rw [if_pos hel] at h
      by_cases h1 : key p < minKey
      · rw [if_pos h1] at h
        exact ih (i + 1) (some i) (key p) hdrop1 (hnew hel) best1 minKey1 h
      · rw [if_neg h1] at h
        by_cases h2 : key p = minKey
        · rw [if_pos h2] at h
          cases best with
          | none => cases h
          | some b0 =>
            obtain ⟨q, hq, _⟩ := hbest b0 rfl
            simp only [hq] at h
            by_cases h3 : p.arrivalTime < q.arrivalTime
            · rw [if_pos h3] at h
              exact ih (i + 1) (some i) (key p) hdrop1 (hnew hel) best1 minKey1 h
            · rw [if_neg h3] at h
              exact ih (i + 1) (some b0) minKey hdrop1 hbest best1 minKey1 h
        · rw [if_neg h2] at h
          exact ih (i + 1) best minKey hdrop1 hbest best1 minKey1 h
    · rw [if_neg hel] at h
      exact ih (i + 1) best minKey hdrop1 hbest best1 minKey1 h

theorem scan_eligible (procs : List Process) (key : Process → Int)
    (eligible : Nat → Process → Bool) (b : Nat) (minKey : Int)
    (h : scan procs key eligible = .ok (some b, minKey)) :
    ∃ q, procs[b]? = some q ∧ eligible b q = true :=
  scanFrom_eligible procs key eligible procs 0 none INT_MAX rfl
    (fun _ hb => Option.noConfusion hb) (some b) minKey h b rfl

/-- One iteration of the loop of `sjf` and `priorityNonPreemptive` that returns
either found nothing to dispatch and left the records alone, or dispatched a
ready process. -/
theorem npStep_cases (key : Process → Int) (st st1 : NPState) (h : npStep key st = .ok st1) :
    st1 = st.idle ∨
      ∃ (b : Nat) (q : Process), st.procs[b]? = some q ∧ st.ready b q = true ∧
        st1 = st.dispatch b q := by
  unfold npStep at h
  cases hs : scan st.procs key st.ready with
  | error e => rw [hs] at h; cases h
  | ok r =>
    obtain ⟨best, m⟩ := r
    rw [hs] at h
    cases best with
    | none =>
      simp only [Except.ok.injEq] at h
      exact Or.inl h.symm
    | some b =>
      obtain ⟨q, hq, hel⟩ := scan_eligible _ _ _ b m hs
      simp only [hq, Except.ok.injEq] at h
      exact Or.inr ⟨b, q, hq, hel, h.symm⟩

/-- One iteration of the loop of `srtf` and `priorityPreemptive` that returns
either found nothing to run and advanced the clock only, or ran a ready process
for one time unit. -/
theorem pStep_cases (key : Process → Int) (st st1 : PState) (h : pStep key st = .ok st1) :
    st1 = { st with currentTime := st.currentTime + 1 } ∨
      ∃ (b : Nat) (q : Process), st.procs[b]? = some q ∧ st.ready b q = true ∧
        st1 = st.tick b q := by
  unfold pStep at h
  cases hs : scan st.procs key st.ready with
  | error e => rw [hs] at h; cases h
  | ok r =>
    obtain ⟨best, m⟩ := r
    rw [hs] at h
    cases best with
    | none =>
      simp only [Except.ok.injEq] at h
      exact Or.inl h.symm
    | some b =>
      obtain ⟨q, hq, hel⟩ := scan_eligible _ _ _ b m hs
      simp only [hq, Except.ok.injEq] at h
      exact Or.inr ⟨b, q, hq, hel, h.symm⟩

/-! ## The frame of a run: the job fields are never written -/

theorem sameJob_trans {p q r : Process} (h1 : sameJob p q) (h2 : sameJob q r) : sameJob p r :=
  ⟨h1.1.trans h2.1, h1.2.1.trans h2.2.1, h1.2.2.1.trans h2.2.2.1,
    h1.2.2.2.1.trans h2.2.2.2.1, h1.2.2.2.2.trans h2.2.2.2.2⟩

theorem sameJob_refl (l : List Process) : List.Forall₂ sameJob l l :=
  List.forall₂_same.2 (fun _ _ => ⟨rfl, rfl, rfl, rfl, rfl⟩)

/-- Replacing a record by one of the same job keeps the jobs of a list. -/
theorem forall₂_sameJob_set {input l : List Process} (h : List.Forall₂ sameJob input l)
    {b : Nat} {q r : Process} (hq : l[b]? = some q) (hs : sameJob q r) :
    List.Forall₂ sameJob input (l.set b r) := by
  refine forall₂_of_index (by rw [List.length_set]; exact h.length_eq.symm)
    (fun i p x hp hx => ?_)
  by_cases hib : b = i
  · subst hib
    rw [List.getElem?_set_self (List.getElem?_eq_some.1 hq).1] at hx
    cases hx
    exact sameJob_trans (index_of_forall₂ h b p q hp hq) hs
  · rw [List.getElem?_set_ne hib] at hx
    exact index_of_forall₂ h i p x hp hx

theorem npStep_frame (key : Process → Int) (input : List Process) (st st1 : NPState)
    (h : npStep key st = .ok st1) (hsame : List.Forall₂ sameJob input st.procs) :
    List.Forall₂ sameJob input st1.procs := by
  rcases npStep_cases key st st1 h with rfl | ⟨b, q, hq, _, rfl⟩
  · exact hsame
  · exact forall₂_sameJob_set hsame hq ⟨rfl, rfl, rfl, rfl, rfl⟩

theorem pStep_frame (key : Process → Int) (input : List Process) (st st1 : PState)
    (h : pStep key st = .ok st1) (hsame : List.Forall₂ sameJob input st.procs) :
    List.Forall₂ sameJob input st1.procs := by
  rcases pStep_cases key st st1 h with rfl | ⟨b, q, hq, _, rfl⟩
  · exact hsame
  · obtain ⟨r, hr, _, hs, _⟩ := tick_shape st b q
    rw [hr]
    exact forall₂_sameJob_set hsame hq hs

/-- A slice writes the record of the dequeued process only, and none of its
job fields. -/
theorem slice_procs (quantum : Int) (st : RRState) (idx : Nat) (rest : List Nat) (q : Process) :
    ∃ r, (st.slice quantum idx rest q).procs = st.procs.set idx r ∧ sameJob q r := by
  unfold RRState.slice
  simp only
  split_ifs
  · exact ⟨_, rfl, ⟨rfl, rfl, rfl, rfl, rfl⟩⟩
  · exact ⟨_, List.set_set _ _ _ _, ⟨rfl, rfl, rfl, rfl, rfl⟩⟩
  · exact ⟨_, rfl, ⟨rfl, rfl, rfl, rfl, rfl⟩⟩
  · exact ⟨_, List.set_set _ _ _ _, ⟨rfl, rfl, rfl, rfl, rfl⟩⟩

/-- The jump to the next arrival leaves the records alone. -/
theorem jump_procs (st st1 : RRState) (h : st.jump = some st1) :
    st1.procs = st.procs ∧ st1.completed = st.completed ∧
      st1.currentTime = nextArrivalFrom
        (fun _ p => decide (p.remainingTime > 0) && decide (p.arrivalTime > st.currentTime))
        st.procs 0 INT_MAX ∧ st1.currentTime ≠ INT_MAX := by
  unfold RRState.jump at h
  simp only at h
  split_ifs at h with hn
  simp only [Option.some.injEq] at h
  subst h
  exact ⟨rfl, rfl, rfl, hn⟩

/-! ## The loops run through the states at the head of the loop -/

theorem npLoop_reach (key : Process → Int) (input : List Process) :
    ∀ (fuel : Nat) (st st1 : NPState), NPReach key input st → npLoop key fuel st = .ok st1 →
      NPReach key input st1 ∧ ¬ st1.completedCount < st1.procs.length := by
  intro fuel
  induction fuel with
  | zero =>
    intro st st1 hr h
    by_cases hc : st.completedCount < st.procs.length
    · simp only [npLoop, if_pos hc] at h; cases h
    · simp only [npLoop, if_neg hc, Except.ok.injEq] at h
      subst h; exact ⟨hr, hc⟩
  | succ fuel ih =>
    intro st st1 hr h
    by_cases hc : st.completedCount < st.procs.length
    · simp only [npLoop, if_pos hc] at h
      cases hs : npStep key st with
      | error e => rw [hs] at h; cases h
      | ok st2 =>
        rw [hs] at h
        exact ih st2 st1 (NPReach.next hr hc hs) h
    · simp only [npLoop, if_neg hc, Except.ok.injEq] at h
      subst h; exact ⟨hr, hc⟩

theorem pLoop_reach (key : Process → Int) (maxTime : Int) (input : List Process) :
    ∀ (fuel : Nat) (st st1 : PState), PReach key maxTime input st →
      pLoop key maxTime fuel st = .ok st1 →
      PReach key maxTime input st1 ∧
        ¬ (st1.completed < st1.procs.length ∧ st1.currentTime < maxTime) := by
  intro fuel
  induction fuel with
  | zero =>
    intro st st1 hr h
    by_cases hc : st.completed < st.procs.length ∧ st.currentTime < maxTime
    · simp only [pLoop, if_pos hc] at h; cases h
    · simp only [pLoop, if_neg hc, Except.ok.injEq] at h
      subst h; exact ⟨hr, hc⟩
  | succ fuel ih =>
    intro st st1 hr h
    by_cases hc : st.completed < st.procs.length ∧ st.currentTime < maxTime
    · simp only [pLoop, if_pos hc] at h
      cases hs : pStep key st with
      | error e => rw [hs] at h; cases h
      | ok st2 =>
        rw [hs] at h
        exact ih st2 st1 (PReach.next hr hc hs) h
    · simp only [pLoop, if_neg hc, Except.ok.injEq] at h
      subst h; exact ⟨hr, hc⟩

theorem rrLoop_reach (quantum maxTime : Int) (input : List Process) :
    ∀ (fuel : Nat) (st st1 : RRState), RRReach quantum maxTime input st →
      rrLoop quantum maxTime fuel st = .ok st1 → RRReach quantum maxTime input st1 := by
  intro fuel
  induction fuel with
  | zero =>
    intro st st1 hr h
    by_cases hc : st.completed < st.procs.length ∧ st.currentTime < maxTime
    · simp only [rrLoop, if_pos hc] at h; cases h
    · simp only [rrLoop, if_neg hc, Except.ok.injEq] at h
      subst h; exact hr
  | succ fuel ih =>
    intro st st1 hr h
    by_cases hc : st.completed < st.procs.length ∧ st.currentTime < maxTime
    · simp only [rrLoop, if_pos hc] at h
      cases hq : st.readyQueue with
      | nil =>
        rw [hq] at h
        simp only at h
        cases hj : st.jump with
        | none =>
          rw [hj] at h
          simp only [Except.ok.injEq] at h
          subst h; exact hr
        | some st2 =>
          rw [hj] at h
          exact ih st2 st1 (RRReach.jump hr hc hq hj) h
      | cons idx rest =>
        rw [hq] at h
        simp only at h
        cases hp : st.procs[idx]? with
        | none => rw [hp] at h; cases h
        | some q =>
          rw [hp] at h
          exact ih _ st1 (RRReach.slice hr hc hq hp) h
    · simp only [rrLoop, if_neg hc, Except.ok.injEq] at h
      subst h; exact hr

theorem NPReach.np_frame {key : Process → Int} {input : List Process} {st : NPState}
    (h : NPReach key input st) : List.Forall₂ sameJob input st.procs := by
  induction h with
  | start => exact sameJob_refl input
  | next _ _ hs ih => exact npStep_frame key input _ _ hs ih

theorem PReach.p_frame {key : Process → Int} {maxTime : Int} {input : List Process} {st : PState}
    (h : PReach key maxTime input st) : List.Forall₂ sameJob input st.procs := by
  induction h with
  | start => exact sameJob_refl input
  | next _ _ hs ih => exact pStep_frame key input _ _ hs ih

theorem RRReach.rr_frame {quantum maxTime : Int} {input : List Process} {st : RRState}
    (h : RRReach quantum maxTime input st) : List.Forall₂ sameJob input st.procs := by
  induction h with
  | start => exact sameJob_refl input
  | jump _ _ _ hj ih => rw [(jump_procs _ _ hj).1]; exact ih
  | @slice st idx rest q _ _ _ hp ih =>
    obtain ⟨r, hr, hs⟩ := slice_procs quantum st idx rest q
    rw [hr]
    exact forall₂_sameJob_set ih hp hs

/-! ## What a routine displays is the working copy at the head of the loop -/

theorem nonPreemptive_reach (key : Process → Int) (fuel : Nat) (input out : List Process)
    (h : nonPreemptive key fuel input = .ok out) :
    ∃ st, NPReach key input st ∧ out = st.procs ∧ ¬ st.completedCount < st.procs.length := by
  unfold nonPreemptive at h
  by_cases he : input.isEmpty = true
  · rw [if_pos he] at h
    simp only [Except.ok.injEq] at h
    refine ⟨NPState.init input, NPReach.start, ?_, ?_⟩
    · rw [← h, List.isEmpty_iff.1 he]; rfl
    · rw [List.isEmpty_iff.1 he]; exact Nat.lt_irrefl 0
  · rw [if_neg he] at h
    cases hl : npLoop key fuel (NPState.init input) with
    | error e => rw [hl] at h; cases h
    | ok st =>
      rw [hl] at h
      simp only [Except.map, Except.ok.injEq] at h
      obtain ⟨h1, h2⟩ := npLoop_reach key input fuel _ st NPReach.start hl
      exact ⟨st, h1, h.symm, h2⟩

theorem preemptiveRun_reach (key : Process → Int) (fuel : Nat) (input : List Process)
    (st : PState) (h : preemptiveRun key fuel input = .ok st) :
    ∃ maxTime, PReach key maxTime input st := by
  unfold preemptiveRun at h
  cases hl : input.getLast? with
  | none =>
    rw [hl] at h
    simp only [Except.ok.injEq] at h
    refine ⟨0, ?_⟩
    rw [← h, ← List.getLast?_eq_none_iff.1 hl]
    exact PReach.start
  | some last =>
    rw [hl] at h
    exact ⟨_, (pLoop_reach key _ input fuel _ st PReach.start h).1⟩

theorem roundRobinRun_reach (quantum : Int) (fuel : Nat) (input : List Process)
    (st : RRState) (h : roundRobinRun quantum fuel input = .ok st) :
    ∃ maxTime, RRReach quantum maxTime input st := by
  unfold roundRobinRun at h
  cases hl : input.getLast? with
  | none =>
    rw [hl] at h
    simp only [Except.ok.injEq] at h
    refine ⟨0, ?_⟩
    have hnil := List.getLast?_eq_none_iff.1 hl
    have h0 : st = RRState.init input := by rw [← h, hnil]; rfl
    rw [h0]
    exact RRReach.start
  | some last =>
    rw [hl] at h
    exact ⟨_, rrLoop_reach quantum _ input fuel _ st RRReach.start h⟩

/-- Whatever `sjf` or `priorityNonPreemptive` returns holds the jobs of the
workload, position by position. -/
theorem nonPreemptive_frame (key : Process → Int) (fuel : Nat) (input out : List Process)
    (h : nonPreemptive key fuel input = .ok out) : List.Forall₂ sameJob input out := by
  obtain ⟨st, hr, rfl, _⟩ := nonPreemptive_reach key fuel input out h
  exact hr.np_frame

/-- Whatever `srtf` or `priorityPreemptive` returns holds the jobs of the
workload, position by position. -/
theorem preemptiveRun_frame (key : Process → Int) (fuel : Nat) (input out : List Process)
    (h : (preemptiveRun key fuel input).map PState.procs = .ok out) :
    List.Forall₂ sameJob input out := by
  cases hl : preemptiveRun key fuel input with
  | error e => rw [hl] at h; cases h
  | ok st =>
    rw [hl] at h
    simp only [Except.map, Except.ok.injEq] at h
    obtain ⟨_, hr⟩ := preemptiveRun_reach key fuel input st hl
    rw [← h]
    exact hr.p_frame

/-- Whatever `roundRobin` returns holds the jobs of the workload, position by
position. -/
theorem roundRobin_frame (quantum : Int) (fuel : Nat) (input out : List Process)
    (h : roundRobin quantum fuel input = .ok out) : List.Forall₂ sameJob input out := by
  unfold roundRobin at h
  cases hl : roundRobinRun quantum fuel input with
  | error e => rw [hl] at h; cases h
  | ok st =>
    rw [hl] at h
    simp only [Except.map, Except.ok.injEq] at h
    obtain ⟨_, hr⟩ := roundRobinRun_reach quantum fuel input st hl
    rw [← h]
    exact hr.rr_frame

/-! ## The scan, where it returns -/

/-- The scan state is kept over an index that is not eligible or does not
undercut the best so far. -/
theorem ScanPost.keep {procs : List Process} {key : Process → Int}
    {eligible : Nat → Process → Bool} {i : Nat} {best : Option Nat} {minKey : Int}
    {p : Process} (hpost : ScanPost procs key eligible i best minKey)
    (hpi : procs[i]? = some p)
    (hk : eligible i p = true → (match best with
      | none => False
      | some b => ∃ q, procs[b]? = some q ∧ scanLe key q p)) :
    ScanPost procs key eligible (i + 1) best minKey := by
  cases best with
  | none =>
    refine ⟨hpost.1, fun j p1 hj hp1 => ?_⟩
    rcases Nat.lt_succ_iff_lt_or_eq.1 hj with hj | rfl
    · exact hpost.2 j p1 hj hp1
    · rw [hpi] at hp1; cases hp1
      by_contra hne
      exact hk (by simpa using hne)
  | some b =>
    obtain ⟨hb, q, hq, he, hm, hle, hlt⟩ := hpost
    refine ⟨Nat.lt_succ_of_lt hb, q, hq, he, hm, fun j p1 hj hp1 hel => ?_, hlt⟩
    rcases Nat.lt_succ_iff_lt_or_eq.1 hj with hj | rfl
    · exact hle j p1 hj hp1 hel
    · rw [hpi] at hp1; cases hp1
      obtain ⟨q1, hq1, hle1⟩ := hk hel
      rw [hq] at hq1; cases hq1
      exact hle1

/-- The scan state is replaced by an eligible index that undercuts the best so
far. -/
theorem ScanPost.take {procs : List Process} {key : Process → Int}
    {eligible : Nat → Process → Bool} {i : Nat} {best : Option Nat} {minKey : Int}
    {p : Process} (hpost : ScanPost procs key eligible i best minKey)
    (hpi : procs[i]? = some p) (hel : eligible i p = true)
    (hk : match best with
      | none => True
      | some b => ∃ q, procs[b]? = some q ∧ scanLt key p q) :
    ScanPost procs key eligible (i + 1) (some i) (key p) := by
  refine ⟨Nat.lt_succ_self i, p, hpi, hel, rfl, fun j p1 hj hp1 hel1 => ?_,
    fun j p1 hj hp1 hel1 => ?_⟩
  · rcases Nat.lt_succ_iff_lt_or_eq.1 hj with hj | rfl
    · cases best with
      | none => exact absurd hel1 (by rw [hpost.2 j p1 hj hp1]; simp)
      | some b =>
        obtain ⟨hb, q, hq, he, hm, hle, hlt⟩ := hpost
        obtain ⟨q1, hq1, hlt1⟩ := hk
        rw [hq] at hq1; cases hq1
        have := hle j p1 hj hp1 hel1
        unfold scanLe at *; unfold scanLt at hlt1; omega
    · rw [hpi] at hp1; cases hp1
      exact Or.inr ⟨rfl, le_refl _⟩
  · cases best with
    | none => exact absurd hel1 (by rw [hpost.2 j p1 hj hp1]; simp)
    | some b =>
      obtain ⟨hb, q, hq, he, hm, hle, hlt⟩ := hpost
      obtain ⟨q1, hq1, hlt1⟩ := hk
      rw [hq] at hq1; cases hq1
      have := hle j p1 hj hp1 hel1
      unfold scanLe at this; unfold scanLt at *; omega

/-- Where every eligible key is an `int`, so at most `INT_MAX`, a scan that
returns has found the first eligible index least in `scanLe`, or `none` when no
process is eligible. -/
theorem scanFrom_sound (procs : List Process) (key : Process → Int)
    (eligible : Nat → Process → Bool)
    (hkey : ∀ j p, procs[j]? = some p → eligible j p = true → key p ≤ INT_MAX) :
    ∀ (rest : List Process) (i : Nat) (best : Option Nat) (minKey : Int),
      procs.drop i = rest → ScanPost procs key eligible i best minKey →
      ∀ best1 minKey1, scanFrom procs key eligible rest i best minKey = .ok (best1, minKey1) →
        ScanPost procs key eligible procs.length best1 minKey1 := by
  intro rest
  induction rest with
  | nil =>
    intro i best minKey hdrop hpost best1 minKey1 h
    simp only [scanFrom, Except.ok.injEq, Prod.mk.injEq] at h
    obtain ⟨rfl, rfl⟩ := h
    have hlen : procs.length ≤ i := List.drop_eq_nil_iff.1 hdrop
    cases best with
    | none =>
      exact ⟨hpost.1, fun j p hj hp => hpost.2 j p (lt_of_lt_of_le hj hlen) hp⟩
    | some b =>
      obtain ⟨_, q, hq, he, hm, hle, hlt⟩ := hpost
      exact ⟨(List.getElem?_eq_some.1 hq).1, q, hq, he, hm,
        fun j p hj hp => hle j p (lt_of_lt_of_le hj hlen) hp, hlt⟩
  | cons p rest ih =>
    intro i best minKey hdrop hpost best1 minKey1 h
    obtain ⟨hpi, hdrop1⟩ := drop_cons_getElem? hdrop
    unfold scanFrom at h
    by_cases hel : eligible i p = true
    · rw [if_pos hel] at h
      have hkp := hkey i p hpi hel
      by_cases h1 : key p < minKey
      · rw [if_pos h1] at h
        refine ih (i + 1) (some i) (key p) hdrop1 (hpost.take hpi hel ?_) best1 minKey1 h
        cases best with
        | none => trivial
        | some b =>
          obtain ⟨hb, q, hq, he, hm, hle, hlt⟩ := hpost
          exact ⟨q, hq, Or.inl (by omega)⟩
      · rw [if_neg h1] at h
        by_cases h2 : key p = minKey
        · rw [if_pos h2] at h
          cases best with
          | none => cases h
          | some b =>
            have hp0 : ScanPost procs key eligible i (some b) minKey := hpost
            obtain ⟨hb, q, hq, he, hm, hle, hlt⟩ := hpost
            simp only [hq] at h
            by_cases h3 : p.arrivalTime < q.arrivalTime
            · rw [if_pos h3] at h
              exact ih (i + 1) (some i) (key p) hdrop1
                (hp0.take hpi hel ⟨q, hq, Or.inr ⟨by omega, h3⟩⟩) best1 minKey1 h
            · rw [if_neg h3] at h
              exact ih (i + 1) (some b) minKey hdrop1
                (hp0.keep hpi (fun _ => ⟨q, hq, Or.inr ⟨by omega, by omega⟩⟩)) best1 minKey1 h
        · rw [if_neg h2] at h
          refine ih (i + 1) best minKey hdrop1 (hpost.keep hpi (fun _ => ?_)) best1 minKey1 h
          cases best with
          | none => exact absurd hpost.1 (by omega)
          | some b =>
            obtain ⟨hb, q, hq, he, hm, hle, hlt⟩ := hpost
            exact ⟨q, hq, Or.inl (by omega)⟩
    · rw [if_neg hel] at h
      exact ih (i + 1) best minKey hdrop1 (hpost.keep hpi (fun h => absurd h hel)) best1 minKey1 h

theorem scan_sound (procs : List Process) (key : Process → Int)
    (eligible : Nat → Process → Bool)
    (hkey : ∀ j p, procs[j]? = some p → eligible j p = true → key p ≤ INT_MAX)
    (best : Option Nat) (minKey : Int) (h : scan procs key eligible = .ok (best, minKey)) :
    ScanPost procs key eligible procs.length best minKey :=
  scanFrom_sound procs key eligible hkey procs 0 none INT_MAX rfl
    ⟨rfl, fun j _ hj _ => absurd hj (Nat.not_lt_zero j)⟩ best minKey h

/-! ## The states of sjf and priorityNonPreemptive at the head of the loop -/

theorem getElem?_false_of_ready {st : NPState} {b : Nat} {q : Process}
    (hlen : st.isCompleted.length = st.procs.length) (hq : st.procs[b]? = some q)
    (hready : st.ready b q = true) : st.isCompleted[b]? = some false := by
  have hb : b < st.isCompleted.length := by
    rw [hlen]; exact (List.getElem?_eq_some.1 hq).1
  have hne := ((ready_iff st b q).1 hready).1
  rw [List.getElem?_eq_getElem hb] at hne ⊢
  cases hv : st.isCompleted[b] with
  | false => rfl
  | true => rw [hv] at hne; exact absurd rfl hne

/-- The flags and the counter of the non-preemptive loop agree, whatever the
workload. -/
theorem NPReach.counts {key : Process → Int} {input : List Process} {st : NPState}
    (h : NPReach key input st) :
    st.isCompleted.length = st.procs.length ∧
      st.completedCount = st.isCompleted.count true := by
  induction h with
  | start => simp [NPState.init, List.count_replicate]
  | @next st st1 _ _ hs ih =>
    rcases npStep_cases key st st1 hs with rfl | ⟨b, q, hq, hready, rfl⟩
    · exact ih
    · have hf := getElem?_false_of_ready ih.1 hq hready
      refine ⟨by simp [NPState.dispatch, ih.1], ?_⟩
      simp only [NPState.dispatch]
      rw [count_set_true _ _ hf, ih.2]

/-- One iteration of the non-preemptive loop that returns, where the keys are
`int`s: either the scan found no ready process and the loop idles, or it
dispatches the first ready process least in `scanLe`. -/
theorem npStep_sound (key : Process → Int) (st st1 : NPState)
    (hkey : ∀ q ∈ st.procs, key q ≤ INT_MAX) (h : npStep key st = .ok st1) :
    ((∀ (j : Nat) p, st.procs[j]? = some p → st.ready j p = false) ∧ st1 = st.idle) ∨
      ∃ (b : Nat) (q : Process), st.procs[b]? = some q ∧ st.ready b q = true ∧
        (∀ (j : Nat) p, st.procs[j]? = some p → st.ready j p = true → scanLe key q p) ∧
        (∀ (j : Nat) p, j < b → st.procs[j]? = some p → st.ready j p = true →
          scanLt key q p) ∧
        st1 = st.dispatch b q := by
  unfold npStep at h
  cases hs : scan st.procs key st.ready with
  | error e => rw [hs] at h; cases h
  | ok r =>
    obtain ⟨best, m⟩ := r
    rw [hs] at h
    have hpost := scan_sound st.procs key st.ready
      (fun j p hp _ => hkey p (mem_of_getElem?_eq hp)) best m hs
    cases best with
    | none =>
      simp only [Except.ok.injEq] at h
      exact Or.inl ⟨fun j p hp => hpost.2 j p (List.getElem?_eq_some.1 hp).1 hp, h.symm⟩
    | some b =>
      obtain ⟨_, q, hq, hel, _, hle, hlt⟩ := hpost
      simp only [hq, Except.ok.injEq] at h
      exact Or.inr ⟨b, q, hq, hel,
        fun j p hp => hle j p (List.getElem?_eq_some.1 hp).1 hp, hlt, h.symm⟩

/-- With no process ready and one not completed, the idle branch sets the clock
to the smallest arrival time of the processes not completed, where these are
below `INT_MAX`. -/
theorem idle_clock (st : NPState) (hlen : st.isCompleted.length = st.procs.length)
    (hcount : st.isCompleted.count true < st.procs.length)
    (harr : ∀ q ∈ st.procs, q.arrivalTime < INT_MAX)
    (hnone : ∀ (j : Nat) p, st.procs[j]? = some p → st.ready j p = false) :
    (∃ (i : Nat) (q : Process), st.procs[i]? = some q ∧ st.isCompleted[i]? = some false ∧
        st.idle.currentTime = q.arrivalTime) ∧
      ∀ (j : Nat) p, st.procs[j]? = some p → st.isCompleted[j]? = some false →
        st.idle.currentTime ≤ p.arrivalTime := by
  have hpend : ∀ (j : Nat) p, st.procs[j]? = some p → st.isCompleted[j]? = some false →
      st.pending j p = true := by
    intro j p hp hf
    have hr := hnone j p hp
    have hnr : ¬ (st.isCompleted[j]? ≠ some true ∧ p.arrivalTime ≤ st.currentTime) :=
      fun hc => by rw [(ready_iff st j p).2 hc] at hr; cases hr
    refine (pending_iff st j p).2 ⟨by rw [hf]; simp, ?_⟩
    by_contra hle
    exact hnr ⟨by rw [hf]; simp, by omega⟩
  obtain ⟨i, hi⟩ := exists_false_of_count_lt st.isCompleted (by rw [hlen]; exact hcount)
  have hil : i < st.procs.length := by
    rw [← hlen]; exact (List.getElem?_eq_some.1 hi).1
  have hq : st.procs[i]? = some st.procs[i] := List.getElem?_eq_getElem hil
  have hle := nextArrivalFrom_le st.pending st.procs 0 INT_MAX
  have hlt : nextArrivalFrom st.pending st.procs 0 INT_MAX < INT_MAX := by
    have h1 := hle.2 i _ hq (by rw [Nat.zero_add]; exact hpend i _ hq hi)
    have h2 := harr _ (mem_of_getElem?_eq hq)
    omega
  have hclock : st.idle.currentTime = nextArrivalFrom st.pending st.procs 0 INT_MAX := by
    simp only [NPState.idle]
    rw [if_neg (by omega)]
  rw [hclock]
  refine ⟨?_, fun j p hp hf => hle.2 j p hp (by rw [Nat.zero_add]; exact hpend j p hp hf)⟩
  rcases nextArrivalFrom_spec st.pending st.procs 0 INT_MAX with h | ⟨j, p, hp, hpe, hj⟩
  · omega
  · rw [Nat.zero_add] at hpe
    have hcj := ((pending_iff st j p).1 hpe).1
    have hjl : j < st.isCompleted.length := by
      rw [hlen]; exact (List.getElem?_eq_some.1 hp).1
    refine ⟨j, p, hp, ?_, hj⟩
    rw [List.getElem?_eq_getElem hjl] at hcj ⊢
    cases hv : st.isCompleted[j] with
    | false => rfl
    | true => rw [hv] at hcj; exact absurd rfl hcj

/-- Every record of a list that holds the jobs of `input` is the job of a
process of `input`. -/
theorem frame_mem {input l : List Process} (h : List.Forall₂ sameJob input l) {q : Process}
    (hq : q ∈ l) : ∃ p ∈ input, sameJob p q := by
  obtain ⟨i, hi⟩ := List.mem_iff_getElem?.1 hq
  have hil : i < input.length := by
    rw [h.length_eq]; exact (List.getElem?_eq_some.1 hi).1
  exact ⟨input[i], List.getElem_mem hil,
    index_of_forall₂ h i _ q (List.getElem?_eq_getElem hil) hi⟩

/-- One iteration of the non-preemptive loop returns where the keys are below
the sentinel. -/
theorem npStep_returns (key : Process → Int) (st : NPState)
    (hkey : ∀ q ∈ st.procs, key q < INT_MAX) : ∃ st1, npStep key st = .ok st1 := by
  obtain ⟨best, m, hs, hpost⟩ := scan_spec st.procs key st.ready
    (fun j p hp _ => hkey p (mem_of_getElem?_eq hp))
  unfold npStep
  rw [hs]
  cases best with
  | none => exact ⟨_, rfl⟩
  | some b =>
    obtain ⟨_, q, hq, _⟩ := hpost
    simp only [hq]
    exact ⟨_, rfl⟩

/-! ## The order in which the non-preemptive loop dispatches -/

theorem scanLe_congr {key : Process → Int} (hjob : ∀ p q, sameJob p q → key p = key q)
    (p q : Process) {p1 q1 : Process} (hp : sameJob p p1) (hq : sameJob q q1)
    (h : scanLe key p q) :
    scanLe key p1 q1 := by
  unfold scanLe at h ⊢
  rw [← hjob p p1 hp, ← hjob q q1 hq, ← hp.2.2.1, ← hq.2.2.1]
  exact h

/-- The states at the head of the non-preemptive loop satisfy its invariant,
and no completed process was dispatched past a process that had arrived by then
and precedes it in the order of the scan. -/
theorem NPReach.urgent {key : Process → Int} {input : List Process}
    (hjob : ∀ p q, sameJob p q → key p = key q)
    (hkey : ∀ p ∈ input, key p < INT_MAX) (hburst : ∀ p ∈ input, 0 < p.burstTime)
    {st : NPState} (h : NPReach key input st) :
    NPInv input st ∧
      ∀ (i j : Nat) (p q : Process), st.procs[i]? = some p → st.procs[j]? = some q →
        st.isCompleted[i]? = some true →
        q.arrivalTime ≤ p.arrivalTime + p.responseTime →
        (st.isCompleted[j]? = some false ∨ p.completionTime < q.completionTime) →
        scanLe key p q := by
  induction h with
  | start =>
    refine ⟨NPInv.np_init input, fun i j p q _ _ hc => ?_⟩
    simp [NPState.init, List.getElem?_replicate] at hc
  | @next st st1 _ hlt hs ih =>
    obtain ⟨hinv, hQ⟩ := ih
    obtain ⟨st2, hs2, hinv2, _⟩ := npStep_spec key input st hjob hkey
      (fun p hp => le_of_lt (hburst p hp)) hinv hlt
    rw [hs] at hs2
    simp only [Except.ok.injEq] at hs2
    subst hs2
    refine ⟨hinv2, ?_⟩
    have hkeyst : ∀ q ∈ st.procs, key q ≤ INT_MAX := by
      intro q hq
      obtain ⟨i, hi⟩ := List.mem_iff_getElem?.1 hq
      obtain ⟨p0, hp0, hsame⟩ := hinv.np_input_of hi
      rw [← hjob p0 q hsame]; exact le_of_lt (hkey p0 hp0)
    rcases npStep_sound key st st1 hkeyst hs with ⟨_, rfl⟩ | ⟨b, qb, hqb, hready, hle, _, rfl⟩
    · exact hQ
    · have hlenC : st.isCompleted.length = st.procs.length := by rw [hinv.lenC, hinv.len]
      have hbl : b < st.procs.length := (List.getElem?_eq_some.1 hqb).1
      have hfb := getElem?_false_of_ready hlenC hqb hready
      have hbq : 0 < qb.burstTime := by
        obtain ⟨p0, hp0, hsame⟩ := hinv.np_input_of hqb
        rw [← hsame.2.2.2.1]; exact hburst p0 hp0
      intro i j p q hp hq hci harr hor
      simp only [NPState.dispatch] at hp hq hci hor
      by_cases hib : b = i
      · subst hib
        rw [List.getElem?_set_self hbl] at hp
        simp only [Option.some.injEq] at hp
        subst hp
        by_cases hjb : b = j
        · subst hjb
          rw [List.getElem?_set_self hbl] at hq
          simp only [Option.some.injEq] at hq
          subst hq
          exact Or.inr ⟨rfl, le_refl _⟩
        · rw [List.getElem?_set_ne hjb] at hq
          rw [List.getElem?_set_ne hjb] at hor
          simp only at harr hor
          have hjl : j < st.isCompleted.length := by
            rw [hlenC]; exact (List.getElem?_eq_some.1 hq).1
          have hflag : st.isCompleted[j]? = some false := by
            rcases hor with h | h
            · exact h
            · rw [List.getElem?_eq_getElem hjl]
              cases hv : st.isCompleted[j] with
              | false => rfl
              | true =>
                have hd := (hinv.done j q (by rw [List.getElem?_eq_getElem hjl, hv]) hq).2
                omega
          have hrj : st.ready j q = true :=
            (ready_iff st j q).2 ⟨by rw [hflag]; simp, by omega⟩
          exact scanLe_congr hjob qb q ⟨rfl, rfl, rfl, rfl, rfl⟩ ⟨rfl, rfl, rfl, rfl, rfl⟩
            (hle j q hq hrj)
      · rw [List.getElem?_set_ne hib] at hp hci
        by_cases hjb : b = j
        · subst hjb
          rw [List.getElem?_set_self hbl] at hq
          simp only [Option.some.injEq] at hq
          subst hq
          exact scanLe_congr hjob p qb ⟨rfl, rfl, rfl, rfl, rfl⟩ ⟨rfl, rfl, rfl, rfl, rfl⟩
            (hQ i b p qb hp hqb hci harr (Or.inl hfb))
        · rw [List.getElem?_set_ne hjb] at hq
          rw [List.getElem?_set_ne hjb] at hor
          exact hQ i j p q hp hq hci harr hor

/-! ## One tick of srtf and priorityPreemptive -/

/-- On any state whose keys are below the sentinel an iteration of the
preemptive loop returns and advances the clock by one; it either finds no
process ready and changes nothing else, or runs one process by the selection
rule. -/
theorem pStep_rule (key : Process → Int) (st : PState)
    (hkey : ∀ q ∈ st.procs, key q < INT_MAX) :
    ∃ st1, pStep key st = .ok st1 ∧ st1.currentTime = st.currentTime + 1 ∧
      (((∀ (j : Nat) p, st.procs[j]? = some p → st.ready j p = false) ∧
          st1.procs = st.procs ∧ st1.completed = st.completed) ∨
        st.tickedTo key st1) := by
  obtain ⟨best, m, hs, hpost⟩ := scan_spec st.procs key st.ready
    (fun j p hp _ => hkey p (mem_of_getElem?_eq hp))
  unfold pStep
  rw [hs]
  cases best with
  | none =>
    exact ⟨_, rfl, rfl,
      Or.inl ⟨fun j p hp => hpost.2 j p (List.getElem?_eq_some.1 hp).1 hp, rfl, rfl⟩⟩
  | some b =>
    obtain ⟨_, q, hq, hel, _, hle, hlt⟩ := hpost
    simp only [hq]
    obtain ⟨r, hprocs, htime, hsame, hrem, hst, _, _⟩ := tick_shape st b q
    refine ⟨_, rfl, htime, Or.inr ⟨b, q, r, hq, hel,
      fun j p hp => hle j p (List.getElem?_eq_some.1 hp).1 hp, hlt, hprocs, hsame, hrem,
      hst.1, hst.2.2, hst.2.1⟩⟩

/-- An iteration of the preemptive loop writes completion, turnaround and
waiting time for the process it completes, and for no other. -/
theorem pStep_written (key : Process → Int) (st st1 : PState) (h : pStep key st = .ok st1) :
    writtenAtCompletion st.procs st1.procs st1.currentTime := by
  rcases pStep_cases key st st1 h with rfl | ⟨b, q, hq, hready, rfl⟩
  · intro i q r hq hr
    rw [hq] at hr; cases hr
    exact ⟨fun h => by omega, fun _ => ⟨rfl, rfl, rfl⟩⟩
  · obtain ⟨_, hpos⟩ := (pready_iff st b q).1 hready
    obtain ⟨r, hprocs, htime, _, hrem, _, hfin, hun⟩ := tick_shape st b q
    have hb : b < st.procs.length := (List.getElem?_eq_some.1 hq).1
    intro i q1 r1 hq1 hr1
    rw [hprocs] at hr1
    by_cases hib : b = i
    · subst hib
      rw [List.getElem?_set_self hb] at hr1
      rw [hq] at hq1
      cases hr1; cases hq1
      rw [htime]
      refine ⟨fun h => (hfin h.2).2, fun h => (hun (fun h0 => h ⟨hpos, h0⟩)).2⟩
    · rw [List.getElem?_set_ne hib, hq1] at hr1
      cases hr1
      exact ⟨fun h => by omega, fun _ => ⟨rfl, rfl, rfl⟩⟩

/-- A finished record whose completion time is the clock of its invariant was
first dispatched no later than its waiting time after arrival. -/
theorem RecordInv.response {t : Int} {r : Process} (h : RecordInv t r)
    (hb : 0 < r.burstTime) (hrem : r.remainingTime = 0) (hc : r.completionTime = t) :
    0 ≤ r.responseTime ∧ r.responseTime ≤ r.waitingTime := by
  obtain ⟨⟨_, h2, h3, _⟩, _⟩ := h.done hrem
  obtain ⟨h5, h6⟩ := h.resp (h.started (by omega))
  constructor <;> omega

/-- The states at the head of the preemptive loop, on a workload of fresh
records with positive burst times: every record satisfies the record
invariant, and every finished process was first dispatched no later than its
waiting time after arrival. -/
theorem PReach.records {key : Process → Int} {maxTime : Int} {input : List Process}
    (hfresh : ∀ p ∈ input, p.fresh) (hburst : ∀ p ∈ input, 0 < p.burstTime)
    {st : PState} (h : PReach key maxTime input st) :
    (∀ q ∈ st.procs, RecordInv st.currentTime q) ∧
      ∀ q ∈ st.procs, q.remainingTime = 0 →
        0 ≤ q.responseTime ∧ q.responseTime ≤ q.waitingTime := by
  induction h with
  | start =>
    refine ⟨fun q hq => RecordInv.of_fresh (hfresh q hq) (hburst q hq), fun q hq h0 => ?_⟩
    have h1 := (fresh_fields (hfresh q hq)).1
    have h2 := hburst q hq
    omega
  | @next st st1 hr _ hs ih =>
    obtain ⟨hrec, hresp⟩ := ih
    rcases pStep_cases key st st1 hs with rfl | ⟨b, q, hq, hready, rfl⟩
    · exact ⟨fun q hq => (hrec q hq).mono (by simp), hresp⟩
    · obtain ⟨harr, hpos⟩ := (pready_iff st b q).1 hready
      obtain ⟨r, hprocs, htime, hsame, hrem, hst, hfin, hun⟩ := tick_shape st b q
      have hqm : q ∈ st.procs := mem_of_getElem?_eq hq
      have hrr : RecordInv (st.currentTime + 1) r :=
        (hrec q hqm).run harr (by omega) (by omega) hsame hrem hst
          (fun h => (hfin h).2) (fun h => (hun h).2)
      have hbr : 0 < r.burstTime := by
        obtain ⟨p, hp, hs1⟩ := frame_mem hr.p_frame hqm
        rw [← hsame.2.2.2.1, ← hs1.2.2.2.1]; exact hburst p hp
      refine ⟨fun x hx => ?_, fun x hx h0 => ?_⟩
      · rw [htime]
        rw [hprocs] at hx
        rcases mem_set_cases hx with rfl | hx
        · exact hrr
        · exact (hrec x hx).mono (by omega)
      · rw [hprocs] at hx
        rcases mem_set_cases hx with rfl | hx
        · exact hrr.response hbr h0 (hfin h0).2.1
        · exact hresp x hx h0

/-! ## The states of roundRobin at the head of the loop -/

/-- On the empty workload the loop of `roundRobin` is never entered. -/
theorem RRReach.of_nil {quantum maxTime : Int} {st : RRState}
    (h : RRReach quantum maxTime [] st) : st = RRState.init [] := by
  induction h with
  | start => rfl
  | jump _ hc _ _ ih => rw [ih] at hc; exact absurd hc.1 (by decide)
  | slice _ hc _ _ ih => rw [ih] at hc; exact absurd hc.1 (by decide)

/-- The states at the head of the loop of `roundRobin`, on a non-empty workload
of fresh records with positive burst times and a quantum of at least 1,
satisfy the loop invariant, and every finished process was first dispatched no
later than its waiting time after arrival. -/
theorem RRReach.inv {quantum maxTime : Int} {input : List Process} (hne : input ≠ [])
    (hfresh : ∀ p ∈ input, p.fresh) (hburst : ∀ p ∈ input, 0 < p.burstTime)
    (hquantum : 1 ≤ quantum) {st : RRState} (h : RRReach quantum maxTime input st) :
    RRInv input st ∧
      ∀ q ∈ st.procs, q.remainingTime = 0 →
        0 ≤ q.responseTime ∧ q.responseTime ≤ q.waitingTime := by
  induction h with
  | start =>
    refine ⟨RRInv.rr_init input hne hfresh hburst, fun q hq h0 => ?_⟩
    have hq1 : q ∈ input := hq
    have h1 := (fresh_fields (hfresh q hq1)).1
    have h2 := hburst q hq1
    omega
  | @jump st st1 _ hc hqueue hj ih =>
    obtain ⟨hinv, hresp⟩ := ih
    obtain ⟨hp, _, ht, hne1⟩ := jump_procs st st1 hj
    obtain ⟨st2, hj2, hinv2, _⟩ := hinv.jump_of_ne hqueue hc.1 (by rw [← ht]; exact hne1)
    rw [hj] at hj2
    cases hj2
    exact ⟨hinv2, by rw [hp]; exact hresp⟩
  | @slice st idx rest q _ hc hqueue hq ih =>
    obtain ⟨hinv, hresp⟩ := ih
    obtain ⟨hinv1, _, _⟩ := hinv.slice hquantum hqueue hq hc.1
    refine ⟨hinv1, fun x hx h0 => ?_⟩
    obtain ⟨r, new, mark, hprocs, htime, hsame, hrem, _, _, _, _, _, _, hfin⟩ :=
      slice_shape quantum st idx rest q (hinv.len.trans hinv.lenQ.symm)
    have hxr := hinv1.records x hx
    rw [hprocs] at hx
    rcases mem_set_cases hx with rfl | hx
    · have hbr : 0 < x.burstTime := by
        obtain ⟨p, hp, hs1⟩ := hinv.rr_input_of hq
        rw [← hsame.2.2.2.1, ← hs1.2.2.2.1]; exact hburst p hp
      refine hxr.response hbr h0 ?_
      rw [(hfin (by omega)).2.2.2.1, htime]
    · exact hresp x hx h0

/-- An iteration of the loop of `roundRobin` writes completion, turnaround and
waiting time for the process it completes, and for no other. -/
theorem stepsTo_written {quantum : Int} {input : List Process} {st st1 : RRState}
    (hinv : RRInv input st) (h : st.stepsTo quantum st1) :
    writtenAtCompletion st.procs st1.procs st1.currentTime := by
  rcases h with ⟨_, hj⟩ | ⟨idx, rest, q, hqueue, hq, rfl⟩
  · intro i q r hq hr
    rw [(jump_procs st st1 hj).1, hq] at hr
    cases hr
    exact ⟨fun h => by omega, fun _ => ⟨rfl, rfl, rfl⟩⟩
  · obtain ⟨r, new, mark, hprocs, htime, _, hrem, _, _, _, _, _, hun, hfin⟩ :=
      slice_shape quantum st idx rest q (hinv.len.trans hinv.lenQ.symm)
    obtain ⟨q0, hq0, _, hpos⟩ := hinv.queued idx (by rw [hqueue]; exact List.mem_cons_self _ _)
    rw [hq] at hq0
    cases hq0
    have hb : idx < st.procs.length := (List.getElem?_eq_some.1 hq).1
    have hmin := min_le_right quantum q.remainingTime
    intro i q1 r1 hq1 hr1
    rw [hprocs] at hr1
    by_cases hib : idx = i
    · subst hib
      rw [List.getElem?_set_self hb] at hr1
      rw [hq] at hq1
      cases hr1; cases hq1
      rw [htime]
      refine ⟨fun h => (hfin (by omega)).2.2.2, fun h => (hun ?_).2.2.2⟩
      by_contra h0
      exact h ⟨hpos, by omega⟩
    · rw [List.getElem?_set_ne hib, hq1] at hr1
      cases hr1
      exact ⟨fun h => by omega, fun _ => ⟨rfl, rfl, rfl⟩⟩

/-! ## The round robin trace of the sample workload -/

/-- C11: on the sample workload with quantum 2, `roundRobin`, with any fuel
from 12 on, dispatches P1, P2, P3, P1, P4, P2, P3, P1, P4, P3, P4, P3 in this
order (after each slice the processes that arrived during it are queued in list
order, the one just run after them), and yields the completion times 14, 11,
22, 20 and the response times 0, 1, 2, 5 for P1..P4. -/
theorem roundRobin_sample_trace (fuel : Nat) (hfuel : 12 ≤ fuel) :
    roundRobinDispatches 2 fuel sampleData = [1, 2, 3, 1, 4, 2, 3, 1, 4, 3, 4, 3] ∧
    ∃ out, roundRobin 2 fuel sampleData = .ok out ∧
      out.map (fun p => (p.id, p.completionTime, p.responseTime)) =
        [(1, 14, 0), (2, 11, 1), (3, 22, 2), (4, 20, 5)] := by
  obtain ⟨n, rfl⟩ : ∃ n, fuel = n + 12 := ⟨fuel - 12, by omega⟩
  cases n with
  | zero => exact ⟨rfl, _, rfl, rfl⟩
  | succ n => exact ⟨rfl, _, rfl, rfl⟩

/-- C11 with fuel 12. -/
theorem roundRobin_sample_trace_witness :
    12 ≤ 12 ∧
    roundRobinDispatches 2 12 sampleData = [1, 2, 3, 1, 4, 2, 3, 1, 4, 3, 4, 3] ∧
    ∃ out, roundRobin 2 12 sampleData = .ok out ∧
      out.map (fun p => (p.id, p.completionTime, p.responseTime)) =
        [(1, 14, 0), (2, 11, 1), (3, 22, 2), (4, 20, 5)] :=
  ⟨le_refl 12, roundRobin_sample_trace 12 (le_refl 12)⟩

/-! ## A single process -/

/-- The non-preemptive routines on a single process that arrives at 0 and whose
key is below the sentinel. -/
theorem nonPreemptive_single (key : Process → Int) (p : Process) (harr : p.arrivalTime = 0)
    (hkey : key p < INT_MAX) (fuel : Nat) (hfuel : 1 ≤ fuel) :
    nonPreemptive key fuel [p] = .ok
      [{ p with responseTime := 0, completionTime := p.burstTime,
                turnaroundTime := p.burstTime, waitingTime := 0 }] := by
  obtain ⟨n, rfl⟩ : ∃ n, fuel = n + 1 := ⟨fuel - 1, by omega⟩
  have hstep : npStep key (NPState.init [p]) = .ok ((NPState.init [p]).dispatch 0 p) := by
    simp [npStep, scan, scanFrom, NPState.init, NPState.ready, harr, hkey]
  simp only [nonPreemptive, List.isEmpty_cons, Bool.false_eq_true, if_false, npLoop]
  rw [if_pos (by simp [NPState.init]), hstep]
  cases n <;> simp [npLoop, Except.map, NPState.dispatch, NPState.init, harr]

/-- A finished record of a job that arrived at 0, at a clock no later than its
burst time, ran alone. -/
theorem ranAlone_of_record {p q : Process} {t : Int} (hs : sameJob p q)
    (harr : p.arrivalTime = 0) (hb : 0 < p.burstTime) (hrec : RecordInv t q)
    (hrem : q.remainingTime = 0) (ht : t ≤ p.burstTime) : ranAlone p q := by
  obtain ⟨⟨h1, h2, h3, h4⟩, h5⟩ := hrec.done hrem
  have hst := hrec.started (by rw [hrem, ← hs.2.2.2.1]; exact hb)
  obtain ⟨h6, h7⟩ := hrec.resp hst
  have ha := hs.2.2.1
  have hbq := hs.2.2.2.1
  exact ⟨hs, by omega, by omega, by omega⟩

theorem single_bound (p : Process) (harr : p.arrivalTime = 0) :
    maxArrival [p] + totalBurstTime [p] = p.burstTime := by
  simp [maxArrival, totalBurstTime, harr]

theorem fuelBound_single (p : Process) {fuel : Nat} (h : fuelBound [p] ≤ fuel) : 1 ≤ fuel := by
  unfold fuelBound at h
  simp only [List.length_singleton] at h
  omega

/-- The final state of a preemptive run on a single process. -/
theorem PInv.p_single {p : Process} {st : PState} (hinv : PInv [p] st)
    (harr : p.arrivalTime = 0) (hb : 0 < p.burstTime)
    (hall : ∀ q ∈ st.procs, q.remainingTime = 0) : ∃ q, st.procs = [q] ∧ ranAlone p q := by
  have hlen := hinv.len
  match hst : st.procs, hlen with
  | [q], _ =>
    have hq : q ∈ st.procs := by rw [hst]; exact List.mem_singleton_self q
    have hw := hinv.work
    rw [single_bound p harr, hst] at hw
    have h0 := hall q hq
    simp only [remainingSum, List.map_cons, List.map_nil, List.sum_cons, List.sum_nil, h0] at hw
    refine ⟨q, rfl, ranAlone_of_record (hinv.same 0 p q (by simp) (by rw [hst]; simp)) harr hb
      (hinv.records q hq) h0 (by omega)⟩

/-- The final state of a round robin run on a single process. -/
theorem RRInv.rr_single {p : Process} {st : RRState} (hinv : RRInv [p] st)
    (harr : p.arrivalTime = 0) (hb : 0 < p.burstTime)
    (hall : ∀ q ∈ st.procs, q.remainingTime = 0) : ∃ q, st.procs = [q] ∧ ranAlone p q := by
  have hlen := hinv.len
  match hst : st.procs, hlen with
  | [q], _ =>
    have hq : q ∈ st.procs := by rw [hst]; exact List.mem_singleton_self q
    have hw := hinv.work
    rw [single_bound p harr, hst] at hw
    have h0 := hall q hq
    simp only [remainingSum, List.map_cons, List.map_nil, List.sum_cons, List.sum_nil, h0] at hw
    refine ⟨q, rfl, ranAlone_of_record (hinv.same 0 p q (by simp) (by rw [hst]; simp)) harr hb
      (hinv.records q hq) h0 (by omega)⟩

/-- C12, as stated, fails: `sentinelBurst` is a single process with arrival
time 0 and burst time `INT_MAX` > 0, and `sjf` yields no result on it;
`sentinelPriority` is a single process with arrival time 0, burst time 1 and
priority `INT_MAX`, and neither `priorityNonPreemptive` nor
`priorityPreemptive` yields a result on it, although its safety bound 1 + 0 +
1000 fits an `int`: the scan finds the key equal to its initial minimum and
reads `procs[-1]`. So no run gives these processes waitingTime = 0,
responseTime = 0 and completionTime = burstTime. -/
theorem single_process_sentinel_no_result :
    ((∀ p ∈ sentinelBurst, p.arrivalTime = 0 ∧ 0 < p.burstTime) ∧ sentinelBurst.length = 1 ∧
      ¬ ∃ fuel out, sjf fuel sentinelBurst = .ok out ∧ ∀ q ∈ out,
        q.waitingTime = 0 ∧ q.responseTime = 0 ∧ q.completionTime = q.burstTime) ∧
    ((∀ p ∈ sentinelPriority, p.arrivalTime = 0 ∧ 0 < p.burstTime ∧
        maxTimeOf sentinelPriority p ≤ INT_MAX) ∧
      sentinelPriority.length = 1 ∧
      (¬ ∃ fuel out, priorityNonPreemptive fuel sentinelPriority = .ok out ∧ ∀ q ∈ out,
        q.waitingTime = 0 ∧ q.responseTime = 0 ∧ q.completionTime = q.burstTime) ∧
      ¬ ∃ fuel out, priorityPreemptive fuel sentinelPriority = .ok out ∧ ∀ q ∈ out,
        q.waitingTime = 0 ∧ q.responseTime = 0 ∧ q.completionTime = q.burstTime) := by
  refine ⟨⟨by decide, rfl, ?_⟩, by decide, rfl, ?_, ?_⟩
  · rintro ⟨fuel, out, h, _⟩
    cases fuel with
    | zero =>
      have h0 : sjf 0 sentinelBurst = .error .fuelExhausted := rfl
      rw [h0] at h; cases h
    | succ n =>
      have h1 : sjf (n + 1) sentinelBurst = .error .outOfBounds := rfl
      rw [h1] at h; cases h
  · rintro ⟨fuel, out, h, _⟩
    cases fuel with
    | zero =>
      have h0 : priorityNonPreemptive 0 sentinelPriority = .error .fuelExhausted := rfl
      rw [h0] at h; cases h
    | succ n =>
      have h1 : priorityNonPreemptive (n + 1) sentinelPriority = .error .outOfBounds := rfl
      rw [h1] at h; cases h
  · rintro ⟨fuel, out, h, _⟩
    cases fuel with
    | zero =>
      have h0 : priorityPreemptive 0 sentinelPriority = .error .fuelExhausted := rfl
      rw [h0] at h; cases h
    | succ n =>
      have h1 : priorityPreemptive (n + 1) sentinelPriority = .error .outOfBounds := rfl
      rw [h1] at h; cases h

/-! ## The frame of a run -/

/-- C13: a run changes only simulation fields. For every workload, every
quantum, every fuel and whatever the safety bound: `fcfs` returns the input
reordered by (arrivalTime, id) with id, name, arrivalTime, burstTime and
priority unchanged; in `sjf`, `srtf`, `priorityNonPreemptive`,
`priorityPreemptive` and `roundRobin` the working copy holds, at every state at
the head of the loop, the input processes position by position with these
fields unchanged (and so has the same length), and so does whatever the
routine returns; and the global list the routine was called on is as it was. -/
theorem run_changes_only_simulation_fields (procs : List Process) (quantum : Int) (fuel : Nat)
    (maxTime : Int) :
    (∃ ord, ord.Perm procs ∧ arrivalOrdered ord ∧ List.Forall₂ sameJob ord (fcfs procs)) ∧
    ((∀ st, NPReach Process.burstTime procs st → List.Forall₂ sameJob procs st.procs) ∧
      ∀ out, sjf fuel procs = .ok out → List.Forall₂ sameJob procs out) ∧
    ((∀ st, PReach Process.remainingTime maxTime procs st →
        List.Forall₂ sameJob procs st.procs) ∧
      ∀ out, srtf fuel procs = .ok out → List.Forall₂ sameJob procs out) ∧
    ((∀ st, NPReach Process.priority procs st → List.Forall₂ sameJob procs st.procs) ∧
      ∀ out, priorityNonPreemptive fuel procs = .ok out → List.Forall₂ sameJob procs out) ∧
    ((∀ st, PReach Process.priority maxTime procs st → List.Forall₂ sameJob procs st.procs) ∧
      ∀ out, priorityPreemptive fuel procs = .ok out → List.Forall₂ sameJob procs out) ∧
    ((∀ st, RRReach quantum maxTime procs st → List.Forall₂ sameJob procs st.procs) ∧
      ∀ out, roundRobin quantum fuel procs = .ok out → List.Forall₂ sameJob procs out) ∧
    (runOnGlobal fcfs procs).1 = procs ∧ (runOnGlobal (sjf fuel) procs).1 = procs ∧
    (runOnGlobal (srtf fuel) procs).1 = procs ∧
    (runOnGlobal (priorityNonPreemptive fuel) procs).1 = procs ∧
    (runOnGlobal (priorityPreemptive fuel) procs).1 = procs ∧
    (runOnGlobal (roundRobin quantum fuel) procs).1 = procs := by
  refine ⟨⟨sortByArrival procs, sortByArrival_perm procs, ?_, fcfsRun_sameJob 0 _⟩,
    ⟨fun st h => h.np_frame, fun out h => nonPreemptive_frame _ fuel procs out h⟩,
    ⟨fun st h => h.p_frame, fun out h => preemptiveRun_frame _ fuel procs out h⟩,
    ⟨fun st h => h.np_frame, fun out h => nonPreemptive_frame _ fuel procs out h⟩,
    ⟨fun st h => h.p_frame, fun out h => preemptiveRun_frame _ fuel procs out h⟩,
    ⟨fun st h => h.rr_frame, fun out h => roundRobin_frame quantum fuel procs out h⟩,
    rfl, rfl, rfl, rfl, rfl, rfl⟩
  exact (sortByArrival_sorted procs).imp (fun {a b} hab => (fcfsLe_iff a b).1 hab)

/-- C13 at the sample workload with quantum 2, fuel 30 and the safety bound
1025: the five routines with a loop return, and what they return holds the jobs
of the workload. -/
theorem run_changes_only_simulation_fields_witness :
    (∃ out, sjf 30 sampleData = .ok out ∧ List.Forall₂ sameJob sampleData out) ∧
    (∃ out, srtf 30 sampleData = .ok out ∧ List.Forall₂ sameJob sampleData out) ∧
    (∃ out, priorityNonPreemptive 30 sampleData = .ok out ∧
      List.Forall₂ sameJob sampleData out) ∧
    (∃ out, priorityPreemptive 30 sampleData = .ok out ∧
      List.Forall₂ sameJob sampleData out) ∧
    (∃ out, roundRobin 2 30 sampleData = .ok out ∧ List.Forall₂ sameJob sampleData out) :=
  ⟨⟨_, rfl, (run_changes_only_simulation_fields sampleData 2 30 1025).2.1.2 _ rfl⟩,
    ⟨_, rfl, (run_changes_only_simulation_fields sampleData 2 30 1025).2.2.1.2 _ rfl⟩,
    ⟨_, rfl, (run_changes_only_simulation_fields sampleData 2 30 1025).2.2.2.1.2 _ rfl⟩,
    ⟨_, rfl, (run_changes_only_simulation_fields sampleData 2 30 1025).2.2.2.2.1.2 _ rfl⟩,
    ⟨_, rfl, (run_changes_only_simulation_fields sampleData 2 30 1025).2.2.2.2.2.1.2 _ rfl⟩⟩

/-! ## The selection rule of sjf -/

/-- C14, as stated, fails: in the run of `sjf` on `sentinelArrival` (one
process, arrival time `INT_MAX`, burst time 1) the loop is entered at clock 0
with no process arrived, and the iteration sets the clock to 1, which is not
the arrival time 2147483647 of the one process not completed: the search for
the next arrival starts from `INT_MAX` and takes its result `INT_MAX` for "none
found". -/
theorem sjf_ticks_before_sentinel_arrival :
    NPReach Process.burstTime sentinelArrival (NPState.init sentinelArrival) ∧
    (NPState.init sentinelArrival).completedCount <
      (NPState.init sentinelArrival).procs.length ∧
    (∀ p ∈ sentinelArrival,
      ¬ p.arrivalTime ≤ (NPState.init sentinelArrival).currentTime ∧
        p.arrivalTime = 2147483647) ∧
    npStep Process.burstTime (NPState.init sentinelArrival) =
      .ok { NPState.init sentinelArrival with currentTime := 1 } :=
  ⟨NPReach.start, by decide, by decide, rfl⟩

/-- C14, amended: in a run of `sjf` on a workload whose arrival times are below
`INT_MAX` (the burst times being `int`s), every iteration of the loop that
returns either dispatches a process that has arrived and is not completed, with
the smallest burst time among these, the smallest arrival time among those of
that burst time, and the earliest position in the list among those of that
burst and arrival time; or no process has arrived that is not completed, the
records, flags and counter stay as they are, and the clock is set to the
smallest arrival time of the processes not completed. Where the burst times are
below `INT_MAX` every iteration returns. -/
theorem sjf_selection_rule (procs : List Process)
    (hint : ∀ p ∈ procs, p.burstTime ≤ INT_MAX) (harr : ∀ p ∈ procs, p.arrivalTime < INT_MAX)
    (st : NPState) (hreach : NPReach Process.burstTime procs st)
    (hlt : st.completedCount < st.procs.length) :
    (∀ st1, npStep Process.burstTime st = .ok st1 →
      st.dispatchedTo Process.burstTime st1 ∨ st.jumpedTo st1) ∧
    ((∀ p ∈ procs, p.burstTime < INT_MAX) → ∃ st1, npStep Process.burstTime st = .ok st1) := by
  have hframe := hreach.np_frame
  obtain ⟨hlen, hcount⟩ := hreach.counts
  refine ⟨fun st1 hstep => ?_, fun hsent => npStep_returns _ st (fun q hq => ?_)⟩
  · rcases npStep_sound Process.burstTime st st1 (fun q hq => by
        obtain ⟨p, hp, hs⟩ := frame_mem hframe hq
        rw [← hs.2.2.2.1]; exact hint p hp) hstep with ⟨hnone, rfl⟩ | ⟨b, q, hq, hr, hle, hl, rfl⟩
    · obtain ⟨h1, h2⟩ := idle_clock st hlen (by rw [← hcount]; exact hlt) (fun q hq => by
        obtain ⟨p, hp, hs⟩ := frame_mem hframe hq
        rw [← hs.2.2.1]; exact harr p hp) hnone
      exact Or.inr ⟨hnone, rfl, rfl, rfl, h1, h2⟩
    · exact Or.inl ⟨b, q, hq, hr, rfl, hle, hl⟩
  · obtain ⟨p, hp, hs⟩ := frame_mem hframe hq
    rw [← hs.2.2.2.1]; exact hsent p hp

/-- C14, amended, at the first iteration of `sjf` on the sample workload, which
dispatches P1. -/
theorem sjf_selection_rule_witness :
    ((∀ p ∈ sampleData, p.burstTime ≤ INT_MAX) ∧ (∀ p ∈ sampleData, p.arrivalTime < INT_MAX) ∧
      NPReach Process.burstTime sampleData (NPState.init sampleData) ∧
      (NPState.init sampleData).completedCount < (NPState.init sampleData).procs.length) ∧
    npStep Process.burstTime (NPState.init sampleData) =
      .ok ((NPState.init sampleData).dispatch 0 (Process.create 1 "P1" 0 5 2)) ∧
    ((NPState.init sampleData).dispatchedTo Process.burstTime
        ((NPState.init sampleData).dispatch 0 (Process.create 1 "P1" 0 5 2)) ∨
      (NPState.init sampleData).jumpedTo
        ((NPState.init sampleData).dispatch 0 (Process.create 1 "P1" 0 5 2))) :=
  ⟨⟨by decide, by decide, NPReach.start, by decide⟩, rfl,
    (sjf_selection_rule sampleData (by decide) (by decide) (NPState.init sampleData)
      NPReach.start (by decide)).1 _ rfl⟩

/-! ## One tick of the preemptive routines -/

/-- C16: one tick of `srtf`. In a run on a non-empty workload of fresh records
with arrivalTime >= 0 and burstTime > 0 whose safety bound fits an `int`, at
every state at the head of the loop, at clock t, the iteration returns with the
clock at t + 1; if some process has arrivalTime <= t and remainingTime > 0,
exactly one record is replaced: that of the first process in list order among
those of the smallest remaining time and, among these, the smallest arrival
time; its remaining time is one less, its response time is set to t -
arrivalTime if it was not started before and kept otherwise; if no process is
eligible the records and the counter stay as they are. -/
theorem srtf_one_tick (procs : List Process) (last : Process)
    (hlast : procs.getLast? = some last) (hfresh : ∀ p ∈ procs, p.fresh)
    (hrange : ∀ p ∈ procs, 0 ≤ p.arrivalTime ∧ 0 < p.burstTime)
    (hfit : maxTimeOf procs last ≤ INT_MAX)
    (st : PState) (hreach : PReach Process.remainingTime (maxTimeOf procs last) procs st) :
    ∃ st1, pStep Process.remainingTime st = .ok st1 ∧
      st1.currentTime = st.currentTime + 1 ∧
      ((∃ (j : Nat) (p : Process), st.procs[j]? = some p ∧ st.ready j p = true) →
        st.tickedTo Process.remainingTime st1) ∧
      ((∀ (j : Nat) p, st.procs[j]? = some p → st.ready j p = false) →
        st1.procs = st.procs ∧ st1.completed = st.completed) := by
  have hburst : ∀ p ∈ procs, 0 < p.burstTime := fun p hp => (hrange p hp).2
  have hkey : ∀ q ∈ st.procs, q.remainingTime < INT_MAX := by
    intro q hq
    obtain ⟨p, hp, hs⟩ := frame_mem hreach.p_frame hq
    have h1 := ((PReach.records hfresh hburst hreach).1 q hq).rem.2
    have h2 := le_totalBurstTime procs (fun x hx => le_of_lt (hburst x hx)) hp
    have h3 := (hrange last (List.mem_of_mem_getLast? (Option.mem_def.2 hlast))).1
    have h4 := hs.2.2.2.1
    unfold maxTimeOf at hfit
    omega
  obtain ⟨st1, hstep, htime, hcase⟩ := pStep_rule Process.remainingTime st hkey
  refine ⟨st1, hstep, htime, ?_, ?_⟩
  · rintro ⟨j, p, hp, hr⟩
    rcases hcase with ⟨hnone, _⟩ | ht
    · rw [hnone j p hp] at hr; cases hr
    · exact ht
  · intro hnone
    rcases hcase with ⟨_, h1, h2⟩ | ⟨b, q, _, hq, hr, _⟩
    · exact ⟨h1, h2⟩
    · rw [hnone b q hq] at hr; cases hr

/-- C16 at the first iteration of `srtf` on the sample workload. -/
theorem srtf_one_tick_witness :
    (sampleData.getLast? = some (Process.create 4 "P4" 3 6 2) ∧
      (∀ p ∈ sampleData, p.fresh) ∧
      (∀ p ∈ sampleData, 0 ≤ p.arrivalTime ∧ 0 < p.burstTime) ∧
      maxTimeOf sampleData (Process.create 4 "P4" 3 6 2) ≤ INT_MAX ∧
      PReach Process.remainingTime (maxTimeOf sampleData (Process.create 4 "P4" 3 6 2))
        sampleData { procs := sampleData, currentTime := 0, completed := 0 }) ∧
    ∃ st1, pStep Process.remainingTime
        { procs := sampleData, currentTime := 0, completed := 0 } = .ok st1 ∧
      st1.currentTime = 0 + 1 ∧
      ((∃ (j : Nat) (p : Process), sampleData[j]? = some p ∧
          PState.ready { procs := sampleData, currentTime := 0, completed := 0 } j p = true) →
        PState.tickedTo Process.remainingTime
          { procs := sampleData, currentTime := 0, completed := 0 } st1) ∧
      ((∀ (j : Nat) p, sampleData[j]? = some p →
          PState.ready { procs := sampleData, currentTime := 0, completed := 0 } j p = false) →
        st1.procs = sampleData ∧ st1.completed = 0) :=
  ⟨⟨by decide, by decide, by decide, by decide, PReach.start⟩,
    srtf_one_tick sampleData (Process.create 4 "P4" 3 6 2) (by decide) (by decide) (by decide)
      (by decide) { procs := sampleData, currentTime := 0, completed := 0 } PReach.start⟩

/-- C17: `priorityPreemptive` never runs a process while a more urgent one is
ready. In a run on a workload whose priorities are below `INT_MAX`, whatever
the safety bound, at every state at the head of the loop, at clock t, the
iteration returns, and if it changes the remaining time of a process then no
process with arrivalTime <= t and remainingTime > 0 has a smaller priority
value than that process. -/
theorem priorityPreemptive_runs_most_urgent (procs : List Process)
    (hsent : ∀ p ∈ procs, p.priority < INT_MAX) (maxTime : Int)
    (st : PState) (hreach : PReach Process.priority maxTime procs st) :
    ∃ st1, pStep Process.priority st = .ok st1 ∧
      ∀ (i : Nat) (q r : Process), st.procs[i]? = some q → st1.procs[i]? = some r →
        r.remainingTime ≠ q.remainingTime →
        ∀ (j : Nat) (p : Process), st.procs[j]? = some p → p.arrivalTime ≤ st.currentTime →
          0 < p.remainingTime → q.priority ≤ p.priority := by
  have hkey : ∀ q ∈ st.procs, q.priority < INT_MAX := by
    intro q hq
    obtain ⟨p, hp, hs⟩ := frame_mem hreach.p_frame hq
    rw [← hs.2.2.2.2]; exact hsent p hp
  obtain ⟨st1, hstep, _, hcase⟩ := pStep_rule Process.priority st hkey
  refine ⟨st1, hstep, fun i q r hq hr hne j p hp harr hrem => ?_⟩
  rcases hcase with ⟨_, h1, _⟩ | ⟨b, qb, rb, hqb, _, hle, _, hprocs, _⟩
  · rw [h1, hq] at hr
    cases hr
    exact absurd rfl hne
  · rw [hprocs] at hr
    by_cases hib : b = i
    · subst hib
      rw [hqb] at hq
      cases hq
      have := hle j p hp ((pready_iff st j p).2 ⟨harr, hrem⟩)
      omega
    · rw [List.getElem?_set_ne hib, hq] at hr
      cases hr
      exact absurd rfl hne

/-- C17 at the first iteration of `priorityPreemptive` on the sample workload
with the safety bound 1025. -/
theorem priorityPreemptive_runs_most_urgent_witness :
    ((∀ p ∈ sampleData, p.priority < INT_MAX) ∧
      PReach Process.priority 1025 sampleData
        { procs := sampleData, currentTime := 0, completed := 0 }) ∧
    ∃ st1, pStep Process.priority
        { procs := sampleData, currentTime := 0, completed := 0 } = .ok st1 ∧
      ∀ (i : Nat) (q r : Process), sampleData[i]? = some q → st1.procs[i]? = some r →
        r.remainingTime ≠ q.remainingTime →
        ∀ (j : Nat) (p : Process), sampleData[j]? = some p → p.arrivalTime ≤ 0 →
          0 < p.remainingTime → q.priority ≤ p.priority :=
  ⟨⟨by decide, PReach.start⟩,
    priorityPreemptive_runs_most_urgent sampleData (by decide) 1025
      { procs := sampleData, currentTime := 0, completed := 0 } PReach.start⟩

/-! ## The remaining time, the ready queue and the response time -/

/-- C18: the remaining time stays in [0, burstTime]. For every workload of
fresh records with burstTime > 0, every quantum >= 1 and whatever the safety
bound: at every state at the head of the loop of `srtf`, of
`priorityPreemptive` and of `roundRobin` each process has 0 <= remainingTime <=
burstTime, and every iteration from such a state writes completionTime,
turnaroundTime and waitingTime for the processes whose remaining time reaches 0
in it, and leaves these three fields of every other process, finished or not,
as they were. -/
theorem remaining_time_in_range (procs : List Process) (hfresh : ∀ p ∈ procs, p.fresh)
    (hburst : ∀ p ∈ procs, 0 < p.burstTime) (quantum : Int) (hquantum : 1 ≤ quantum)
    (maxTime : Int) :
    (∀ st, PReach Process.remainingTime maxTime procs st →
      (∀ q ∈ st.procs, 0 ≤ q.remainingTime ∧ q.remainingTime ≤ q.burstTime) ∧
      ∀ st1, pStep Process.remainingTime st = .ok st1 →
        writtenAtCompletion st.procs st1.procs st1.currentTime) ∧
    (∀ st, PReach Process.priority maxTime procs st →
      (∀ q ∈ st.procs, 0 ≤ q.remainingTime ∧ q.remainingTime ≤ q.burstTime) ∧
      ∀ st1, pStep Process.priority st = .ok st1 →
        writtenAtCompletion st.procs st1.procs st1.currentTime) ∧
    (∀ st, RRReach quantum maxTime procs st →
      (∀ q ∈ st.procs, 0 ≤ q.remainingTime ∧ q.remainingTime ≤ q.burstTime) ∧
      ∀ st1, st.stepsTo quantum st1 →
        writtenAtCompletion st.procs st1.procs st1.currentTime) := by
  refine ⟨fun st hr => ⟨fun q hq => ((PReach.records hfresh hburst hr).1 q hq).rem,
      fun st1 hs => pStep_written _ st st1 hs⟩,
    fun st hr => ⟨fun q hq => ((PReach.records hfresh hburst hr).1 q hq).rem,
      fun st1 hs => pStep_written _ st st1 hs⟩, fun st hr => ?_⟩
  by_cases hne : procs = []
  · subst hne
    rw [hr.of_nil]
    refine ⟨fun q hq => absurd hq (List.not_mem_nil q), fun st1 hs => ?_⟩
    rcases hs with ⟨_, hj⟩ | ⟨idx, rest, q, hqueue, _, _⟩
    · intro i q r hq hr1
      rw [(jump_procs _ st1 hj).1, hq] at hr1
      cases hr1
      exact ⟨fun h => by omega, fun _ => ⟨rfl, rfl, rfl⟩⟩
    · have h0 : ([] : List Nat) = idx :: rest := hqueue
      exact List.noConfusion h0
  · obtain ⟨hinv, _⟩ := RRReach.inv hne hfresh hburst hquantum hr
    exact ⟨fun q hq => (hinv.records q hq).rem, fun st1 hs => stepsTo_written hinv hs⟩

/-- C18 at the sample workload with quantum 2 and the safety bound 1025, at the
states in which the three loops are entered. -/
theorem remaining_time_in_range_witness :
    ((∀ p ∈ sampleData, p.fresh) ∧ (∀ p ∈ sampleData, 0 < p.burstTime) ∧ (1 : Int) ≤ 2) ∧
    ((∀ q ∈ sampleData, 0 ≤ q.remainingTime ∧ q.remainingTime ≤ q.burstTime) ∧
      ∀ st1, pStep Process.remainingTime
          { procs := sampleData, currentTime := 0, completed := 0 } = .ok st1 →
        writtenAtCompletion sampleData st1.procs st1.currentTime) ∧
    ((∀ q ∈ (RRState.init sampleData).procs,
        0 ≤ q.remainingTime ∧ q.remainingTime ≤ q.burstTime) ∧
      ∀ st1, (RRState.init sampleData).stepsTo 2 st1 →
        writtenAtCompletion (RRState.init sampleData).procs st1.procs st1.currentTime) :=
  ⟨⟨by decide, by decide, by decide⟩,
    (remaining_time_in_range sampleData (by decide) (by decide) 2 (by decide) 1025).1
      { procs := sampleData, currentTime := 0, completed := 0 } PReach.start,
    (remaining_time_in_range sampleData (by decide) (by decide) 2 (by decide) 1025).2.2
      (RRState.init sampleData) RRReach.start⟩

/-- Where every eligible key is below `INT_MAX`, the scan reaches the tie-break
read only after it has selected a process: every read finds in `best` the index
of an eligible process at an earlier position. -/
theorem tieBreakReadsFrom_inBounds (procs : List Process) (key : Process → Int)
    (eligible : Nat → Process → Bool)
    (hkey : ∀ j p, procs[j]? = some p → eligible j p = true → key p < INT_MAX) :
    ∀ (rest : List Process) (i : Nat) (best : Option Nat) (minKey : Int),
      procs.drop i = rest → (best = none → minKey = INT_MAX) →
      (∀ b, best = some b → b < i ∧ ∃ q, procs[b]? = some q ∧ eligible b q = true) →
      ∀ r ∈ tieBreakReadsFrom procs key eligible rest i best minKey,
        readInBounds procs eligible r := by
  intro rest
  induction rest with
  | nil =>
    intro i best minKey _ _ _ r hr
    simp only [tieBreakReadsFrom, List.not_mem_nil] at hr
  | cons p rest ih =>
    intro i best minKey hdrop hnone hsome r hr
    obtain ⟨hpi, hdrop1⟩ := drop_cons_getElem? hdrop
    have hkeep : ∀ b, best = some b →
        b < i + 1 ∧ ∃ q, procs[b]? = some q ∧ eligible b q = true :=
      fun b hb => ⟨Nat.lt_succ_of_lt (hsome b hb).1, (hsome b hb).2⟩
    unfold tieBreakReadsFrom at hr
    by_cases hel : eligible i p = true
    · rw [if_pos hel] at hr
      have htake : ∀ b, some i = some b →
          b < i + 1 ∧ ∃ q, procs[b]? = some q ∧ eligible b q = true := by
        intro b hb
        cases hb
        exact ⟨Nat.lt_succ_self i, p, hpi, hel⟩
      have hnot : some i = none → key p = INT_MAX := fun h => Option.noConfusion h
      by_cases h1 : key p < minKey
      · rw [if_pos h1] at hr
        exact ih (i + 1) (some i) (key p) hdrop1 hnot htake r hr
      · rw [if_neg h1] at hr
        by_cases h2 : key p = minKey
        · rw [if_pos h2] at hr
          cases best with
          | none =>
            have := hkey i p hpi hel
            have hm : minKey = INT_MAX := hnone rfl
            omega
          | some b =>
            obtain ⟨hb, q, hq, he⟩ := hsome b rfl
            simp only [hq] at hr
            rcases List.mem_cons.1 hr with rfl | hr
            · exact ⟨b, q, rfl, hb, hq, he⟩
            · by_cases h3 : p.arrivalTime < q.arrivalTime
              · rw [if_pos h3] at hr
                exact ih (i + 1) (some i) (key p) hdrop1 hnot htake r hr
              · rw [if_neg h3] at hr
                exact ih (i + 1) (some b) minKey hdrop1 hnone hkeep r hr
        · rw [if_neg h2] at hr
          exact ih (i + 1) best minKey hdrop1 hnone hkeep r hr
    · rw [if_neg hel] at hr
      exact ih (i + 1) best minKey hdrop1 hnone hkeep r hr

/-- On a list whose keys are below `INT_MAX` every tie-break read of a scan is
in bounds, and the scan returns. -/
theorem scan_inBounds (procs : List Process) (key : Process → Int)
    (eligible : Nat → Process → Bool) (hkey : ∀ q ∈ procs, key q < INT_MAX) :
    (∀ r ∈ tieBreakReads procs key eligible, readInBounds procs eligible r) ∧
      ∃ res, scan procs key eligible = .ok res := by
  have hk : ∀ j p, procs[j]? = some p → eligible j p = true → key p < INT_MAX :=
    fun j p hp _ => hkey p (mem_of_getElem?_eq hp)
  refine ⟨tieBreakReadsFrom_inBounds procs key eligible hk procs 0 none INT_MAX rfl
    (fun _ => rfl) (fun _ hb => Option.noConfusion hb), ?_⟩
  obtain ⟨best, m, hs, _⟩ := scan_spec procs key eligible hk
  exact ⟨_, hs⟩

/-- Outside that premise the read is recorded as it happens: on the single
process of `sentinelBurst`, whose burst time is `INT_MAX`, the first scan of
`sjf` reaches the tie-break at index 0 with `best = -1`. -/
theorem tieBreakReads_sentinelBurst :
    tieBreakReads sentinelBurst Process.burstTime (NPState.init sentinelBurst).ready =
      [(0, none)] :=
  rfl

/-! ## No run reads out of bounds -/

/-- In a run on fresh records no remaining time exceeds the largest burst
time; here: all stay below a bound the burst times are below. -/
theorem PReach.remaining_lt {key : Process → Int} {maxTime : Int} {input : List Process} {M : Int}
    (hinit : ∀ p ∈ input, p.remainingTime < M) {st : PState}
    (h : PReach key maxTime input st) : ∀ q ∈ st.procs, q.remainingTime < M := by
  induction h with
  | start => exact hinit
  | @next st st1 _ _ hs ih =>
    rcases pStep_cases key st st1 hs with rfl | ⟨b, q, hq, _, rfl⟩
    · exact ih
    · obtain ⟨r, hprocs, _, _, hrem, _⟩ := tick_shape st b q
      intro x hx
      rw [hprocs] at hx
      rcases mem_set_cases hx with rfl | hx
      · have := ih q (mem_of_getElem?_eq hq)
        omega
      · exact ih x hx

/-- The loop of `sjf` and `priorityNonPreemptive` does not end in a read out of
bounds where the keys of every state at the head of the loop are below
`INT_MAX`. -/
theorem npLoop_inBounds (key : Process → Int) (input : List Process)
    (hkey : ∀ st, NPReach key input st → ∀ q ∈ st.procs, key q < INT_MAX) :
    ∀ (fuel : Nat) (st : NPState), NPReach key input st →
      npLoop key fuel st ≠ .error .outOfBounds := by
  intro fuel
  induction fuel with
  | zero =>
    intro st _
    unfold npLoop
    split_ifs <;> simp
  | succ fuel ih =>
    intro st hr
    unfold npLoop
    split_ifs with hc
    · obtain ⟨st1, hs⟩ := npStep_returns key st (hkey st hr)
      rw [hs]
      exact ih st1 (NPReach.next hr hc hs)
    · simp

/-- The loop of `srtf` and `priorityPreemptive` does not end in a read out of
bounds where the keys of every state at the head of the loop are below
`INT_MAX`. -/
theorem pLoop_inBounds (key : Process → Int) (maxTime : Int) (input : List Process)
    (hkey : ∀ st, PReach key maxTime input st → ∀ q ∈ st.procs, key q < INT_MAX) :
    ∀ (fuel : Nat) (st : PState), PReach key maxTime input st →
      pLoop key maxTime fuel st ≠ .error .outOfBounds := by
  intro fuel
  induction fuel with
  | zero =>
    intro st _
    unfold pLoop
    split_ifs <;> simp
  | succ fuel ih =>
    intro st hr
    unfold pLoop
    split_ifs with hc
    · obtain ⟨st1, hs, _⟩ := pStep_rule key st (hkey st hr)
      rw [hs]
      exact ih st1 (PReach.next hr hc hs)
    · simp

theorem nonPreemptive_inBounds (key : Process → Int) (input : List Process)
    (hkey : ∀ st, NPReach key input st → ∀ q ∈ st.procs, key q < INT_MAX) (fuel : Nat) :
    nonPreemptive key fuel input ≠ .error .outOfBounds := by
  unfold nonPreemptive
  split_ifs
  · simp
  · have h := npLoop_inBounds key input hkey fuel _ NPReach.start
    cases hl : npLoop key fuel (NPState.init input) with
    | error e =>
      rw [hl] at h
      simp only [Except.map]
      intro he
      injection he with he
      exact h (by rw [he])
    | ok st => simp [Except.map]

theorem preemptiveRun_inBounds (key : Process → Int) (input : List Process)
    (hkey : ∀ maxTime st, PReach key maxTime input st → ∀ q ∈ st.procs, key q < INT_MAX)
    (fuel : Nat) :
    (preemptiveRun key fuel input).map PState.procs ≠ .error .outOfBounds := by
  unfold preemptiveRun
  cases hl : input.getLast? with
  | none => simp [Except.map]
  | some last =>
    simp only
    have h := pLoop_inBounds key (maxTimeOf input last) input (hkey _) fuel _ PReach.start
    cases hp : pLoop key (maxTimeOf input last) fuel
        { procs := input, currentTime := 0, completed := 0 } with
    | error e =>
      rw [hp] at h
      simp only [Except.map]
      intro he
      injection he with he
      exact h (by rw [he])
    | ok st => simp [Except.map]

/-! ## The tie-break read of the selection scans -/

/-- C21: the tie-break read in the selection scans is always in bounds. For
every workload of fresh records whose burst times and priorities are below
`INT_MAX`, whatever the safety bound and the fuel: at every state at the head
of the loop of `sjf`, `srtf`, `priorityNonPreemptive` and `priorityPreemptive`,
each evaluation of `procs[best].arrivalTime` in the scan finds in `best` the
index of an eligible process selected at an earlier position of the scan, never
`-1`, and the scan returns; and no run of the four routines ends in a read out
of bounds. -/
theorem tie_break_read_in_bounds (procs : List Process) (hfresh : ∀ p ∈ procs, p.fresh)
    (hsent : ∀ p ∈ procs, p.burstTime < INT_MAX ∧ p.priority < INT_MAX)
    (maxTime : Int) (fuel : Nat) :
    ((∀ st, NPReach Process.burstTime procs st →
        (∀ r ∈ tieBreakReads st.procs Process.burstTime st.ready,
          readInBounds st.procs st.ready r) ∧
        ∃ res, scan st.procs Process.burstTime st.ready = .ok res) ∧
      sjf fuel procs ≠ .error .outOfBounds) ∧
    ((∀ st, PReach Process.remainingTime maxTime procs st →
        (∀ r ∈ tieBreakReads st.procs Process.remainingTime st.ready,
          readInBounds st.procs st.ready r) ∧
        ∃ res, scan st.procs Process.remainingTime st.ready = .ok res) ∧
      srtf fuel procs ≠ .error .outOfBounds) ∧
    ((∀ st, NPReach Process.priority procs st →
        (∀ r ∈ tieBreakReads st.procs Process.priority st.ready,
          readInBounds st.procs st.ready r) ∧
        ∃ res, scan st.procs Process.priority st.ready = .ok res) ∧
      priorityNonPreemptive fuel procs ≠ .error .outOfBounds) ∧
    ((∀ st, PReach Process.priority maxTime procs st →
        (∀ r ∈ tieBreakReads st.procs Process.priority st.ready,
          readInBounds st.procs st.ready r) ∧
        ∃ res, scan st.procs Process.priority st.ready = .ok res) ∧
      priorityPreemptive fuel procs ≠ .error .outOfBounds) := by
  have hnb : ∀ st, NPReach Process.burstTime procs st →
      ∀ q ∈ st.procs, q.burstTime < INT_MAX := by
    intro st hr q hq
    obtain ⟨p, hp, hs⟩ := frame_mem hr.np_frame hq
    rw [← hs.2.2.2.1]; exact (hsent p hp).1
  have hnp : ∀ st, NPReach Process.priority procs st →
      ∀ q ∈ st.procs, q.priority < INT_MAX := by
    intro st hr q hq
    obtain ⟨p, hp, hs⟩ := frame_mem hr.np_frame hq
    rw [← hs.2.2.2.2]; exact (hsent p hp).2
  have hpr : ∀ m st, PReach Process.remainingTime m procs st →
      ∀ q ∈ st.procs, q.remainingTime < INT_MAX := by
    intro m st hr
    refine PReach.remaining_lt (fun p hp => ?_) hr
    rw [(fresh_fields (hfresh p hp)).1]; exact (hsent p hp).1
  have hpp : ∀ m st, PReach Process.priority m procs st →
      ∀ q ∈ st.procs, q.priority < INT_MAX := by
    intro m st hr q hq
    obtain ⟨p, hp, hs⟩ := frame_mem hr.p_frame hq
    rw [← hs.2.2.2.2]; exact (hsent p hp).2
  exact ⟨⟨fun st hr => scan_inBounds _ _ _ (hnb st hr),
      nonPreemptive_inBounds _ procs hnb fuel⟩,
    ⟨fun st hr => scan_inBounds _ _ _ (hpr maxTime st hr),
      preemptiveRun_inBounds _ procs hpr fuel⟩,
    ⟨fun st hr => scan_inBounds _ _ _ (hnp st hr),
      nonPreemptive_inBounds _ procs hnp fuel⟩,
    ⟨fun st hr => scan_inBounds _ _ _ (hpp maxTime st hr),
      preemptiveRun_inBounds _ procs hpp fuel⟩⟩

/-- C21 at the workload `tiedPair` with the safety bound 1006 and fuel 10: in
the first iteration of `sjf` and of `priorityPreemptive` the scan reaches the
tie-break once, at index 1 with `best = 0`, and the read is in bounds. -/
theorem tie_break_read_in_bounds_witness :
    ((∀ p ∈ tiedPair, p.fresh) ∧
      (∀ p ∈ tiedPair, p.burstTime < INT_MAX ∧ p.priority < INT_MAX)) ∧
    (tieBreakReads (NPState.init tiedPair).procs Process.burstTime
        (NPState.init tiedPair).ready = [(1, some 0)] ∧
      (∀ r ∈ tieBreakReads (NPState.init tiedPair).procs Process.burstTime
          (NPState.init tiedPair).ready,
        readInBounds (NPState.init tiedPair).procs (NPState.init tiedPair).ready r) ∧
      sjf 10 tiedPair ≠ .error .outOfBounds) ∧
    (tieBreakReads tiedPair Process.priority
        (PState.ready { procs := tiedPair, currentTime := 0, completed := 0 }) =
        [(1, some 0)] ∧
      (∀ r ∈ tieBreakReads tiedPair Process.priority
          (PState.ready { procs := tiedPair, currentTime := 0, completed := 0 }),
        readInBounds tiedPair
          (PState.ready { procs := tiedPair, currentTime := 0, completed := 0 }) r) ∧
      priorityPreemptive 10 tiedPair ≠ .error .outOfBounds) :=
  ⟨⟨by decide, by decide⟩,
    ⟨rfl, ((tie_break_read_in_bounds tiedPair (by decide) (by decide) 1006 10).1.1
        (NPState.init tiedPair) NPReach.start).1,
      (tie_break_read_in_bounds tiedPair (by decide) (by decide) 1006 10).1.2⟩,
    ⟨rfl, ((tie_break_read_in_bounds tiedPair (by decide) (by decide) 1006 10).2.2.2.1
        { procs := tiedPair, currentTime := 0, completed := 0 } PReach.start).1,
      (tie_break_read_in_bounds tiedPair (by decide) (by decide) 1006 10).2.2.2.2⟩⟩

/-! ## The clock of the non-preemptive routines stays within the range of `int` -/

/-- No completion time of `fcfs`, from clock `c`, exceeds the later of `c` and
the latest arrival by more than the burst times together. -/
theorem fcfsRun_clock (M : Int) :
    ∀ (l : List Process) (c : Int), (∀ p ∈ l, p.arrivalTime ≤ M ∧ 0 ≤ p.burstTime) →
      ∀ r ∈ fcfsRun c l, r.completionTime ≤ max c M + (l.map Process.burstTime).sum := by
  intro l
  induction l with
  | nil =>
    intro c _ r hr
    simp [fcfsRun] at hr
  | cons p t ih =>
    intro c h r hr
    obtain ⟨hpa, hpb⟩ := h p (List.mem_cons_self _ _)
    have ht : ∀ q ∈ t, q.arrivalTime ≤ M ∧ 0 ≤ q.burstTime :=
      fun q hq => h q (List.mem_cons_of_mem _ hq)
    have hsum : 0 ≤ (t.map Process.burstTime).sum := List.sum_nonneg (by
      intro x hx
      obtain ⟨q, hq, rfl⟩ := List.mem_map.1 hx
      exact (ht q hq).2)
    have h1 := le_max_left c M
    have h2 := le_max_right c M
    simp only [fcfsRun, List.mem_cons] at hr
    simp only [List.map_cons, List.sum_cons]
    rcases hr with rfl | hr
    · dsimp only
      split_ifs <;> omega
    · have h3 := ih _ ht r hr
      have h4 : max ((if c < p.arrivalTime then p.arrivalTime else c) + p.burstTime) M ≤
          max c M + p.burstTime := by
        refine max_le ?_ (by omega)
        split_ifs <;> omega
      omega

/-- No completion time of `fcfs` exceeds the latest arrival plus the burst
times together. -/
theorem fcfs_clock (procs : List Process) (hb : ∀ p ∈ procs, 0 ≤ p.burstTime) :
    ∀ r ∈ fcfs procs, r.completionTime ≤ maxArrival procs + totalBurstTime procs := by
  intro r hr
  have hperm := sortByArrival_perm procs
  have h := fcfsRun_clock (maxArrival procs) (sortByArrival procs) 0
    (fun p hp => ⟨le_maxArrival (hperm.subset hp), hb p (hperm.subset hp)⟩) r hr
  rw [max_eq_right (maxArrival_nonneg procs), (hperm.map Process.burstTime).sum_eq,
    ← totalBurstTime_eq] at h
  exact h

theorem doneBurst_bounds :
    ∀ (ps : List Process) (bs : List Bool), (∀ p ∈ ps, 0 ≤ p.burstTime) →
      0 ≤ doneBurst ps bs ∧ doneBurst ps bs ≤ (ps.map Process.burstTime).sum
  | [], _, _ => by simp [doneBurst]
  | p :: ps, [], h => by
    simp only [doneBurst, le_refl, true_and, List.map_cons, List.sum_cons]
    have hp := h p (List.mem_cons_self _ _)
    have hs : 0 ≤ (ps.map Process.burstTime).sum := List.sum_nonneg (by
      intro x hx
      obtain ⟨q, hq, rfl⟩ := List.mem_map.1 hx
      exact h q (List.mem_cons_of_mem _ hq))
    omega
  | p :: ps, b :: bs, h => by
    have hp := h p (List.mem_cons_self _ _)
    have ih := doneBurst_bounds ps bs (fun q hq => h q (List.mem_cons_of_mem _ hq))
    simp only [doneBurst, List.map_cons, List.sum_cons]
    cases b <;> simp <;> omega

/-- At the head of the loop of `sjf` and `priorityNonPreemptive` the clock is
at most the latest arrival plus the burst times of the processes completed. -/
theorem NPReach.clock {key : Process → Int} {input : List Process}
    (hjob : ∀ p q, sameJob p q → key p = key q)
    (hkey : ∀ p ∈ input, key p < INT_MAX) (hburst : ∀ p ∈ input, 0 < p.burstTime)
    (harr : ∀ p ∈ input, p.arrivalTime < INT_MAX)
    {st : NPState} (h : NPReach key input st) :
    st.currentTime ≤ maxArrival input + doneBurst st.procs st.isCompleted := by
  induction h with
  | start =>
    simp only [NPState.init, doneBurst_replicate]
    have := maxArrival_nonneg input
    omega
  | @next st st1 hr hlt hs ih =>
    obtain ⟨hinv, _⟩ := hr.urgent hjob hkey hburst
    have hlenC : st.isCompleted.length = st.procs.length := by rw [hinv.lenC, hinv.len]
    have hkeyst : ∀ q ∈ st.procs, key q ≤ INT_MAX := by
      intro q hq
      obtain ⟨p0, hp0, hsame⟩ := frame_mem hr.np_frame hq
      rw [← hjob p0 q hsame]; exact le_of_lt (hkey p0 hp0)
    have hbst : ∀ q ∈ st.procs, 0 ≤ q.burstTime := by
      intro q hq
      obtain ⟨p0, hp0, hsame⟩ := frame_mem hr.np_frame hq
      rw [← hsame.2.2.2.1]; exact le_of_lt (hburst p0 hp0)
    rcases npStep_sound key st st1 hkeyst hs with ⟨hnone, rfl⟩ | ⟨b, q, hq, hready, _, _, rfl⟩
    · obtain ⟨⟨i, q, hq, _, ht⟩, _⟩ := idle_clock st hlenC (by rw [← hinv.count]; exact hlt)
        (fun q hq => by
          obtain ⟨p0, hp0, hsame⟩ := frame_mem hr.np_frame hq
          rw [← hsame.2.2.1]; exact harr p0 hp0) hnone
      obtain ⟨p0, hp0, hsame⟩ := hinv.np_input_of hq
      have h1 := le_maxArrival hp0
      have h2 := (doneBurst_bounds st.procs st.isCompleted hbst).1
      have h3 : st.idle.procs = st.procs := rfl
      have h4 : st.idle.isCompleted = st.isCompleted := rfl
      rw [h3, h4, ht, ← hsame.2.2.1]
      omega
    · have hf := getElem?_false_of_ready hlenC hq hready
      simp only [NPState.dispatch]
      rw [doneBurst_set st.procs st.isCompleted b q _ hq hf]
      · omega
      · rfl

/-- No completion time of `sjf` or `priorityNonPreemptive` exceeds the latest
arrival plus the burst times together. -/
theorem nonPreemptive_clock (key : Process → Int) (input : List Process)
    (hjob : ∀ p q, sameJob p q → key p = key q)
    (hkey : ∀ p ∈ input, key p < INT_MAX) (hburst : ∀ p ∈ input, 0 < p.burstTime)
    (harr : ∀ p ∈ input, p.arrivalTime < INT_MAX)
    (fuel : Nat) (out : List Process) (h : nonPreemptive key fuel input = .ok out) :
    ∀ r ∈ out, r.completionTime ≤ maxArrival input + totalBurstTime input := by
  obtain ⟨st, hreach, rfl, hdone⟩ := nonPreemptive_reach key fuel input out h
  obtain ⟨hinv, _⟩ := hreach.urgent hjob hkey hburst
  have hclock := hreach.clock hjob hkey hburst harr
  have hbst : ∀ q ∈ st.procs, 0 ≤ q.burstTime := by
    intro q hq
    obtain ⟨p0, hp0, hsame⟩ := frame_mem hreach.np_frame hq
    rw [← hsame.2.2.2.1]; exact le_of_lt (hburst p0 hp0)
  have hle := (doneBurst_bounds st.procs st.isCompleted hbst).2
  rw [burst_sum_eq_of_sameJob hreach.np_frame, ← totalBurstTime_eq] at hle
  have hcount : st.isCompleted.count true = st.isCompleted.length := by
    have h1 := hinv.count
    have h2 := hinv.lenC
    have h3 := hinv.len
    have h4 := List.count_le_length true st.isCompleted
    omega
  intro r hr
  obtain ⟨i, hi⟩ := List.mem_iff_getElem?.1 hr
  have hil : i < st.isCompleted.length := by
    rw [hinv.lenC, ← hinv.len]; exact (List.getElem?_eq_some.1 hi).1
  have hd := (hinv.done i r (all_true_of_count_eq _ hcount i hil) hi).2
  omega

/-- A workload of the run-input contract whose latest arrival plus burst times
fits an `int` has its arrival and burst times below `INT_MAX`, but for the
burst time of a single process that arrives at 0. -/
theorem arrival_lt_of_clock (procs : List Process)
    (hrange : ∀ p ∈ procs, 0 ≤ p.arrivalTime ∧ 0 < p.burstTime)
    (hclock : maxArrival procs + totalBurstTime procs ≤ INT_MAX) :
    ∀ p ∈ procs, p.arrivalTime < INT_MAX := by
  intro p hp
  have h1 := le_maxArrival hp
  have h2 := le_totalBurstTime procs (fun q hq => le_of_lt (hrange q hq).2) hp
  have h3 := (hrange p hp).2
  omega

/-- The times of a record with the metrics of a non-preemptive run, of a job
of the run-input contract, are non-negative and at most the completion time. -/
theorem timesInRange_of_metrics {r : Process} (hm : nonPreemptiveMetrics r)
    (ha : 0 ≤ r.arrivalTime) (hb : 0 ≤ r.burstTime) (hc : r.completionTime ≤ INT_MAX) :
    timesInRange r := by
  obtain ⟨⟨h1, h2, h3, h4⟩, h5, h6⟩ := hm
  unfold timesInRange
  refine ⟨⟨?_, ?_⟩, ⟨?_, ?_⟩, ⟨?_, ?_⟩, ⟨?_, ?_⟩⟩ <;> omega

/-- The times `fcfs` computes stay within the range of `int` where the latest
arrival plus the burst times does. -/
theorem fcfs_ranged (procs : List Process)
    (hrange : ∀ p ∈ procs, 0 ≤ p.arrivalTime ∧ 0 < p.burstTime)
    (hclock : maxArrival procs + totalBurstTime procs ≤ INT_MAX) :
    ∀ r ∈ fcfs procs, timesInRange r := by
  intro r hr
  have hc := fcfs_clock procs (fun p hp => le_of_lt (hrange p hp).2) r hr
  obtain ⟨p, hp, hs⟩ := frame_mem (fcfsRun_sameJob 0 (sortByArrival procs)) hr
  obtain ⟨ha, hb⟩ := hrange p ((sortByArrival_perm procs).subset hp)
  refine timesInRange_of_metrics (fcfsRun_metrics 0 _ r hr) ?_ ?_ (by omega)
  · rw [← hs.2.2.1]; exact ha
  · rw [← hs.2.2.2.1]; exact le_of_lt hb

/-- The result of `sjf` and `priorityNonPreemptive` on a non-empty workload of
the run-input contract whose keys are below `INT_MAX` and whose latest arrival
plus burst times fits an `int`: every time computed is within the range of
`int`. -/
theorem nonPreemptive_ranged (key : Process → Int) (procs : List Process) (hne : procs ≠ [])
    (hjob : ∀ p q, sameJob p q → key p = key q)
    (hrange : ∀ p ∈ procs, 0 ≤ p.arrivalTime ∧ 0 < p.burstTime)
    (hkey : ∀ p ∈ procs, key p < INT_MAX)
    (hclock : maxArrival procs + totalBurstTime procs ≤ INT_MAX)
    (fuel : Nat) (hfuel : fuelBound procs ≤ fuel) :
    ∃ out, nonPreemptive key fuel procs = .ok out ∧ List.Forall₂ sameJob procs out ∧
      (∀ r ∈ out, nonPreemptiveMetrics r) ∧
      (∀ (i j : Nat) p q, i ≠ j → out[i]? = some p → out[j]? = some q → disjointSlots p q) ∧
      ∀ r ∈ out, timesInRange r := by
  have hburst : ∀ p ∈ procs, 0 < p.burstTime := fun p hp => (hrange p hp).2
  obtain ⟨out, hrun, hsame, hm, hslots, _⟩ := nonPreemptive_spec key procs hne hjob hkey
    (fun p hp => le_of_lt (hburst p hp)) fuel (fuelBound_np procs hfuel)
  refine ⟨out, hrun, hsame, hm, hslots, fun r hr => ?_⟩
  have hc := nonPreemptive_clock key procs hjob hkey hburst
    (arrival_lt_of_clock procs hrange hclock) fuel out hrun r hr
  obtain ⟨p, hp, hs⟩ := frame_mem hsame hr
  obtain ⟨ha, hb⟩ := hrange p hp
  refine timesInRange_of_metrics (hm r hr) ?_ ?_ (by omega)
  · rw [← hs.2.2.1]; exact ha
  · rw [← hs.2.2.2.1]; exact le_of_lt hb

/-! ## Claims on the times of the non-preemptive routines, within the range of `int` -/

/-- C1, amended: for every non-empty workload with arrivalTime >= 0 and
burstTime > 0 whose burst times and priorities are below `INT_MAX` and whose
latest arrival plus burst times fits an `int` (so that no clock value leaves
the range of `int`), `fcfs`, and `sjf` and `priorityNonPreemptive` with any
fuel from `fuelBound` on, return the jobs of the workload, each with
completionTime >= arrivalTime + burstTime, turnaroundTime = completionTime -
arrivalTime, waitingTime = turnaroundTime - burstTime >= 0 and responseTime =
waitingTime >= 0, every time computed being a non-negative `int`. -/
theorem nonPreemptive_metrics (procs : List Process) (hne : procs ≠ [])
    (hrange : ∀ p ∈ procs, 0 ≤ p.arrivalTime ∧ 0 < p.burstTime)
    (hsent : ∀ p ∈ procs, p.burstTime < INT_MAX ∧ p.priority < INT_MAX)
    (hclock : maxArrival procs + totalBurstTime procs ≤ INT_MAX)
    (fuel : Nat) (hfuel : fuelBound procs ≤ fuel) :
    (List.Forall₂ sameJob (sortByArrival procs) (fcfs procs) ∧
      ∀ r ∈ fcfs procs, nonPreemptiveMetrics r ∧ timesInRange r) ∧
    (∃ out, sjf fuel procs = .ok out ∧ List.Forall₂ sameJob procs out ∧
      ∀ r ∈ out, nonPreemptiveMetrics r ∧ timesInRange r) ∧
    (∃ out, priorityNonPreemptive fuel procs = .ok out ∧ List.Forall₂ sameJob procs out ∧
      ∀ r ∈ out, nonPreemptiveMetrics r ∧ timesInRange r) := by
  refine ⟨⟨fcfsRun_sameJob 0 _,
    fun r hr => ⟨fcfsRun_metrics 0 _ r hr, fcfs_ranged procs hrange hclock r hr⟩⟩, ?_, ?_⟩
  · obtain ⟨out, h1, h2, h3, _, h5⟩ := nonPreemptive_ranged Process.burstTime procs hne
      sameJob_burst hrange (fun p hp => (hsent p hp).1) hclock fuel hfuel
    exact ⟨out, h1, h2, fun r hr => ⟨h3 r hr, h5 r hr⟩⟩
  · obtain ⟨out, h1, h2, h3, _, h5⟩ := nonPreemptive_ranged Process.priority procs hne
      sameJob_priority hrange (fun p hp => (hsent p hp).2) hclock fuel hfuel
    exact ⟨out, h1, h2, fun r hr => ⟨h3 r hr, h5 r hr⟩⟩

/-- C1, amended, at the sample workload with fuel 1029. -/
theorem nonPreemptive_metrics_witness :
    (sampleData ≠ [] ∧ (∀ p ∈ sampleData, 0 ≤ p.arrivalTime ∧ 0 < p.burstTime) ∧
      (∀ p ∈ sampleData, p.burstTime < INT_MAX ∧ p.priority < INT_MAX) ∧
      maxArrival sampleData + totalBurstTime sampleData ≤ INT_MAX ∧
      fuelBound sampleData ≤ 1029) ∧
    ((List.Forall₂ sameJob (sortByArrival sampleData) (fcfs sampleData) ∧
      ∀ r ∈ fcfs sampleData, nonPreemptiveMetrics r ∧ timesInRange r) ∧
    (∃ out, sjf 1029 sampleData = .ok out ∧ List.Forall₂ sameJob sampleData out ∧
      ∀ r ∈ out, nonPreemptiveMetrics r ∧ timesInRange r) ∧
    (∃ out, priorityNonPreemptive 1029 sampleData = .ok out ∧
      List.Forall₂ sameJob sampleData out ∧
      ∀ r ∈ out, nonPreemptiveMetrics r ∧ timesInRange r)) :=
  ⟨⟨by decide, by decide, by decide, by decide, by decide⟩,
    nonPreemptive_metrics sampleData (by decide) (by decide) (by decide) (by decide) 1029
      (by decide)⟩

/-- C3: `fcfs` equals the reference definition. For a workload with distinct
ids, arrivalTime >= 0 and burstTime > 0 whose latest arrival plus burst times
fits an `int` (so that no clock value leaves the range of `int`), and any
arrangement `ord` of it by ascending arrival time, ties by ascending id, `fcfs`
leaves at position `k` the `k`-th process of `ord` with completion time `c_k =
max(c_{k-1}, arrival_k) + burst_k` and response time `max(c_{k-1}, arrival_k) -
arrival_k`, where `c_0 = 0`, every time computed being a non-negative `int`;
on the sample workload the completion times are 5, 8, 16, 22 for P1..P4. -/
theorem fcfs_refines_reference (procs ord : List Process)
    (hid : (procs.map Process.id).Nodup) (hperm : ord.Perm procs)
    (hord : arrivalOrdered ord)
    (hrange : ∀ p ∈ procs, 0 ≤ p.arrivalTime ∧ 0 < p.burstTime)
    (hclock : maxArrival procs + totalBurstTime procs ≤ INT_MAX) :
    (fcfs procs).length = ord.length ∧
      (∀ (k : Nat) (p : Process), ord[k]? = some p →
        ∃ r, (fcfs procs)[k]? = some r ∧ sameJob p r ∧
          r.completionTime = max (refClock ord k) p.arrivalTime + p.burstTime ∧
          r.completionTime = refClock ord (k + 1) ∧
          r.responseTime = max (refClock ord k) p.arrivalTime - p.arrivalTime ∧
          timesInRange r) ∧
      (fcfs sampleData).map (fun p => (p.id, p.completionTime)) =
        [(1, 5), (2, 8), (3, 16), (4, 22)] := by
  have hsort : sortByArrival procs = ord :=
    sortByArrival_unique procs ord hid hperm (hord.imp (fun h => (fcfsLe_iff _ _).2 h))
  refine ⟨?_, ?_, by decide⟩
  · unfold fcfs; rw [hsort, fcfsRun_length]
  · intro k p hp
    have h1 : refClock ord (k + 1) = max (refClock ord k) p.arrivalTime + p.burstTime := by
      rw [refClock, hp]
    have hk : (fcfs procs)[k]? = (fcfsRun 0 ord)[k]? := by unfold fcfs; rw [hsort]
    have hr := fcfsRun_getElem? ord k p hp
    refine ⟨_, hk.trans hr, ⟨rfl, rfl, rfl, rfl, rfl⟩, h1, rfl, rfl, ?_⟩
    exact fcfs_ranged procs hrange hclock _ (mem_of_getElem?_eq (hk.trans hr))

/-- C3 at the sample workload, which is listed in its reference order. -/
theorem fcfs_refines_reference_witness :
    ((sampleData.map Process.id).Nodup ∧ sampleData.Perm sampleData ∧
      arrivalOrdered sampleData ∧
      (∀ p ∈ sampleData, 0 ≤ p.arrivalTime ∧ 0 < p.burstTime) ∧
      maxArrival sampleData + totalBurstTime sampleData ≤ INT_MAX) ∧
    ((fcfs sampleData).length = sampleData.length ∧
      (∀ (k : Nat) (p : Process), sampleData[k]? = some p →
        ∃ r, (fcfs sampleData)[k]? = some r ∧ sameJob p r ∧
          r.completionTime = max (refClock sampleData k) p.arrivalTime + p.burstTime ∧
          r.completionTime = refClock sampleData (k + 1) ∧
          r.responseTime = max (refClock sampleData k) p.arrivalTime - p.arrivalTime ∧
          timesInRange r) ∧
      (fcfs sampleData).map (fun p => (p.id, p.completionTime)) =
        [(1, 5), (2, 8), (3, 16), (4, 22)]) :=
  ⟨⟨by decide, List.Perm.refl _, by decide, by decide, by decide⟩,
    fcfs_refines_reference sampleData sampleData (by decide) (List.Perm.refl _) (by decide)
      (by decide) (by decide)⟩

/-- C4, amended: for every non-empty workload with arrivalTime >= 0 and
burstTime > 0 whose burst times and priorities are below `INT_MAX` and whose
latest arrival plus burst times fits an `int` (so that no clock value leaves
the range of `int`), in the output of `fcfs`, and of `sjf` and
`priorityNonPreemptive` with any fuel from `fuelBound` on, every process
occupies `[completionTime - burstTime, completionTime)`, that slot starts at or
after its arrival, and the slots at any two distinct positions are disjoint,
every time computed being a non-negative `int`. -/
theorem nonPreemptive_noOverlap (procs : List Process) (hne : procs ≠ [])
    (hrange : ∀ p ∈ procs, 0 ≤ p.arrivalTime ∧ 0 < p.burstTime)
    (hsent : ∀ p ∈ procs, p.burstTime < INT_MAX ∧ p.priority < INT_MAX)
    (hclock : maxArrival procs + totalBurstTime procs ≤ INT_MAX)
    (fuel : Nat) (hfuel : fuelBound procs ≤ fuel) :
    (List.Forall₂ sameJob (sortByArrival procs) (fcfs procs) ∧ noOverlap (fcfs procs) ∧
      ∀ r ∈ fcfs procs, timesInRange r) ∧
    (∃ out, sjf fuel procs = .ok out ∧ List.Forall₂ sameJob procs out ∧ noOverlap out ∧
      ∀ r ∈ out, timesInRange r) ∧
    (∃ out, priorityNonPreemptive fuel procs = .ok out ∧ List.Forall₂ sameJob procs out ∧
      noOverlap out ∧ ∀ r ∈ out, timesInRange r) := by
  refine ⟨⟨fcfsRun_sameJob 0 _, fcfs_noOverlap procs (fun p hp => (hrange p hp).2),
    fcfs_ranged procs hrange hclock⟩, ?_, ?_⟩
  · obtain ⟨out, h1, h2, h3, h4, h5⟩ := nonPreemptive_ranged Process.burstTime procs hne
      sameJob_burst hrange (fun p hp => (hsent p hp).1) hclock fuel hfuel
    exact ⟨out, h1, h2, metrics_noOverlap h3 h4, h5⟩
  · obtain ⟨out, h1, h2, h3, h4, h5⟩ := nonPreemptive_ranged Process.priority procs hne
      sameJob_priority hrange (fun p hp => (hsent p hp).2) hclock fuel hfuel
    exact ⟨out, h1, h2, metrics_noOverlap h3 h4, h5⟩

/-- C4, amended, at the sample workload with fuel 1029. -/
theorem nonPreemptive_noOverlap_witness :
    (sampleData ≠ [] ∧ (∀ p ∈ sampleData, 0 ≤ p.arrivalTime ∧ 0 < p.burstTime) ∧
      (∀ p ∈ sampleData, p.burstTime < INT_MAX ∧ p.priority < INT_MAX) ∧
      maxArrival sampleData + totalBurstTime sampleData ≤ INT_MAX ∧
      fuelBound sampleData ≤ 1029) ∧
    ((List.Forall₂ sameJob (sortByArrival sampleData) (fcfs sampleData) ∧
      noOverlap (fcfs sampleData) ∧ ∀ r ∈ fcfs sampleData, timesInRange r) ∧
    (∃ out, sjf 1029 sampleData = .ok out ∧ List.Forall₂ sameJob sampleData out ∧
      noOverlap out ∧ ∀ r ∈ out, timesInRange r) ∧
    (∃ out, priorityNonPreemptive 1029 sampleData = .ok out ∧
      List.Forall₂ sameJob sampleData out ∧ noOverlap out ∧ ∀ r ∈ out, timesInRange r)) :=
  ⟨⟨by decide, by decide, by decide, by decide, by decide⟩,
    nonPreemptive_noOverlap sampleData (by decide) (by decide) (by decide) (by decide) 1029
      (by decide)⟩

/-! ## A single process, within the range of `int` -/

/-- C12, amended: for every workload of a single process, as the constructor
builds it, with arrivalTime = 0 and burstTime > 0 whose safety bound burstTime
+ 1000 fits an `int` and whose priority is below `INT_MAX`, and every quantum
>= 1, each of the six routines, with any fuel from `fuelBound` on, returns that
job with waitingTime = 0, responseTime = 0 and completionTime = burstTime. -/
theorem single_process_runs_alone (p : Process) (hfresh : p.fresh) (harr : p.arrivalTime = 0)
    (hburst : 0 < p.burstTime) (hfit : maxTimeOf [p] p ≤ INT_MAX)
    (hprio : p.priority < INT_MAX)
    (quantum : Int) (hquantum : 1 ≤ quantum) (fuel : Nat) (hfuel : fuelBound [p] ≤ fuel) :
    (∃ q, fcfs [p] = [q] ∧ ranAlone p q) ∧
    (∃ q, sjf fuel [p] = .ok [q] ∧ ranAlone p q) ∧
    (∃ q, srtf fuel [p] = .ok [q] ∧ ranAlone p q) ∧
    (∃ q, priorityNonPreemptive fuel [p] = .ok [q] ∧ ranAlone p q) ∧
    (∃ q, priorityPreemptive fuel [p] = .ok [q] ∧ ranAlone p q) ∧
    (∃ q, roundRobin quantum fuel [p] = .ok [q] ∧ ranAlone p q) := by
  have hf1 := fuelBound_single p hfuel
  have hsent : p.burstTime < INT_MAX := by
    have h1 : totalBurstTime [p] = p.burstTime := by simp [totalBurstTime]
    unfold maxTimeOf at hfit
    rw [h1, harr] at hfit
    omega
  have hmem : ∀ (P : Process → Prop), P p → ∀ x ∈ [p], P x := by
    intro P hP x hx
    rw [List.mem_singleton.1 hx]; exact hP
  have hlast : [p].getLast? = some p := rfl
  refine ⟨?_, ?_, ?_, ?_, ?_, ?_⟩
  · have hfc : fcfs [p] = [{ p with responseTime := 0, completionTime := p.burstTime,
                                      turnaroundTime := p.burstTime, waitingTime := 0 }] := by
      simp [fcfs, sortByArrival, fcfsRun, harr]
    exact ⟨_, hfc, ⟨rfl, rfl, rfl, rfl, rfl⟩, rfl, rfl, rfl⟩
  · exact ⟨_, nonPreemptive_single _ p harr hsent fuel hf1, ⟨rfl, rfl, rfl, rfl, rfl⟩,
      rfl, rfl, rfl⟩
  · obtain ⟨st, hrun, hinv, _, hall⟩ := srtfRun_complete [p] p hlast (hmem _ hfresh)
      (hmem _ (le_of_eq harr.symm)) (hmem _ hburst) (hmem _ hsent)
      (hmem (fun x => x.arrivalTime ≤ p.arrivalTime + 1000) (by omega)) fuel hfuel
    obtain ⟨q, hq, hal⟩ := hinv.p_single harr hburst hall
    exact ⟨q, by simp only [srtf, hrun, Except.map, hq], hal⟩
  · exact ⟨_, nonPreemptive_single _ p harr hprio fuel hf1, ⟨rfl, rfl, rfl, rfl, rfl⟩,
      rfl, rfl, rfl⟩
  · obtain ⟨st, hrun, hinv, _, hall⟩ := priorityPreemptiveRun_complete [p] p hlast
      (hmem _ hfresh) (hmem _ (le_of_eq harr.symm)) (hmem _ hburst) (hmem _ hprio)
      (hmem (fun x => x.arrivalTime ≤ p.arrivalTime + 1000) (by omega)) fuel hfuel
    obtain ⟨q, hq, hal⟩ := hinv.p_single harr hburst hall
    exact ⟨q, by simp only [priorityPreemptive, hrun, Except.map, hq], hal⟩
  · obtain ⟨st, hrun, hinv, _, hall⟩ := roundRobinRun_spec quantum hquantum [p] p hlast
      (hmem _ hfresh) (hmem _ (le_of_eq harr.symm)) (hmem _ hburst)
      (hmem (fun x => x.arrivalTime < INT_MAX) (by show p.arrivalTime < INT_MAX; rw [harr]; decide))
      (hmem (fun x => x.arrivalTime ≤ p.arrivalTime + 1000) (by omega)) fuel
      (fuelBound_rr [p] hfuel)
    obtain ⟨q, hq, hal⟩ := hinv.rr_single harr hburst hall
    exact ⟨q, by simp only [roundRobin, hrun, Except.map, hq], hal⟩

/-- C12, amended, at the process P1 of the sample workload with quantum 2 and
fuel 1006. -/
theorem single_process_runs_alone_witness :
    ((Process.create 1 "P1" 0 5 2).fresh ∧ (Process.create 1 "P1" 0 5 2).arrivalTime = 0 ∧
      0 < (Process.create 1 "P1" 0 5 2).burstTime ∧
      maxTimeOf [Process.create 1 "P1" 0 5 2] (Process.create 1 "P1" 0 5 2) ≤ INT_MAX ∧
      (Process.create 1 "P1" 0 5 2).priority < INT_MAX ∧
      (1 : Int) ≤ 2 ∧ fuelBound [Process.create 1 "P1" 0 5 2] ≤ 1006) ∧
    ((∃ q, fcfs [Process.create 1 "P1" 0 5 2] = [q] ∧ ranAlone (Process.create 1 "P1" 0 5 2) q) ∧
    (∃ q, sjf 1006 [Process.create 1 "P1" 0 5 2] = .ok [q] ∧
      ranAlone (Process.create 1 "P1" 0 5 2) q) ∧
    (∃ q, srtf 1006 [Process.create 1 "P1" 0 5 2] = .ok [q] ∧
      ranAlone (Process.create 1 "P1" 0 5 2) q) ∧
    (∃ q, priorityNonPreemptive 1006 [Process.create 1 "P1" 0 5 2] = .ok [q] ∧
      ranAlone (Process.create 1 "P1" 0 5 2) q) ∧
    (∃ q, priorityPreemptive 1006 [Process.create 1 "P1" 0 5 2] = .ok [q] ∧
      ranAlone (Process.create 1 "P1" 0 5 2) q) ∧
    (∃ q, roundRobin 2 1006 [Process.create 1 "P1" 0 5 2] = .ok [q] ∧
      ranAlone (Process.create 1 "P1" 0 5 2) q)) :=
  ⟨⟨by decide, by decide, by decide, by decide, by decide, by decide, by decide⟩,
    single_process_runs_alone (Process.create 1 "P1" 0 5 2) (by decide) (by decide) (by decide)
      (by decide) (by decide) 2 (by decide) 1006 (by decide)⟩

/-! ## The dispatch order of priorityNonPreemptive -/

/-- C15: `priorityNonPreemptive` never dispatches past a more urgent ready
process. For every non-empty workload of the run-input contract (arrivalTime >=
0, burstTime > 0, priority in 0..99) whose latest arrival plus burst times fits
an `int` (so that no clock value leaves the range of `int`), with any fuel from
`fuelBound` on, the routine returns the jobs of the workload, every time
computed being a non-negative `int`, and for any two processes `p` and `q` of
the output: if `q` had arrived when `p` was dispatched (at arrivalTime +
responseTime of `p`) and `q` completed after `p`, then the priority value of
`p` is at most that of `q`, and if the two are equal `p` arrived no later than
`q`. -/
theorem priority_dispatch_order (procs : List Process) (hne : procs ≠ [])
    (hvalid : ∀ p ∈ procs,
      0 ≤ p.arrivalTime ∧ 0 < p.burstTime ∧ 0 ≤ p.priority ∧ p.priority ≤ 99)
    (hclock : maxArrival procs + totalBurstTime procs ≤ INT_MAX)
    (fuel : Nat) (hfuel : fuelBound procs ≤ fuel) :
    ∃ out, priorityNonPreemptive fuel procs = .ok out ∧ List.Forall₂ sameJob procs out ∧
      (∀ r ∈ out, timesInRange r) ∧
      ∀ (i j : Nat) (p q : Process), out[i]? = some p → out[j]? = some q →
        q.arrivalTime ≤ p.arrivalTime + p.responseTime →
        p.completionTime < q.completionTime →
        p.priority ≤ q.priority ∧ (p.priority = q.priority → p.arrivalTime ≤ q.arrivalTime) := by
  have hrange : ∀ p ∈ procs, 0 ≤ p.arrivalTime ∧ 0 < p.burstTime :=
    fun p hp => ⟨(hvalid p hp).1, (hvalid p hp).2.1⟩
  have hburst : ∀ p ∈ procs, 0 < p.burstTime := fun p hp => (hvalid p hp).2.1
  have hsent : ∀ p ∈ procs, p.priority < INT_MAX := fun p hp => by
    have := (hvalid p hp).2.2.2
    unfold INT_MAX; omega
  obtain ⟨out, hrun, hsame, _, _, hfit⟩ := nonPreemptive_ranged Process.priority procs hne
    sameJob_priority hrange hsent hclock fuel hfuel
  refine ⟨out, hrun, hsame, hfit, ?_⟩
  obtain ⟨st, hreach, rfl, hdone⟩ := nonPreemptive_reach _ fuel procs out hrun
  obtain ⟨hinv, hQ⟩ := hreach.urgent sameJob_priority hsent hburst
  intro i j p q hp hq harr hlt
  have hcount : st.isCompleted.count true = st.isCompleted.length := by
    have h1 := hinv.count
    have h2 := hinv.lenC
    have h3 := hinv.len
    have h4 := List.count_le_length true st.isCompleted
    omega
  have hi : i < st.isCompleted.length := by
    rw [hinv.lenC, ← hinv.len]; exact (List.getElem?_eq_some.1 hp).1
  have h := hQ i j p q hp hq (all_true_of_count_eq _ hcount i hi) harr (Or.inr hlt)
  unfold scanLe at h
  constructor
  · omega
  · intro he; omega

/-- C15 at the sample workload with fuel 1029. -/
theorem priority_dispatch_order_witness :
    (sampleData ≠ [] ∧
      (∀ p ∈ sampleData,
        0 ≤ p.arrivalTime ∧ 0 < p.burstTime ∧ 0 ≤ p.priority ∧ p.priority ≤ 99) ∧
      maxArrival sampleData + totalBurstTime sampleData ≤ INT_MAX ∧
      fuelBound sampleData ≤ 1029) ∧
    ∃ out, priorityNonPreemptive 1029 sampleData = .ok out ∧
      List.Forall₂ sameJob sampleData out ∧ (∀ r ∈ out, timesInRange r) ∧
      ∀ (i j : Nat) (p q : Process), out[i]? = some p → out[j]? = some q →
        q.arrivalTime ≤ p.arrivalTime + p.responseTime →
        p.completionTime < q.completionTime →
        p.priority ≤ q.priority ∧ (p.priority = q.priority → p.arrivalTime ≤ q.arrivalTime) :=
  ⟨⟨by decide, by decide, by decide, by decide⟩,
    priority_dispatch_order sampleData (by decide) (by decide) (by decide) 1029 (by decide)⟩

end CPUScheduler
